import Mathlib

/-!
# BPE tokenizer kernel (operators/tokenizer/bpe_kernels.cc)

A shallow embedding of `BpeModelConf::GetSpecialTokens`, `IsUnicodeSpace`, `AllSpaceUstring`,
`RemoveConsecutiveSpaces`, the constructor of `KernelBpeTokenizer`,
`KernelBpeTokenizer::Tokenize` and `KernelBpeTokenizer::Compute`, followed by theorems
about them.

Conventions of the embedding
* a `ustring` is the list of its `char32_t` code points, a `std::string` the list of its bytes;
* `size_t` arithmetic is arithmetic on `Nat` reduced modulo `2^64` (`wrap64`);
* the collaborators declared in headers that are not part of this translation unit
  (`BpeModel`, `TokenWithRegularExp`, `LRUCache`, `ToLower`, the `ustring` conversions) are the
  fields of `BpeEnv`: the kernel is verified for every implementation of them;
* calling `front()` / `back()` on an empty string (undefined behaviour) and `at(0)` on an empty
  string (`std::out_of_range`) end the run with a `TokenizeError`;
* every call into a collaborator is recorded, in order, in a call log.
-/

namespace BpeKernels

/-- A `ustring` (`std::u32string`): the sequence of its code points. -/
abbrev ustring := List Nat

/-- A `std::string`: the sequence of its bytes. -/
abbrev Bytes := List Nat

/-- One entry of `byte_list`: `std::pair<uint32_t, uint32_t>` = (symbol id, source length). -/
abbrev Symbol := Nat × Nat

/-- The type `OffsetMappingType`: `std::list<std::pair<size_t, size_t>>`. -/
abbrev OffsetMappingType := List (Nat × Nat)

/-- The three values `ModelName()` can take (`kModel_GPT2`, `kModel_Roberta`, `kModel_CLIP`). -/
inductive Model where
  | GPT2
  | Roberta
  | CLIP
  deriving DecidableEq, Repr

deriving instance DecidableEq for Except

/-- Reduction of a natural number to the range of `size_t` (64 bit). -/
def wrap64 (n : Nat) : Nat := n % 18446744073709551616

/-- The function `IsUnicodeSpace(char32_t ch)`. -/
def IsUnicodeSpace (ch : Nat) : Bool :=
  match ch with
  | 0x0009 => true
  | 0x000A => true
  | 0x000B => true
  | 0x000C => true
  | 0x000D => true
  | 0x001C => true
  | 0x001D => true
  | 0x001E => true
  | 0x001F => true
  | 0x0020 => true
  | 0x0085 => true
  | 0x00A0 => true
  | 0x1680 => true
  | 0x2000 => true
  | 0x2001 => true
  | 0x2002 => true
  | 0x2003 => true
  | 0x2004 => true
  | 0x2005 => true
  | 0x2006 => true
  | 0x2007 => true
  | 0x2008 => true
  | 0x2009 => true
  | 0x200A => true
  | 0x2028 => true
  | 0x2029 => true
  | 0x202F => true
  | 0x205F => true
  | 0x3000 => true
  | _ => false

/-- The function `AllSpaceUstring(const ustring& str)`: `std::all_of` with `IsUnicodeSpace`. -/
def AllSpaceUstring (str : ustring) : Bool :=
  str.all IsUnicodeSpace

/-- The loop of `RemoveConsecutiveSpaces`; the second argument is `lastWasSpace`, the value is
what the remaining iterations push onto `result`. -/
def RemoveConsecutiveSpaces.loop : ustring → Bool → ustring
  | [], _ => []
  | ch :: rest, lastWasSpace =>
    if IsUnicodeSpace ch then
      if !lastWasSpace then ch :: RemoveConsecutiveSpaces.loop rest true
      else RemoveConsecutiveSpaces.loop rest true
    else ch :: RemoveConsecutiveSpaces.loop rest false

/-- The function `RemoveConsecutiveSpaces(const ustring& input)`. -/
def RemoveConsecutiveSpaces (input : ustring) : ustring :=
  RemoveConsecutiveSpaces.loop input false

/-- The ways a run of `Tokenize` can end without returning. -/
inductive TokenizeError where
  /-- The call `str.front()` on an empty string. -/
  | front_of_empty
  /-- The call `str.back()` on an empty string. -/
  | back_of_empty
  /-- The call `utf8_token.at(0)` on an empty string, which throws `std::out_of_range`. -/
  | at_out_of_range
  deriving DecidableEq, Repr

/-- One call into a collaborator of `Tokenize`, with what it was given or what it gave back. -/
inductive Call where
  /-- The call `bbpe_tokenizer_->SplitBySpecialTokens(input)`. -/
  | SplitBySpecialTokens (input : ustring)
  /-- The call `regcmp.Set(ptr)` on a plain-text segment. -/
  | Set (cur_input : ustring)
  /-- The call `regcmp.GetNextToken()` and the chunk it returned (`none` when `b` is false). -/
  | GetNextToken (tok : Option ustring)
  /-- The call `bpe_cache.already_tokenized(utf8_token)` and its answer. -/
  | already_tokenized (key : Bytes) (hit : Bool)
  /-- The call `bpe_cache.get_output(utf8_token)` and the list it returned. -/
  | get_output (key : Bytes) (out : List Symbol)
  /-- The call `bbpe_tokenizer_->bpe(byte_list)`: the list handed over and the list it left. -/
  | bpe (byte_list : List Symbol) (merged : List Symbol)
  /-- The call `bpe_cache.add(utf8_token, byte_list)`. -/
  | add (key : Bytes) (value : List Symbol)
  deriving DecidableEq, Repr

/-- The interface of `LRUCache` over a type `κ` of cache states. -/
structure LRUCache (κ : Type) where
  /-- The constructor `LRUCache(capacity)`. -/
  create : Nat → κ
  /-- The query `already_tokenized(key)`. -/
  already_tokenized : κ → Bytes → Bool
  /-- The getter `get_output(key)`; it may refresh recency, so it returns the new state too. -/
  get_output : κ → Bytes → κ × List Symbol
  /-- The insertion `add(key, value)`. -/
  add : κ → Bytes → List Symbol → κ

/-- The members of `KernelBpeTokenizer` and the collaborators `Tokenize` calls. -/
structure BpeEnv (κ : Type) where
  /-- The member `bos_token_id_`. -/
  bos_token_id_ : Int
  /-- The member `eos_token_id_`. -/
  eos_token_id_ : Int
  /-- The member `pad_token_id_`. -/
  pad_token_id_ : Int
  /-- The method `BpeModel::SplitBySpecialTokens`; the second component is -1 for plain text. -/
  SplitBySpecialTokens : ustring → List (ustring × Int)
  /-- All chunks `TokenWithRegularExp::GetNextToken` yields, in order, after `Set` on a segment. -/
  GetNextToken : ustring → List ustring
  /-- The conversion `std::string(ustring(tok))` to UTF-8. -/
  utf8 : ustring → Bytes
  /-- The conversion `ustring(str)` from UTF-8. -/
  from_utf8 : Bytes → ustring
  /-- The table `BpeModel::ByteEncoder()`, indexed by a byte. -/
  ByteEncoder : Nat → Nat
  /-- The method `BpeModel::GetTokenId`. -/
  GetTokenId : Bytes → Nat
  /-- The method `BpeModel::bpe`, as the list it leaves in `byte_list`. -/
  bpe : List Symbol → List Symbol
  /-- The function `ToLower` on one code point. -/
  ToLower : Nat → Nat
  /-- The cache implementation. -/
  bpe_cache : LRUCache κ

/-- The CLIP branch at the start of `Tokenize` (the value assigned to `input`). -/
def CLIPPreProcess (input : ustring) : Except TokenizeError ustring :=
  let str := RemoveConsecutiveSpaces input
  match str.head? with
  | none => .error .front_of_empty
  | some front =>
    let str1 := if IsUnicodeSpace front then str.tail else str
    match str1.getLast? with
    | none => .error .back_of_empty
    | some back =>
      let str2 := if IsUnicodeSpace back then str1.dropLast else str1
      let str3 := str2.filter (fun c => c != 0x0A)
      let str4 := str3.filter (fun c => c != 0x0D)
      .ok str4

/-- The variables of `Tokenize` that the loop over the chunks of one segment reads and writes. -/
structure ScanState (κ : Type) where
  /-- The result vector `res`. -/
  res : List Int
  /-- The local `bpe_cache`. -/
  bpe_cache : κ
  /-- The running `offset`. -/
  offset : Nat
  /-- The list `offset_mapping` of the current segment. -/
  offset_mapping : OffsetMappingType
  /-- The call log. -/
  calls : List Call

/-- The body of the loop `for (auto p : byte_list)` after the test of the budget: the id of
`p` is added to `res` and, when offsets are asked for, its pair to `offset_mapping`. -/
def emitStep {κ : Type} (compute_offset_mapping clean_up_spaces : Bool) (space_dif : Nat)
    (p : Symbol) (st : ScanState κ) : ScanState κ :=
  let st1 := { st with res := st.res ++ [(p.1 : Int)] }
  if compute_offset_mapping then
    if clean_up_spaces then
      { st1 with
        offset_mapping := st1.offset_mapping ++ [(st1.offset, wrap64 (st1.offset + p.2))]
        offset := wrap64 (st1.offset + p.2) }
    else
      { st1 with
        offset_mapping :=
          st1.offset_mapping ++ [(st1.offset, wrap64 (st1.offset + p.2 + space_dif))]
        offset := wrap64 (st1.offset + (p.2 + space_dif)) }
  else st1

/-- The loop `for (auto p : byte_list)` that adds the symbols of one chunk to the result. -/
def emitLoop {κ : Type} (max_length : Int) (compute_offset_mapping clean_up_spaces : Bool)
    (space_dif : Nat) : List Symbol → ScanState κ → ScanState κ
  | [], st => st
  | p :: ps, st =>
    if (st.res.length : Int) ≥ max_length then st
    else
      emitLoop max_length compute_offset_mapping clean_up_spaces space_dif ps
        (emitStep compute_offset_mapping clean_up_spaces space_dif p st)

/-- The byte list built for CLIP on a cache miss, from the chunk with its spaces erased: every
byte but the last goes through `ByteEncoder`, the last one through `GetTokenId` with the
suffix `</w>`. -/
def clipByteList {κ : Type} (env : BpeEnv κ) : Bytes → List Symbol
  | [] => []
  | [c] => [(env.GetTokenId (c :: [0x3C, 0x2F, 0x77, 0x3E]), 1)]
  | c :: d :: rest => (env.ByteEncoder c, 1) :: clipByteList env (d :: rest)

/-- The cache lookup of one chunk, and on a miss the byte encoding, the merge and the insertion
into the cache: the resulting `byte_list`, the new cache state and the calls made. -/
def lookupOrMerge {κ : Type} (env : BpeEnv κ) (clean_up_spaces : Bool) (utf8_token : Bytes)
    (cache : κ) : List Symbol × κ × List Call :=
  if env.bpe_cache.already_tokenized cache utf8_token then
    let out := env.bpe_cache.get_output cache utf8_token
    (out.2, out.1, [Call.already_tokenized utf8_token true, Call.get_output utf8_token out.2])
  else
    if clean_up_spaces then
      let erased := utf8_token.filter (fun c => c != 0x20)
      let byte_list := clipByteList env erased
      let merged := env.bpe byte_list
      (merged, env.bpe_cache.add cache erased merged,
        [Call.already_tokenized utf8_token false, Call.bpe byte_list merged,
          Call.add erased merged])
    else
      let byte_list := utf8_token.map (fun cp => (env.ByteEncoder cp, 1))
      let merged := env.bpe byte_list
      (merged, env.bpe_cache.add cache utf8_token merged,
        [Call.already_tokenized utf8_token false, Call.bpe byte_list merged,
          Call.add utf8_token merged])

/-- The block after `size_t space_dif = 0` that, when offsets are asked for and
`utf8_token.at(0) == ' '`, does `offset++` and `space_dif = -1`: the new values of `offset`
and `space_dif`. -/
def spaceAdjust (compute_offset_mapping : Bool) (utf8_token : Bytes) (offset : Nat) :
    Except TokenizeError (Nat × Nat) :=
  if compute_offset_mapping then
    match utf8_token.head? with
    | none => .error .at_out_of_range
    | some c =>
      if c = 0x20 then .ok (wrap64 (offset + 1), 18446744073709551615)
      else .ok (offset, 0)
  else .ok (offset, 0)

/-- The loop `while (static_cast<int64_t>(res.size()) < max_length)` over the chunks of one
segment; the list argument is what the scanner has not yet handed out. -/
def scanLoop {κ : Type} (env : BpeEnv κ) (max_length : Int)
    (compute_offset_mapping clean_up_spaces : Bool) :
    List ustring → ScanState κ → Except TokenizeError (ScanState κ)
  | [], st =>
    if (st.res.length : Int) < max_length then
      .ok { st with calls := st.calls ++ [Call.GetNextToken none] }
    else .ok st
  | tok :: rest, st =>
    if (st.res.length : Int) < max_length then
      match spaceAdjust compute_offset_mapping (env.utf8 tok) st.offset with
      | .error e => .error e
      | .ok adjusted =>
        let found := lookupOrMerge env clean_up_spaces (env.utf8 tok) st.bpe_cache
        scanLoop env max_length compute_offset_mapping clean_up_spaces rest
          (emitLoop max_length compute_offset_mapping clean_up_spaces adjusted.2 found.1
            { st with
              offset := adjusted.1
              bpe_cache := found.2.1
              calls := (st.calls ++ [Call.GetNextToken (some tok)]) ++ found.2.2 })
    else .ok st

/-- The variables of `Tokenize` that live across the segments. -/
structure SegState (κ : Type) where
  /-- The result vector `res`. -/
  res : List Int
  /-- The local `bpe_cache`. -/
  bpe_cache : κ
  /-- The out parameter `offset_map`. -/
  offset_map : List OffsetMappingType
  /-- The call log. -/
  calls : List Call

/-- The loop `for (auto& seg_id : special_token_split_res)`. -/
def segLoop {κ : Type} (env : BpeEnv κ) (name : Model) (max_length : Int)
    (compute_offset_mapping : Bool) :
    List (ustring × Int) → SegState κ → Except TokenizeError (SegState κ)
  | [], st => .ok st
  | seg_id :: rest, st =>
    if (st.res.length : Int) ≥ max_length then .ok st
    else if seg_id.2 ≠ -1 then
      segLoop env name max_length compute_offset_mapping rest
        { st with res := st.res ++ [seg_id.2] }
    else
      let cur_input := seg_id.1
      let offset_mapping : OffsetMappingType :=
        if compute_offset_mapping && (name != Model.GPT2) then [(0, 0)] else []
      let st0 : ScanState κ :=
        { res := st.res, bpe_cache := st.bpe_cache, offset := 0,
          offset_mapping := offset_mapping, calls := st.calls ++ [Call.Set cur_input] }
      match scanLoop env max_length compute_offset_mapping (name == Model.CLIP)
          (env.GetNextToken cur_input) st0 with
      | .error e => .error e
      | .ok st1 =>
        let offset_map :=
          if compute_offset_mapping then
            if name != Model.GPT2 then st.offset_map ++ [st1.offset_mapping ++ [(0, 0)]]
            else st.offset_map ++ [st1.offset_mapping]
          else st.offset_map
        segLoop env name max_length compute_offset_mapping rest
          { res := st1.res, bpe_cache := st1.bpe_cache, offset_map := offset_map,
            calls := st1.calls }

/-- What a call of `Tokenize` leaves behind. -/
structure TokenizeResult where
  /-- The returned vector. -/
  res : List Int
  /-- The out parameter `offset_map` after the call. -/
  offset_map : List OffsetMappingType
  /-- The in/out parameter `input` after the call. -/
  input : ustring
  /-- The calls into the collaborators, in order. -/
  calls : List Call
  deriving DecidableEq, Repr

/-- The method `KernelBpeTokenizer::Tokenize`. -/
def Tokenize {κ : Type} (env : BpeEnv κ) (name : Model) (input : ustring) (max_length : Int)
    (compute_offset_mapping : Bool) (offset_map : List OffsetMappingType) :
    Except TokenizeError TokenizeResult :=
  match (if name = Model.CLIP then CLIPPreProcess input else .ok input) with
  | .error e => .error e
  | .ok input1 =>
    if AllSpaceUstring input1 && (name == Model.CLIP) then
      .ok { res := [env.bos_token_id_, env.eos_token_id_], offset_map := offset_map,
            input := input1, calls := [] }
    else
      let res0 : List Int := if name != Model.GPT2 then [env.bos_token_id_] else []
      let input2 := if name == Model.CLIP then input1.map env.ToLower else input1
      let special_token_split_res := env.SplitBySpecialTokens input2
      match segLoop env name max_length compute_offset_mapping special_token_split_res
          { res := res0, bpe_cache := env.bpe_cache.create 500, offset_map := offset_map,
            calls := [Call.SplitBySpecialTokens input2] } with
      | .error e => .error e
      | .ok st =>
        .ok { res := if name != Model.GPT2 then st.res ++ [env.eos_token_id_] else st.res,
              offset_map := st.offset_map, input := input2, calls := st.calls }

/-- The conversion `static_cast<size_t>` of an `int64_t`. -/
def int64_to_size_t (n : Int) : Nat := (n % 18446744073709551616).toNat

/-- The conversion of a `size_t` to `int64_t` (two's complement). -/
def size_t_to_int64 (n : Nat) : Int :=
  if n % 18446744073709551616 < 9223372036854775808 then ((n % 18446744073709551616 : Nat) : Int)
  else ((n % 18446744073709551616 : Nat) : Int) - 18446744073709551616

/-- The loop `for (auto& str : str_input)` of `Compute`: the vector `tokenize_results` and the
list `offset_map` it builds. -/
def tokenizeAll {κ : Type} (env : BpeEnv κ) (name : Model) (padding_length_ : Int)
    (compute_offset_mapping : Bool) :
    List Bytes → List (List Int) → List OffsetMappingType →
      Except TokenizeError (List (List Int) × List OffsetMappingType)
  | [], tokenize_results, offset_map => .ok (tokenize_results, offset_map)
  | str :: rest, tokenize_results, offset_map =>
    match Tokenize env name (env.from_utf8 str)
        (if padding_length_ < 0 then 4294967295 else padding_length_)
        compute_offset_mapping offset_map with
    | .error e => .error e
    | .ok r =>
      tokenizeAll env name padding_length_ compute_offset_mapping rest
        (tokenize_results ++ [r.res]) r.offset_map

/-- The loop `for (auto& res : tokenize_results) max_length = std::max(max_length, res.size())`,
started from the value in the first argument. -/
def maxSize : Nat → List (List Int) → Nat
  | max_length, [] => max_length
  | max_length, res :: rest => maxSize (max max_length res.length) rest

/-! An output buffer is given by the values written to it so far: as `idx` starts at 0 and is
incremented after every write, the buffer holds a list and `idx` is its length. -/

/-- The loop `for (int64_t id : res) { token[idx] = id; idx++; }`. -/
def writeIds (res : List Int) (token : List Int) : List Int :=
  res.foldl (fun buf id => buf ++ [id]) token

/-- The loop `for (int64_t id : res) { mask[idx] = 1; idx++; }`. -/
def writeOnes (res : List Int) (mask : List Int) : List Int :=
  res.foldl (fun buf _ => buf ++ [1]) mask

/-- The loop `for (size_t i = res.size(); i < max_length; i++) { buf[idx] = v; idx++; }`. -/
def writePad (v : Int) (res_size max_length : Nat) (buf : List Int) : List Int :=
  (List.range' res_size (max_length - res_size)).foldl (fun b _ => b ++ [v]) buf

/-- The loop over `tokenize_results` that fills `mask`. -/
def maskLoop (max_length : Nat) : List (List Int) → List Int → List Int
  | [], mask => mask
  | res :: rest, mask =>
    maskLoop max_length rest (writePad 0 res.length max_length (writeOnes res mask))

/-- The loop over `tokenize_results` that fills `token`. -/
def tokenLoop (pad_token_id_ : Int) (max_length : Nat) : List (List Int) → List Int → List Int
  | [], token => token
  | res :: rest, token =>
    tokenLoop pad_token_id_ max_length rest
      (writePad pad_token_id_ res.length max_length (writeIds res token))

/-- The loop `for (auto& mapping : res)` that writes the two ends of every pair to `offset`. -/
def writePairs (res : OffsetMappingType) (offset : List Int) : List Int :=
  res.foldl
    (fun buf mapping => (buf ++ [size_t_to_int64 mapping.1]) ++ [size_t_to_int64 mapping.2])
    offset

/-- The loop over `offset_map` that fills `offset`. -/
def offsetLoop : List OffsetMappingType → List Int → List Int
  | [], offset => offset
  | res :: rest, offset => offsetLoop rest (writePairs res offset)

/-- The outputs of `Compute`, each buffer as the list of the values written to it (the value
written at index `k` is the element number `k`), with the shapes given to `Allocate`. -/
structure ComputeResult where
  /-- The shape `output_dim` given to `Allocate` for `token` and `mask`. -/
  output_dim : List Int
  /-- The shape `offset_dim` given to `Allocate` for `offset`. -/
  offset_dim : List Int
  /-- The width `max_length`. -/
  max_length : Nat
  /-- The vector `tokenize_results`. -/
  tokenize_results : List (List Int)
  /-- The list `offset_map` after the last call of `Tokenize`. -/
  offset_map : List OffsetMappingType
  /-- The buffer `token`. -/
  token : List Int
  /-- The buffer `mask`, when `attention_mask` has a value. -/
  mask : Option (List Int)
  /-- The buffer `offset`, when `offset_mapping` has a value. -/
  offset : Option (List Int)
  deriving DecidableEq, Repr

/-- The method `KernelBpeTokenizer::Compute`; `attention_mask` and `offset_mapping` say whether
the optional outputs have a value. -/
def Compute {κ : Type} (env : BpeEnv κ) (name : Model) (padding_length_ : Int)
    (input : List Bytes) (input_dim : List Int) (attention_mask offset_mapping : Bool) :
    Except TokenizeError ComputeResult :=
  let compute_offset_mapping := offset_mapping
  match tokenizeAll env name padding_length_ compute_offset_mapping input [] [] with
  | .error e => .error e
  | .ok (tokenize_results, offset_map) =>
    let max_length : Nat :=
      if padding_length_ = -1 then maxSize 0 tokenize_results
      else int64_to_size_t padding_length_
    let output_dim := input_dim ++ [size_t_to_int64 max_length]
    let offset_dim := output_dim ++ [2]
    .ok { output_dim := output_dim
          offset_dim := offset_dim
          max_length := max_length
          tokenize_results := tokenize_results
          offset_map := offset_map
          token := tokenLoop env.pad_token_id_ max_length tokenize_results []
          mask := if attention_mask then some (maskLoop max_length tokenize_results []) else none
          offset := if offset_mapping then some (offsetLoop offset_map []) else none }

/-- The number of elements of a tensor of the given shape (`TensorBase::NumberOfElement`,
without the reduction to 64 bits). -/
def NumberOfElement (shape : List Int) : Int := shape.foldl (fun a b => a * b) 1

/-! ### The run of a segment without a budget -/

/-- The symbols of all chunks of a segment in order, as the cache and the merge engine give
them from the cache state `cache` on, when no budget ends the loop over the chunks. -/
def symbolsOf {κ : Type} (env : BpeEnv κ) (clean_up_spaces : Bool) : List ustring → κ → List Symbol
  | [], _ => []
  | tok :: rest, cache =>
    let found := lookupOrMerge env clean_up_spaces (env.utf8 tok) cache
    found.1 ++ symbolsOf env clean_up_spaces rest found.2.1

/-- The chunks that the call log says the scanner handed out, in order (`none` stands for a
call of `GetNextToken` that found nothing more). -/
def fetched : List Call → List (Option ustring)
  | [] => []
  | Call.GetNextToken tok :: rest => tok :: fetched rest
  | _ :: rest => fetched rest

/-- The symbol lists that the call log says the cache and the merge engine returned. -/
def returned : List Call → List (List Symbol)
  | [] => []
  | Call.get_output _ out :: rest => out :: returned rest
  | Call.bpe _ merged :: rest => merged :: returned rest
  | _ :: rest => returned rest

/-- The sum of the source lengths of a symbol list. -/
def sourceLength (l : List Symbol) : Nat := (l.map (fun p => p.2)).sum

/-- The room the running offset needs for the symbol lists that the call log says were
returned: for every list its source lengths and one position for a leading space. -/
def offsetSpan (calls : List Call) : Nat :=
  ((returned calls).map (fun l => 1 + sourceLength l)).sum

/-- The number of content ids that `max_length` leaves room for: the BOS id of Roberta and
CLIP is counted against the budget, the EOS id is not. -/
def contentBudget (name : Model) (max_length : Int) : Nat :=
  if name = Model.GPT2 then max_length.toNat else (max_length - 1).toNat

/-- The ids of a result without the first and the last one (for GPT2: all of them). -/
def contentIds (name : Model) (res : List Int) : List Int :=
  if name = Model.GPT2 then res else (res.drop 1).dropLast

/-! ### A small concrete tokenizer, used to run the kernel on examples -/

/-- A cache that keeps every entry: the state is the list of entries, newest first. -/
def listCache : LRUCache (List (Bytes × List Symbol)) where
  create := fun _ => []
  already_tokenized := fun c key => (c.lookup key).isSome
  get_output := fun c key => (c, (c.lookup key).getD [])
  add := fun c key value => (key, value) :: c

/-- A scanner in the style of the byte-level grammar: a chunk is a run of code points without
a space, with the single space before it when there is one. -/
def spaceScan : ustring → List ustring
  | [] => []
  | c :: cs =>
    match spaceScan cs with
    | [] => [[c]]
    | g :: gs => if g.head? = some 0x20 then [c] :: g :: gs else (c :: g) :: gs

/-- A splitter with one special token, the code point `special`, whose id is `id`: the text
before the first occurrence, the token, and the rest split in the same way. -/
def splitAt (special : Nat) (id : Int) : ustring → List (ustring × Int)
  | [] => []
  | c :: cs =>
    if c = special then ([c], id) :: splitAt special id cs
    else
      match splitAt special id cs with
      | (seg, -1) :: more => (c :: seg, -1) :: more
      | more => ([c], -1) :: more

/-- A tokenizer without merges over ASCII text: the id of a byte is the byte, `bos` is 256,
`eos` 257, `pad` 258, and the code point 1 is a special token with id 300. -/
def asciiEnv : BpeEnv (List (Bytes × List Symbol)) where
  bos_token_id_ := 256
  eos_token_id_ := 257
  pad_token_id_ := 258
  SplitBySpecialTokens := splitAt 1 300
  GetNextToken := spaceScan
  utf8 := fun s => s
  from_utf8 := fun s => s
  ByteEncoder := fun b => b
  GetTokenId := fun s => s.headD 0 + 1000
  bpe := fun l => l
  ToLower := fun c => if 65 ≤ c ∧ c ≤ 90 then c + 32 else c
  bpe_cache := listCache

/-- The run of the small Roberta tokenizer on `"a b c"` with a budget of 3, without offsets. -/
def robertaRun3 : TokenizeResult :=
  { res := [256, 97, 32, 257], offset_map := [], input := [97, 32, 98, 32, 99],
    calls := [Call.SplitBySpecialTokens [97, 32, 98, 32, 99], Call.Set [97, 32, 98, 32, 99],
      Call.GetNextToken (some [97]), Call.already_tokenized [97] false,
      Call.bpe [(97, 1)] [(97, 1)], Call.add [97] [(97, 1)],
      Call.GetNextToken (some [32, 98]), Call.already_tokenized [32, 98] false,
      Call.bpe [(32, 1), (98, 1)] [(32, 1), (98, 1)], Call.add [32, 98] [(32, 1), (98, 1)]] }

/-- The run of the small Roberta tokenizer on `"a b c"` with a budget of 100, without
offsets. -/
def robertaRun100 : TokenizeResult :=
  { res := [256, 97, 32, 98, 32, 99, 257], offset_map := [], input := [97, 32, 98, 32, 99],
    calls := [Call.SplitBySpecialTokens [97, 32, 98, 32, 99], Call.Set [97, 32, 98, 32, 99],
      Call.GetNextToken (some [97]), Call.already_tokenized [97] false,
      Call.bpe [(97, 1)] [(97, 1)], Call.add [97] [(97, 1)],
      Call.GetNextToken (some [32, 98]), Call.already_tokenized [32, 98] false,
      Call.bpe [(32, 1), (98, 1)] [(32, 1), (98, 1)], Call.add [32, 98] [(32, 1), (98, 1)],
      Call.GetNextToken (some [32, 99]), Call.already_tokenized [32, 99] false,
      Call.bpe [(32, 1), (99, 1)] [(32, 1), (99, 1)], Call.add [32, 99] [(32, 1), (99, 1)],
      Call.GetNextToken none] }

/-- The outputs of the small Roberta kernel with `padding_length_ = -1` on the batch
`["a", "abc"]`, with the attention mask and without the offsets. -/
def autoPadRun : ComputeResult :=
  { output_dim := [2, 5], offset_dim := [2, 5, 2], max_length := 5,
    tokenize_results := [[256, 97, 257], [256, 97, 98, 99, 257]], offset_map := [],
    token := [256, 97, 257, 258, 258, 256, 97, 98, 99, 257],
    mask := some [1, 1, 1, 0, 0, 1, 1, 1, 1, 1], offset := none }

/-- The outputs of the small GPT2 kernel with `padding_length_ = 3` on the batch
`["a b c", "a"]`, with the attention mask and without the offsets. -/
def fixedPadRun : ComputeResult :=
  { output_dim := [2, 3], offset_dim := [2, 3, 2], max_length := 3,
    tokenize_results := [[97, 32, 98], [97]], offset_map := [],
    token := [97, 32, 98, 97, 258, 258],
    mask := some [1, 1, 1, 1, 0, 0], offset := none }

/-- The run of the small GPT2 tokenizer on `"a bc"` with offsets. -/
def gpt2OffsetsRun : TokenizeResult :=
  { res := [97, 32, 98, 99], offset_map := [[(0, 1), (2, 2), (2, 2), (2, 2)]],
    input := [97, 32, 98, 99],
    calls := [Call.SplitBySpecialTokens [97, 32, 98, 99], Call.Set [97, 32, 98, 99],
      Call.GetNextToken (some [97]), Call.already_tokenized [97] false,
      Call.bpe [(97, 1)] [(97, 1)], Call.add [97] [(97, 1)],
      Call.GetNextToken (some [32, 98, 99]), Call.already_tokenized [32, 98, 99] false,
      Call.bpe [(32, 1), (98, 1), (99, 1)] [(32, 1), (98, 1), (99, 1)],
      Call.add [32, 98, 99] [(32, 1), (98, 1), (99, 1)], Call.GetNextToken none] }

/-- The run of the small Roberta tokenizer on `"ab"` with offsets. -/
def robertaOffsetsRun : TokenizeResult :=
  { res := [256, 97, 98, 257], offset_map := [[(0, 0), (0, 1), (1, 2), (0, 0)]],
    input := [97, 98],
    calls := [Call.SplitBySpecialTokens [97, 98], Call.Set [97, 98],
      Call.GetNextToken (some [97, 98]), Call.already_tokenized [97, 98] false,
      Call.bpe [(97, 1), (98, 1)] [(97, 1), (98, 1)], Call.add [97, 98] [(97, 1), (98, 1)],
      Call.GetNextToken none] }

/-! ### The constructor -/

/-- The error codes given to `ORTX_CXX_API_THROW` in this translation unit. -/
inductive OrtErrorCode where
  | ORT_INVALID_ARGUMENT
  deriving DecidableEq, Repr

/-- The three `ORTX_CXX_API_THROW` statements of the constructor. -/
inductive ConstructorThrow where
  /-- The throw with the message that the vocabulary should not be empty. -/
  | vocabulary_empty
  /-- The throw with the message that the merges should not be empty. -/
  | merges_empty
  /-- The throw with the message that `padding_length` should be more than 0 or equal -1. -/
  | padding_length_invalid
  deriving DecidableEq, Repr

/-- The error code of each throw of the constructor. -/
def ConstructorThrow.code : ConstructorThrow → OrtErrorCode
  | .vocabulary_empty => .ORT_INVALID_ARGUMENT
  | .merges_empty => .ORT_INVALID_ARGUMENT
  | .padding_length_invalid => .ORT_INVALID_ARGUMENT

/-- The constructor `KernelBpeTokenizer::KernelBpeTokenizer` up to the point where the
vocabulary is loaded: the value of `padding_length_`, or the throw. The arguments are the
attributes `vocab` and `merges`, and the attribute `padding_length`, which is `none` when
`TryToGetAttribute` finds none. -/
def KernelBpeTokenizer (vocab merges : Bytes) (padding_length : Option Int) :
    Except ConstructorThrow Int :=
  if vocab.isEmpty then .error .vocabulary_empty
  else if merges.isEmpty then .error .merges_empty
  else
    let padding_length_ : Int :=
      match padding_length with
      | some value => value
      | none => -1
    if padding_length_ != -1 && decide (padding_length_ ≤ 0) then .error .padding_length_invalid
    else .ok padding_length_

/-- The attribute `vocab` of Scenario A, `{"Hello":1,"Ġworld":2,"<unk>":0}`, in UTF-8. -/
def scenarioAVocab : Bytes :=
  [123, 34, 72, 101, 108, 108, 111, 34, 58, 49, 44, 34, 196, 160, 119, 111, 114, 108, 100, 34,
    58, 50, 44, 34, 60, 117, 110, 107, 62, 34, 58, 48, 125]

/-! ### The encoding of a chunk and the contract of the cache -/

/-- The byte list that `Tokenize` builds from a chunk on a cache miss, before the merge: for
CLIP from the chunk with its spaces erased, otherwise one entry per byte. -/
def encodeChunk {κ : Type} (env : BpeEnv κ) (clean_up_spaces : Bool) (utf8_token : Bytes) :
    List Symbol :=
  if clean_up_spaces then clipByteList env (utf8_token.filter (fun c => c != 0x20))
  else utf8_token.map (fun cp => (env.ByteEncoder cp, 1))

/-- A cache that returns for a present key the value last added under it: there is a reading
`view` of the cache states as partial maps from keys to values such that a new cache is empty,
a key that `already_tokenized` reports is in the map and `get_output` returns its value,
`get_output` adds no entry, and after `add` every entry is the added one or an entry that was
there before (entries may be evicted at any time). -/
def LawfulCache {κ : Type} (cache : LRUCache κ) : Prop :=
  ∃ view : κ → Bytes → Option (List Symbol),
    (∀ capacity key, view (cache.create capacity) key = none) ∧
    (∀ c key, cache.already_tokenized c key = true →
      view c key = some (cache.get_output c key).2) ∧
    (∀ c key key1 value, view (cache.get_output c key).1 key1 = some value →
      view c key1 = some value) ∧
    (∀ c key value key1 value1, view (cache.add c key value) key1 = some value1 →
      (key1 = key ∧ value1 = value) ∨ view c key1 = some value1)

/-- The chunks that the call log says the scanner handed out, without the calls that found
nothing more. -/
def fetchedChunks (calls : List Call) : List ustring :=
  (fetched calls).filterMap (fun tok => tok)

/-! ### The offsets of the content symbols, in the words of the specification -/

/-- The UTF-8 form and the byte list of every chunk of a segment, as the cache and the merge
engine give them from the cache state `cache` on, when no budget ends the loop. -/
def chunkLists {κ : Type} (env : BpeEnv κ) (clean_up_spaces : Bool) :
    List ustring → κ → List (Bytes × List Symbol)
  | [], _ => []
  | tok :: rest, cache =>
    let found := lookupOrMerge env clean_up_spaces (env.utf8 tok) cache
    (env.utf8 tok, found.1) :: chunkLists env clean_up_spaces rest found.2.1

/-- What is taken off the source length of every symbol of a chunk: 1 for a chunk of GPT2 or
Roberta whose first byte is a space, 0 otherwise. -/
def spaceLoss (clean_up_spaces : Bool) (utf8_token : Bytes) : Nat :=
  if !clean_up_spaces && utf8_token.head? == some 0x20 then 1 else 0

/-- The pairs of the symbols of one chunk from the running offset `o` on: a symbol of source
length `L` gets the pair `(o, o + L - loss)` and moves the running offset to its end. -/
def symbolPairs (loss : Nat) : Nat → List Symbol → OffsetMappingType
  | _, [] => []
  | o, p :: ps => (o, o + p.2 - loss) :: symbolPairs loss (o + p.2 - loss) ps

/-- The running offset after the symbols of one chunk. -/
def symbolsEnd (loss : Nat) : Nat → List Symbol → Nat
  | o, [] => o
  | o, p :: ps => symbolsEnd loss (o + p.2 - loss) ps

/-- The running offset at the first symbol of a chunk: one more than before the chunk when
the first byte of the chunk is a space. -/
def chunkStart (utf8_token : Bytes) (o : Nat) : Nat :=
  if utf8_token.head? = some 0x20 then o + 1 else o

/-- The pairs of the symbols of the chunks of a segment from the running offset `o` on. -/
def chunkPairs (clean_up_spaces : Bool) : Nat → List (Bytes × List Symbol) → OffsetMappingType
  | _, [] => []
  | o, chunk :: rest =>
    symbolPairs (spaceLoss clean_up_spaces chunk.1) (chunkStart chunk.1 o) chunk.2 ++
      chunkPairs clean_up_spaces
        (symbolsEnd (spaceLoss clean_up_spaces chunk.1) (chunkStart chunk.1 o) chunk.2) rest

/-- The list that one plain-text segment adds to `offset_map`: the content pairs, for Roberta
and CLIP between the pairs `(0, 0)` of BOS and EOS. -/
def wrapPairs (name : Model) (content : OffsetMappingType) : OffsetMappingType :=
  if name = Model.GPT2 then content else (0, 0) :: (content ++ [(0, 0)])

/-- The run of the small GPT2 tokenizer on `"a b b"`, in which the second chunk `" b"` is
served from the cache. -/
def gpt2CacheRun : TokenizeResult :=
  { res := [97, 32, 98, 32, 98], offset_map := [], input := [97, 32, 98, 32, 98],
    calls := [Call.SplitBySpecialTokens [97, 32, 98, 32, 98], Call.Set [97, 32, 98, 32, 98],
      Call.GetNextToken (some [97]), Call.already_tokenized [97] false,
      Call.bpe [(97, 1)] [(97, 1)], Call.add [97] [(97, 1)],
      Call.GetNextToken (some [32, 98]), Call.already_tokenized [32, 98] false,
      Call.bpe [(32, 1), (98, 1)] [(32, 1), (98, 1)], Call.add [32, 98] [(32, 1), (98, 1)],
      Call.GetNextToken (some [32, 98]), Call.already_tokenized [32, 98] true,
      Call.get_output [32, 98] [(32, 1), (98, 1)], Call.GetNextToken none] }

/-! ### The special tokens of a configuration -/

/-- The members of `BpeModelConf` that this translation unit initialises and reads, in the
order of the initialisers; a `const char*` that may be `nullptr` is an `Option`, and
`unk_token_` is required. -/
structure BpeModelConf where
  /-- The member `name_`. -/
  name_ : Model
  /-- The member `unk_token_`. -/
  unk_token_ : Bytes
  /-- The member `bos_token_`. -/
  bos_token_ : Option Bytes
  /-- The member `eos_token_`. -/
  eos_token_ : Option Bytes
  /-- The member `pad_token_`. -/
  pad_token_ : Option Bytes

/-- Whether the string `sp` starts with the string `tok`. -/
def startsWith : Bytes → Bytes → Bool
  | _, [] => true
  | [], _ :: _ => false
  | c :: cs, t :: ts => c == t && startsWith cs ts

/-- The method `std::string::find(const char*)`: the first position at which `tok` occurs in
`sp`, and `none` for `npos`. -/
def find : Bytes → Bytes → Option Nat
  | [], tok => if tok.isEmpty then some 0 else none
  | c :: cs, tok =>
    if startsWith (c :: cs) tok then some 0
    else
      match find cs tok with
      | some pos => some (pos + 1)
      | none => none

/-- The lambda `add_token` of `GetSpecialTokens`: the value of `sp` after the call. -/
def add_token (sp : Bytes) (tok : Option Bytes) : Bytes :=
  match tok with
  | none => sp
  | some tok => if find sp tok = none then (sp ++ [0x0A]) ++ tok else sp

/-- The method `BpeModelConf::GetSpecialTokens`. -/
def BpeModelConf.GetSpecialTokens (conf : BpeModelConf) : Bytes :=
  let special_tokens := conf.unk_token_
  let special_tokens := add_token special_tokens conf.bos_token_
  let special_tokens := add_token special_tokens conf.eos_token_
  let special_tokens := add_token special_tokens conf.pad_token_
  special_tokens

/-- The configuration `kRobertaConfiguration`: the tokens `<unk>`, `<s>`, `</s>`, `<pad>`. -/
def kRobertaConfiguration : BpeModelConf :=
  { name_ := Model.Roberta
    unk_token_ := [60, 117, 110, 107, 62]
    bos_token_ := some [60, 115, 62]
    eos_token_ := some [60, 47, 115, 62]
    pad_token_ := some [60, 112, 97, 100, 62] }

/-- The configuration `kCLIPConfiguration`: the tokens `<|endoftext|>`, `<|startoftext|>`,
`<|endoftext|>`, `<|endoftext|>`. -/
def kCLIPConfiguration : BpeModelConf :=
  { name_ := Model.CLIP
    unk_token_ := [60, 124, 101, 110, 100, 111, 102, 116, 101, 120, 116, 124, 62]
    bos_token_ := some [60, 124, 115, 116, 97, 114, 116, 111, 102, 116, 101, 120, 116, 124, 62]
    eos_token_ := some [60, 124, 101, 110, 100, 111, 102, 116, 101, 120, 116, 124, 62]
    pad_token_ := some [60, 124, 101, 110, 100, 111, 102, 116, 101, 120, 116, 124, 62] }

/-! ### Words of the specification about whitespace and truncation -/

/-- Whether a string holds two adjacent characters that are both Unicode whitespace. -/
def hasAdjacentSpaces : ustring → Bool
  | c :: d :: rest => (IsUnicodeSpace c && IsUnicodeSpace d) || hasAdjacentSpaces (d :: rest)
  | _ => false

/-- The ids of a result before the trailing EOS id (for GPT2: the whole result). -/
def beforeEOS (name : Model) (res : List Int) : List Int :=
  if name = Model.GPT2 then res else res.dropLast

/-- The run of the small CLIP tokenizer on `"a b b"`, without offsets. -/
def clipRun : TokenizeResult :=
  { res := [256, 1097, 1098, 1098, 257], offset_map := [], input := [97, 32, 98, 32, 98],
    calls := [Call.SplitBySpecialTokens [97, 32, 98, 32, 98], Call.Set [97, 32, 98, 32, 98],
      Call.GetNextToken (some [97]), Call.already_tokenized [97] false,
      Call.bpe [(1097, 1)] [(1097, 1)], Call.add [97] [(1097, 1)],
      Call.GetNextToken (some [32, 98]), Call.already_tokenized [32, 98] false,
      Call.bpe [(1098, 1)] [(1098, 1)], Call.add [98] [(1098, 1)],
      Call.GetNextToken (some [32, 98]), Call.already_tokenized [32, 98] false,
      Call.bpe [(1098, 1)] [(1098, 1)], Call.add [98] [(1098, 1)],
      Call.GetNextToken none] }

/-- The ids of the segments of a split input when no budget ends the loops and no cache is
used: a special-token segment gives its id, a plain-text segment gives, chunk by chunk, the
ids of the merge of the family's encoding of the chunk. -/
def segmentIds {κ : Type} (env : BpeEnv κ) (clean_up_spaces : Bool) :
    List (ustring × Int) → List Int
  | [] => []
  | seg_id :: rest =>
    (if seg_id.2 ≠ -1 then [seg_id.2]
      else (((env.GetNextToken seg_id.1).map
        (fun tok => env.bpe (encodeChunk env clean_up_spaces (env.utf8 tok)))).flatten).map
          (fun p => (p.1 : Int)))
      ++ segmentIds env clean_up_spaces rest

/-- The cache state after the lookups of all chunks of a segment, from the state `cache`
on. -/
def cacheAfter {κ : Type} (env : BpeEnv κ) (clean_up_spaces : Bool) : List ustring → κ → κ
  | [], cache => cache
  | tok :: rest, cache =>
    cacheAfter env clean_up_spaces rest
      (lookupOrMerge env clean_up_spaces (env.utf8 tok) cache).2.1

/-- The lists that the segments of a split input add to `offset_map`, from a result of `n`
ids and the cache state `cache` on: nothing once the budget is used up, nothing for a
special-token segment (which adds one id), and for a plain-text segment the content pairs of
its chunks from the running offset 0, as many as the budget leaves room for ids, wrapped for
Roberta and CLIP. -/
def segmentPairs {κ : Type} (env : BpeEnv κ) (name : Model) (max_length : Int) :
    List (ustring × Int) → Nat → κ → List OffsetMappingType
  | [], _, _ => []
  | seg_id :: rest, n, cache =>
    if (n : Int) ≥ max_length then []
    else if seg_id.2 ≠ -1 then segmentPairs env name max_length rest (n + 1) cache
    else
      wrapPairs name
          ((chunkPairs (name == Model.CLIP) 0
            (chunkLists env (name == Model.CLIP) (env.GetNextToken seg_id.1) cache)).take
              (max_length - n).toNat) ::
        segmentPairs env name max_length rest
          (n + min (max_length - n).toNat
            (symbolsOf env (name == Model.CLIP) (env.GetNextToken seg_id.1) cache).length)
          (cacheAfter env (name == Model.CLIP) (env.GetNextToken seg_id.1) cache)

/-- The small tokenizer with a merge engine that merges every chunk into one symbol, whose
source length is the number of bytes of the chunk. -/
def mergeEnv : BpeEnv (List (Bytes × List Symbol)) :=
  { asciiEnv with
    bpe := fun l => if l.isEmpty then [] else [((l.headD (0, 0)).1 + 512, sourceLength l)] }

/-- The run of the small GPT2 tokenizer with merges on `"a bc"` with offsets. -/
def gpt2MergedRun : TokenizeResult :=
  { res := [609, 544], offset_map := [[(0, 1), (2, 4)]], input := [97, 32, 98, 99],
    calls := [Call.SplitBySpecialTokens [97, 32, 98, 99], Call.Set [97, 32, 98, 99],
      Call.GetNextToken (some [97]), Call.already_tokenized [97] false,
      Call.bpe [(97, 1)] [(609, 1)], Call.add [97] [(609, 1)],
      Call.GetNextToken (some [32, 98, 99]), Call.already_tokenized [32, 98, 99] false,
      Call.bpe [(32, 1), (98, 1), (99, 1)] [(544, 3)],
      Call.add [32, 98, 99] [(544, 3)], Call.GetNextToken none] }

/-- The initial symbol list of a chunk in the words of the specification. For GPT2 and
Roberta: one entry per UTF-8 byte of the chunk, in order, each `(ByteEncoder()[byte], 1)`. For
CLIP: one entry per byte of the chunk with its spaces erased, each of source length 1, whose id
is `ByteEncoder()[byte]`, but for the last entry `GetTokenId` of the byte followed by `</w>`;
the empty list when the chunk holds spaces only. -/
def isInitialSymbolList {κ : Type} (env : BpeEnv κ) (name : Model) (utf8_token : Bytes)
    (byte_list : List Symbol) : Prop :=
  (name ≠ Model.CLIP →
    byte_list.length = utf8_token.length ∧
    ∀ (i : Nat) (byte : Nat), utf8_token[i]? = some byte →
      byte_list[i]? = some (env.ByteEncoder byte, 1)) ∧
  (name = Model.CLIP →
    byte_list.length = (utf8_token.filter (fun c => c != 0x20)).length ∧
    (∀ (i : Nat) (byte : Nat), (utf8_token.filter (fun c => c != 0x20))[i]? = some byte →
      byte_list[i]? = some
        (if i + 1 = (utf8_token.filter (fun c => c != 0x20)).length
          then env.GetTokenId [byte, 0x3C, 0x2F, 0x77, 0x3E]
          else env.ByteEncoder byte, 1)) ∧
    ((∀ c ∈ utf8_token, c = 0x20) → byte_list = []))

/-- What a call log says about the lookups: every chunk that the scanner hands out is looked
up in the cache at once; on a hit the list is taken from the cache, on a miss the encoding of
the chunk is handed to the merge engine. -/
def lookupFollows {κ : Type} (env : BpeEnv κ) (clean_up_spaces : Bool) (calls : List Call) :
    Prop :=
  ∀ pre post tok, calls = pre ++ Call.GetNextToken (some tok) :: post →
    (∃ out rest, post = Call.already_tokenized (env.utf8 tok) true
        :: Call.get_output (env.utf8 tok) out :: rest) ∨
    (∃ rest, post = Call.already_tokenized (env.utf8 tok) false
        :: Call.bpe (encodeChunk env clean_up_spaces (env.utf8 tok))
            (env.bpe (encodeChunk env clean_up_spaces (env.utf8 tok))) :: rest)

/-! ## Lemmas on the loops of `Tokenize` -/

section loops
variable {κ : Type}

theorem emitLoop_bpe_cache (M : Int) (com clean : Bool) (sd : Nat) (ps : List Symbol)
    (st : ScanState κ) : (emitLoop M com clean sd ps st).bpe_cache = st.bpe_cache := by
  induction ps generalizing st with
  | nil => rfl
  | cons p ps ih =>
    unfold emitLoop
    split
    · rfl
    · rw [ih]; cases com <;> cases clean <;> rfl

theorem emitLoop_calls (M : Int) (com clean : Bool) (sd : Nat) (ps : List Symbol)
    (st : ScanState κ) : (emitLoop M com clean sd ps st).calls = st.calls := by
  induction ps generalizing st with
  | nil => rfl
  | cons p ps ih =>
    unfold emitLoop
    split
    · rfl
    · rw [ih]; cases com <;> cases clean <;> rfl

/-- The ids `emitLoop` adds are the first ids of the byte list, as many as the budget allows. -/
theorem emitLoop_res (M : Int) (com clean : Bool) (sd : Nat) (ps : List Symbol)
    (st : ScanState κ) :
    (emitLoop M com clean sd ps st).res
      = st.res ++ (ps.map (fun p => (p.1 : Int))).take (M - st.res.length).toNat := by
  induction ps generalizing st with
  | nil => simp [emitLoop]
  | cons p ps ih =>
    unfold emitLoop
    split
    · rename_i h
      have : (M - st.res.length).toNat = 0 := by omega
      simp [this]
    · rename_i h
      rw [ih]
      have hres : ∀ (st2 : ScanState κ), st2.res = st.res ++ [(p.1 : Int)] →
          st2.res ++ List.take (M - st2.res.length).toNat (List.map (fun p => (p.1 : Int)) ps)
          = st.res ++ List.take (M - st.res.length).toNat
              (List.map (fun p => (p.1 : Int)) (p :: ps)) := by
        intro st2 h2
        obtain ⟨k, hk⟩ : ∃ k, (M - st.res.length).toNat = k + 1 :=
          ⟨(M - st.res.length).toNat - 1, by omega⟩
        have hk2 : (M - st2.res.length).toNat = k := by
          rw [h2]; simp; omega
        rw [hk, hk2, h2]; simp
      apply hres
      cases com <;> cases clean <;> rfl

/-- Without offsets `emitLoop` leaves `offset` and `offset_mapping` alone. -/
theorem emitLoop_no_offsets (M : Int) (clean : Bool) (sd : Nat) (ps : List Symbol)
    (st : ScanState κ) :
    (emitLoop M false clean sd ps st).offset_mapping = st.offset_mapping := by
  induction ps generalizing st with
  | nil => rfl
  | cons p ps ih =>
    unfold emitLoop
    split
    · rfl
    · rw [ih]; rfl

/-- Case analysis and induction along a run of `scanLoop` that returns. -/
theorem scanLoop_induction (env : BpeEnv κ) (M : Int) (com clean : Bool)
    (P : List ustring → ScanState κ → ScanState κ → Prop)
    (h_stop : ∀ chunks st, ¬ (st.res.length : Int) < M → P chunks st st)
    (h_end : ∀ st : ScanState κ, (st.res.length : Int) < M →
      P [] st { st with calls := st.calls ++ [Call.GetNextToken none] })
    (h_step : ∀ tok rest (st : ScanState κ) adjusted st', (st.res.length : Int) < M →
      spaceAdjust com (env.utf8 tok) st.offset = .ok adjusted →
      P rest
        (emitLoop M com clean adjusted.2 (lookupOrMerge env clean (env.utf8 tok) st.bpe_cache).1
          { st with
            offset := adjusted.1
            bpe_cache := (lookupOrMerge env clean (env.utf8 tok) st.bpe_cache).2.1
            calls := (st.calls ++ [Call.GetNextToken (some tok)])
              ++ (lookupOrMerge env clean (env.utf8 tok) st.bpe_cache).2.2 }) st' →
      P (tok :: rest) st st')
    (chunks : List ustring) (st st' : ScanState κ)
    (h : scanLoop env M com clean chunks st = .ok st') : P chunks st st' := by
  induction chunks generalizing st with
  | nil =>
    unfold scanLoop at h
    split at h
    · rename_i hlt
      rw [← Except.ok.inj h]
      exact h_end st hlt
    · rename_i hlt
      rw [← Except.ok.inj h]
      exact h_stop [] st hlt
  | cons tok rest ih =>
    unfold scanLoop at h
    split at h
    · rename_i hlt
      split at h
      · cases h
      · rename_i adjusted hadj
        exact h_step tok rest st adjusted st' hlt hadj (ih _ h)
    · rename_i hlt
      rw [← Except.ok.inj h]
      exact h_stop _ st hlt

end loops

section loops2
variable {κ : Type}

theorem scanLoop_stop (env : BpeEnv κ) (M : Int) (com clean : Bool) (chunks : List ustring)
    (st : ScanState κ) (h : ¬ (st.res.length : Int) < M) :
    scanLoop env M com clean chunks st = .ok st := by
  cases chunks <;> simp [scanLoop, h]

/-- The ids a run of `scanLoop` adds are the first ids of the symbols of the segment, as many
as the budget allows. -/
theorem scanLoop_res (env : BpeEnv κ) (M : Int) (com clean : Bool) (chunks : List ustring)
    (st st' : ScanState κ) (h : scanLoop env M com clean chunks st = .ok st') :
    st'.res = st.res ++
      ((symbolsOf env clean chunks st.bpe_cache).map (fun p => (p.1 : Int))).take
        (M - st.res.length).toNat := by
  refine scanLoop_induction env M com clean
    (fun chunks st st' => st'.res = st.res ++
      ((symbolsOf env clean chunks st.bpe_cache).map (fun p => (p.1 : Int))).take
        (M - st.res.length).toNat) ?_ ?_ ?_ chunks st st' h
  · intro chunks st hlt
    have : (M - st.res.length).toNat = 0 := by omega
    simp [this]
  · intro st _
    simp [symbolsOf]
  · intro tok rest st adjusted st' hlt _ hP
    rw [hP, emitLoop_res, emitLoop_bpe_cache]
    simp only [symbolsOf, List.map_append, List.take_append_eq_append_take, List.append_assoc,
      List.length_map, List.length_append, List.length_take]
    congr 3
    omega

theorem returned_append (a b : List Call) : returned (a ++ b) = returned a ++ returned b := by
  induction a with
  | nil => rfl
  | cons c a ih => cases c <;> simp [returned, ih]

theorem fetched_append (a b : List Call) : fetched (a ++ b) = fetched a ++ fetched b := by
  induction a with
  | nil => rfl
  | cons c a ih => cases c <;> simp [fetched, ih]

theorem returned_lookupOrMerge (env : BpeEnv κ) (clean : Bool) (key : Bytes) (cache : κ) :
    returned (lookupOrMerge env clean key cache).2.2 = [(lookupOrMerge env clean key cache).1] := by
  unfold lookupOrMerge
  split
  · rfl
  · split <;> rfl

theorem fetched_lookupOrMerge (env : BpeEnv κ) (clean : Bool) (key : Bytes) (cache : κ) :
    fetched (lookupOrMerge env clean key cache).2.2 = [] := by
  unfold lookupOrMerge
  split
  · rfl
  · split <;> rfl

/-- A run of `scanLoop` only adds to the call log and to the result, and every id it adds is
the id of a symbol that the cache or the merge engine returned during the run. -/
theorem scanLoop_origin (env : BpeEnv κ) (M : Int) (com clean : Bool) (chunks : List ustring)
    (st st' : ScanState κ) (h : scanLoop env M com clean chunks st = .ok st') :
    ∃ new added, st'.calls = st.calls ++ new ∧ st'.res = st.res ++ added ∧
      ∀ id ∈ added, ∃ l ∈ returned new, ∃ p ∈ l, (p.1 : Int) = id := by
  refine scanLoop_induction env M com clean
    (fun _ st st' => ∃ new added, st'.calls = st.calls ++ new ∧ st'.res = st.res ++ added ∧
      ∀ id ∈ added, ∃ l ∈ returned new, ∃ p ∈ l, (p.1 : Int) = id) ?_ ?_ ?_ chunks st st' h
  · intro _ st _
    exact ⟨[], [], by simp, by simp, by simp⟩
  · intro st _
    exact ⟨[Call.GetNextToken none], [], rfl, by simp, by simp⟩
  · intro tok rest st adjusted st' _ _ hP
    obtain ⟨new, added, hc, hr, hid⟩ := hP
    rw [emitLoop_calls] at hc
    rw [emitLoop_res] at hr
    refine ⟨[Call.GetNextToken (some tok)]
        ++ (lookupOrMerge env clean (env.utf8 tok) st.bpe_cache).2.2 ++ new,
      ((lookupOrMerge env clean (env.utf8 tok) st.bpe_cache).1.map (fun p => (p.1 : Int))).take
        (M - st.res.length).toNat ++ added, ?_, ?_, ?_⟩
    · rw [hc]; simp
    · rw [hr]; simp
    · intro id hmem
      rw [returned_append, returned_append, returned_lookupOrMerge]
      rcases List.mem_append.mp hmem with h1 | h1
      · have h2 := List.mem_of_mem_take h1
        obtain ⟨p, hp, hpe⟩ := List.mem_map.mp h2
        exact ⟨_, by simp [returned], p, hp, hpe⟩
      · obtain ⟨l, hl, p, hp, hpe⟩ := hid id h1
        exact ⟨l, by simp [hl], p, hp, hpe⟩

/-- The length of the result after `scanLoop`: nothing is added beyond the budget. -/
theorem scanLoop_length (env : BpeEnv κ) (M : Int) (com clean : Bool) (chunks : List ustring)
    (st st' : ScanState κ) (h : scanLoop env M com clean chunks st = .ok st') :
    (st'.res.length : Int) ≤ max (st.res.length : Int) M := by
  rw [scanLoop_res env M com clean chunks st st' h]
  simp only [List.length_append, List.length_take, List.length_map]
  omega

/-- Case analysis and induction along a run of `segLoop` that returns. -/
theorem segLoop_induction (env : BpeEnv κ) (name : Model) (M : Int) (com : Bool)
    (P : List (ustring × Int) → SegState κ → SegState κ → Prop)
    (h_nil : ∀ st, P [] st st)
    (h_stop : ∀ seg_id rest st, (st.res.length : Int) ≥ M → P (seg_id :: rest) st st)
    (h_special : ∀ (seg_id : ustring × Int) rest (st st' : SegState κ),
      ¬ (st.res.length : Int) ≥ M → seg_id.2 ≠ -1 →
      P rest { st with res := st.res ++ [seg_id.2] } st' → P (seg_id :: rest) st st')
    (h_plain : ∀ (seg_id : ustring × Int) rest (st : SegState κ) (st1 : ScanState κ) st',
      ¬ (st.res.length : Int) ≥ M → seg_id.2 = -1 →
      scanLoop env M com (name == Model.CLIP) (env.GetNextToken seg_id.1)
        { res := st.res, bpe_cache := st.bpe_cache, offset := 0,
          offset_mapping := if com && (name != Model.GPT2) then [(0, 0)] else [],
          calls := st.calls ++ [Call.Set seg_id.1] } = .ok st1 →
      P rest
        { res := st1.res, bpe_cache := st1.bpe_cache,
          offset_map :=
            if com then
              if name != Model.GPT2 then st.offset_map ++ [st1.offset_mapping ++ [(0, 0)]]
              else st.offset_map ++ [st1.offset_mapping]
            else st.offset_map,
          calls := st1.calls } st' →
      P (seg_id :: rest) st st')
    (segs : List (ustring × Int)) (st st' : SegState κ)
    (h : segLoop env name M com segs st = .ok st') : P segs st st' := by
  induction segs generalizing st with
  | nil =>
    unfold segLoop at h
    rw [← Except.ok.inj h]
    exact h_nil st
  | cons seg_id rest ih =>
    unfold segLoop at h
    split at h
    · rename_i hge
      rw [← Except.ok.inj h]
      exact h_stop seg_id rest st hge
    · rename_i hge
      split at h
      · rename_i hsp
        exact h_special seg_id rest st st' hge hsp (ih _ h)
      · rename_i hsp
        dsimp only at h
        cases hscan : scanLoop env M com (name == Model.CLIP) (env.GetNextToken seg_id.1)
          { res := st.res, bpe_cache := st.bpe_cache, offset := 0,
            offset_mapping := if com && (name != Model.GPT2) then [(0, 0)] else [],
            calls := st.calls ++ [Call.Set seg_id.1] } with
        | error e => rw [hscan] at h; cases h
        | ok st1 =>
          rw [hscan] at h
          dsimp only at h
          exact h_plain seg_id rest st st1 st' hge (by simpa using hsp) hscan (ih _ h)

end loops2

section loops3
variable {κ : Type}

/-- A run of `segLoop` only adds to the call log and to the result; every id it adds is the id
of a special-token segment or of a symbol returned by the cache or the merge engine. -/
theorem segLoop_origin (env : BpeEnv κ) (name : Model) (M : Int) (com : Bool)
    (segs : List (ustring × Int)) (st st' : SegState κ)
    (h : segLoop env name M com segs st = .ok st') :
    ∃ new added, st'.calls = st.calls ++ new ∧ st'.res = st.res ++ added ∧
      ∀ id ∈ added, (∃ seg_id ∈ segs, seg_id.2 ≠ -1 ∧ seg_id.2 = id) ∨
        (∃ l ∈ returned new, ∃ p ∈ l, (p.1 : Int) = id) := by
  refine segLoop_induction env name M com
    (fun segs st st' => ∃ new added, st'.calls = st.calls ++ new ∧ st'.res = st.res ++ added ∧
      ∀ id ∈ added, (∃ seg_id ∈ segs, seg_id.2 ≠ -1 ∧ seg_id.2 = id) ∨
        (∃ l ∈ returned new, ∃ p ∈ l, (p.1 : Int) = id)) ?_ ?_ ?_ ?_ segs st st' h
  · intro st
    exact ⟨[], [], by simp, by simp, by simp⟩
  · intro _ _ st _
    exact ⟨[], [], by simp, by simp, by simp⟩
  · intro seg_id rest st st' _ hsp hP
    obtain ⟨new, added, hc, hr, hid⟩ := hP
    refine ⟨new, seg_id.2 :: added, hc, by rw [hr]; simp, ?_⟩
    intro id hmem
    rcases List.mem_cons.mp hmem with h1 | h1
    · exact Or.inl ⟨seg_id, by simp, hsp, h1.symm⟩
    · rcases hid id h1 with ⟨s, hs, h2⟩ | h2
      · exact Or.inl ⟨s, List.mem_cons_of_mem _ hs, h2⟩
      · exact Or.inr h2
  · intro seg_id rest st st1 st' _ _ hscan hP
    obtain ⟨new, added, hc, hr, hid⟩ := hP
    obtain ⟨new1, added1, hc1, hr1, hid1⟩ := scanLoop_origin env M com _ _ _ _ hscan
    dsimp only at hc hr hc1 hr1
    refine ⟨[Call.Set seg_id.1] ++ new1 ++ new, added1 ++ added, ?_, ?_, ?_⟩
    · rw [hc, hc1]; simp
    · rw [hr, hr1]; simp
    · intro id hmem
      rw [returned_append, returned_append]
      rcases List.mem_append.mp hmem with h1 | h1
      · obtain ⟨l, hl, hp⟩ := hid1 id h1
        exact Or.inr ⟨l, by simp [hl], hp⟩
      · rcases hid id h1 with ⟨s, hs, h2⟩ | ⟨l, hl, hp⟩
        · exact Or.inl ⟨s, List.mem_cons_of_mem _ hs, h2⟩
        · exact Or.inr ⟨l, by simp [hl], hp⟩

/-- The length of the result after `segLoop`: nothing is added beyond the budget. -/
theorem segLoop_length (env : BpeEnv κ) (name : Model) (M : Int) (com : Bool)
    (segs : List (ustring × Int)) (st st' : SegState κ)
    (h : segLoop env name M com segs st = .ok st') :
    (st'.res.length : Int) ≤ max (st.res.length : Int) M := by
  refine segLoop_induction env name M com
    (fun _ st st' => (st'.res.length : Int) ≤ max (st.res.length : Int) M) ?_ ?_ ?_ ?_
    segs st st' h
  · intro st; omega
  · intro _ _ st _; omega
  · intro seg_id rest st st' hlt _ hP
    simp only [List.length_append, List.length_singleton] at hP
    omega
  · intro seg_id rest st st1 st' hlt _ hscan hP
    have h1 := scanLoop_length env M com _ _ _ _ hscan
    dsimp only at hP h1
    omega

end loops3

/-! ## The CLIP pre-processing never yields a string of whitespace only -/

theorem RemoveConsecutiveSpaces.loop_true_head (l : ustring) (d : Nat) (t : ustring)
    (h : RemoveConsecutiveSpaces.loop l true = d :: t) : IsUnicodeSpace d = false := by
  induction l with
  | nil => simp [RemoveConsecutiveSpaces.loop] at h
  | cons ch rest ih =>
    unfold RemoveConsecutiveSpaces.loop at h
    split at h
    · simp only [Bool.not_true, Bool.false_eq_true, ↓reduceIte] at h
      exact ih h
    · rename_i hsp
      simp only [List.cons.injEq] at h
      rw [← h.1]
      simpa using hsp

/-- Taking away a last whitespace character keeps a first character that is not whitespace. -/
theorem strip_back_head (d : Nat) (t : ustring) (hd : IsUnicodeSpace d = false) (back : Nat)
    (hb : (d :: t).getLast? = some back) :
    ∃ t', (if IsUnicodeSpace back then (d :: t).dropLast else d :: t) = d :: t' := by
  split
  · rename_i hsp
    cases t with
    | nil =>
      simp at hb
      rw [hb] at hd
      rw [hd] at hsp
      cases hsp
    | cons e t => exact ⟨(e :: t).dropLast, by simp [List.dropLast]⟩
  · exact ⟨t, rfl⟩

/-- The string the CLIP branch assigns to `input` starts with a character that is not
whitespace: the test `AllSpaceUstring(input)` that follows is false whenever it is reached. -/
theorem CLIPPreProcess_not_all_space (input s : ustring) (h : CLIPPreProcess input = .ok s) :
    AllSpaceUstring s = false := by
  unfold CLIPPreProcess at h
  dsimp only at h
  cases hstr : RemoveConsecutiveSpaces input with
  | nil => rw [hstr] at h; simp at h
  | cons c t =>
    rw [hstr] at h
    simp only [List.head?_cons] at h
    -- the string after the first strip starts with a character that is not whitespace
    have key : ∀ (d : Nat) (u : ustring), IsUnicodeSpace d = false →
        (match (d :: u).getLast? with
          | none => (Except.error TokenizeError.back_of_empty : Except TokenizeError ustring)
          | some back =>
            Except.ok (List.filter (fun c => c != 0x0D) (List.filter (fun c => c != 0x0A)
              (if IsUnicodeSpace back = true then (d :: u).dropLast else d :: u)))) = .ok s →
        AllSpaceUstring s = false := by
      intro d u hd hm
      cases hb : (d :: u).getLast? with
      | none => rw [hb] at hm; cases hm
      | some back =>
        rw [hb] at hm
        obtain ⟨t', ht'⟩ := strip_back_head d u hd back hb
        simp only at hm
        rw [ht'] at hm
        have h10 : (d != 0x0A) = true := by
          by_cases heq : d = 0x0A
          · subst heq; exact absurd hd (by decide)
          · simpa using heq
        have h13 : (d != 0x0D) = true := by
          by_cases heq : d = 0x0D
          · subst heq; exact absurd hd (by decide)
          · simpa using heq
        simp only [List.filter_cons, h10, h13, ↓reduceIte] at hm
        rw [← Except.ok.inj hm]
        simp [AllSpaceUstring, hd]
    by_cases hc : IsUnicodeSpace c = true
    · simp only [hc, ↓reduceIte, List.tail_cons] at h
      cases t with
      | nil => simp at h
      | cons d u =>
        have hd : IsUnicodeSpace d = false := by
          unfold RemoveConsecutiveSpaces at hstr
          cases input with
          | nil => simp [RemoveConsecutiveSpaces.loop] at hstr
          | cons ch rest =>
            unfold RemoveConsecutiveSpaces.loop at hstr
            split at hstr
            · simp only [Bool.not_false, ↓reduceIte, List.cons.injEq] at hstr
              exact RemoveConsecutiveSpaces.loop_true_head rest d u hstr.2
            · rename_i hns
              simp only [List.cons.injEq] at hstr
              rw [hstr.1] at hns
              exact absurd hc hns
        exact key d u hd h
    · simp only [hc, Bool.false_eq_true, ↓reduceIte] at h
      exact key c t (by simpa using hc) h

section tokenize
variable {κ : Type}

/-- Every run of `Tokenize` that returns went through the segment loop: the early return of
`[bos, eos]` is never taken by a run in which the pre-processing is defined. -/
theorem Tokenize_ok (env : BpeEnv κ) (name : Model) (input : ustring) (M : Int) (com : Bool)
    (om : List OffsetMappingType) (r : TokenizeResult)
    (h : Tokenize env name input M com om = .ok r) :
    ∃ input1 st,
      (if name = Model.CLIP then CLIPPreProcess input else .ok input) = .ok input1 ∧
      r.input = (if name == Model.CLIP then input1.map env.ToLower else input1) ∧
      segLoop env name M com (env.SplitBySpecialTokens r.input)
        { res := if name != Model.GPT2 then [env.bos_token_id_] else [],
          bpe_cache := env.bpe_cache.create 500, offset_map := om,
          calls := [Call.SplitBySpecialTokens r.input] } = .ok st ∧
      r.res = (if name != Model.GPT2 then st.res ++ [env.eos_token_id_] else st.res) ∧
      r.offset_map = st.offset_map ∧ r.calls = st.calls := by
  unfold Tokenize at h
  cases hpre : (if name = Model.CLIP then CLIPPreProcess input else Except.ok input) with
  | error e => rw [hpre] at h; cases h
  | ok input1 =>
    rw [hpre] at h
    dsimp only at h
    split at h
    · rename_i hall
      exfalso
      simp only [Bool.and_eq_true, beq_iff_eq] at hall
      rw [if_pos hall.2] at hpre
      have := CLIPPreProcess_not_all_space input input1 hpre
      rw [this] at hall
      exact absurd hall.1 (by simp)
    · cases hseg : segLoop env name M com
          (env.SplitBySpecialTokens (if name == Model.CLIP then input1.map env.ToLower else input1))
          { res := if name != Model.GPT2 then [env.bos_token_id_] else [],
            bpe_cache := env.bpe_cache.create 500, offset_map := om,
            calls := [Call.SplitBySpecialTokens
              (if name == Model.CLIP then input1.map env.ToLower else input1)] } with
      | error e => rw [hseg] at h; cases h
      | ok st =>
        rw [hseg] at h
        dsimp only at h
        rw [← Except.ok.inj h]
        exact ⟨input1, st, rfl, rfl, hseg, rfl, rfl, rfl⟩

end tokenize

/-! ## When `Tokenize` returns -/

section returns
variable {κ : Type}

theorem RemoveConsecutiveSpaces.loop_not_all_space (l : ustring) (b : Bool)
    (h : AllSpaceUstring l = false) :
    AllSpaceUstring (RemoveConsecutiveSpaces.loop l b) = false := by
  induction l generalizing b with
  | nil => simp [AllSpaceUstring] at h
  | cons ch rest ih =>
    unfold RemoveConsecutiveSpaces.loop
    by_cases hsp : IsUnicodeSpace ch = true
    · have hrest : AllSpaceUstring rest = false := by
        simpa [AllSpaceUstring, hsp] using h
      rw [if_pos hsp]
      split
      · simp only [AllSpaceUstring, List.all_cons, hsp, Bool.true_and]
        exact ih true hrest
      · exact ih true hrest
    · rw [if_neg hsp]
      simp [AllSpaceUstring, hsp]

/-- The CLIP pre-processing is defined on every input that holds a character that is not
whitespace. -/
theorem CLIPPreProcess_returns (input : ustring) (h : AllSpaceUstring input = false) :
    ∃ s, CLIPPreProcess input = .ok s := by
  have hstr := RemoveConsecutiveSpaces.loop_not_all_space input false h
  unfold CLIPPreProcess
  dsimp only
  change AllSpaceUstring (RemoveConsecutiveSpaces input) = false at hstr
  cases hs : RemoveConsecutiveSpaces input with
  | nil => rw [hs] at hstr; simp [AllSpaceUstring] at hstr
  | cons c t =>
    rw [hs] at hstr
    simp only [List.head?_cons]
    have hne : (if IsUnicodeSpace c = true then (c :: t).tail else c :: t) ≠ [] := by
      split
      · rename_i hc
        intro ht
        simp only [List.tail_cons] at ht
        rw [ht] at hstr
        simp [AllSpaceUstring, hc] at hstr
      · simp
    cases hl : (if IsUnicodeSpace c = true then (c :: t).tail else c :: t).getLast? with
    | none => exact absurd (List.getLast?_eq_none_iff.mp hl) hne
    | some back => exact ⟨_, rfl⟩

theorem scanLoop_returns (env : BpeEnv κ) (M : Int) (com clean : Bool) (chunks : List ustring)
    (st : ScanState κ) (hne : com = true → ∀ tok ∈ chunks, env.utf8 tok ≠ []) :
    ∃ st', scanLoop env M com clean chunks st = .ok st' := by
  induction chunks generalizing st with
  | nil => unfold scanLoop; split <;> exact ⟨_, rfl⟩
  | cons tok rest ih =>
    unfold scanLoop
    split
    · have hadj : ∃ adjusted, spaceAdjust com (env.utf8 tok) st.offset = .ok adjusted := by
        unfold spaceAdjust
        cases com with
        | false => exact ⟨_, rfl⟩
        | true =>
          simp only [↓reduceIte]
          cases hu : env.utf8 tok with
          | nil => exact absurd hu (hne rfl tok (by simp))
          | cons c u =>
            simp only [List.head?_cons]
            split <;> exact ⟨_, rfl⟩
      obtain ⟨adjusted, hadj⟩ := hadj
      rw [hadj]
      exact ih _ (fun hc t ht => hne hc t (List.mem_cons_of_mem _ ht))
    · exact ⟨_, rfl⟩

theorem segLoop_returns (env : BpeEnv κ) (name : Model) (M : Int) (com : Bool)
    (segs : List (ustring × Int)) (st : SegState κ)
    (hne : com = true → ∀ seg, ∀ tok ∈ env.GetNextToken seg, env.utf8 tok ≠ []) :
    ∃ st', segLoop env name M com segs st = .ok st' := by
  induction segs generalizing st with
  | nil => exact ⟨st, by unfold segLoop; rfl⟩
  | cons seg_id rest ih =>
    unfold segLoop
    split
    · exact ⟨_, rfl⟩
    · split
      · exact ih _
      · dsimp only
        obtain ⟨st1, hst1⟩ := scanLoop_returns env M com (name == Model.CLIP)
          (env.GetNextToken seg_id.1)
          { res := st.res, bpe_cache := st.bpe_cache, offset := 0,
            offset_mapping := if com && (name != Model.GPT2) then [(0, 0)] else [],
            calls := st.calls ++ [Call.Set seg_id.1] }
          (fun hc => hne hc seg_id.1)
        rw [hst1]
        exact ih _

/-- A call of `Tokenize` returns when, for CLIP, the input holds a character that is not
whitespace and, with offsets, the scanner hands out no chunk whose UTF-8 form is empty. -/
theorem Tokenize_returns (env : BpeEnv κ) (name : Model) (input : ustring) (M : Int)
    (com : Bool) (om : List OffsetMappingType)
    (hclip : name = Model.CLIP → AllSpaceUstring input = false)
    (hne : com = true → ∀ seg, ∀ tok ∈ env.GetNextToken seg, env.utf8 tok ≠ []) :
    ∃ r, Tokenize env name input M com om = .ok r := by
  have hpre : ∃ input1, (if name = Model.CLIP then CLIPPreProcess input else Except.ok input)
      = .ok input1 := by
    split
    · rename_i hc
      exact CLIPPreProcess_returns input (hclip hc)
    · exact ⟨_, rfl⟩
  obtain ⟨input1, hpre⟩ := hpre
  unfold Tokenize
  rw [hpre]
  dsimp only
  split
  · exact ⟨_, rfl⟩
  · obtain ⟨st, hst⟩ := segLoop_returns env name M com
      (env.SplitBySpecialTokens (if name == Model.CLIP then input1.map env.ToLower else input1))
      { res := if name != Model.GPT2 then [env.bos_token_id_] else [],
        bpe_cache := env.bpe_cache.create 500, offset_map := om,
        calls := [Call.SplitBySpecialTokens
          (if name == Model.CLIP then input1.map env.ToLower else input1)] } hne
    rw [hst]
    exact ⟨_, rfl⟩

end returns

/-- Claim C1. `Tokenize` wraps by family. A call returns whenever, for CLIP, the input holds
a character that is not whitespace and, with offsets, no chunk has an empty UTF-8 form. For
Roberta and CLIP every returned id sequence is non-empty, starts with `bos_token_id_` and ends
with `eos_token_id_`, for every input and every `max_length`. For GPT2 no BOS or EOS id is
inserted: every returned id is the id of a special-token segment of the split input or the id
of a symbol that the cache or the merge engine returned during the call, and the result is
empty when the splitter yields no segment. -/
theorem C1_tokenize_wraps_by_family {κ : Type} (env : BpeEnv κ) (name : Model) (input : ustring)
    (max_length : Int) (compute_offset_mapping : Bool) (offset_map : List OffsetMappingType) :
    ((name = Model.CLIP → AllSpaceUstring input = false) →
      (compute_offset_mapping = true →
        ∀ seg, ∀ tok ∈ env.GetNextToken seg, env.utf8 tok ≠ []) →
      ∃ r, Tokenize env name input max_length compute_offset_mapping offset_map = .ok r) ∧
    ∀ r, Tokenize env name input max_length compute_offset_mapping offset_map = .ok r →
      (name ≠ Model.GPT2 →
        r.res ≠ [] ∧ r.res.head? = some env.bos_token_id_ ∧
          r.res.getLast? = some env.eos_token_id_) ∧
      (name = Model.GPT2 →
        (∀ id ∈ r.res,
          (∃ seg_id ∈ env.SplitBySpecialTokens input, seg_id.2 ≠ -1 ∧ seg_id.2 = id) ∨
          (∃ l ∈ returned r.calls, ∃ p ∈ l, (p.1 : Int) = id)) ∧
        (env.SplitBySpecialTokens input = [] → r.res = [])) := by
  refine ⟨Tokenize_returns env name input max_length compute_offset_mapping offset_map, ?_⟩
  intro r h
  obtain ⟨input1, st, hpre, hin, hseg, hres, _, hcalls⟩ :=
    Tokenize_ok env name input max_length compute_offset_mapping offset_map r h
  obtain ⟨new, added, hc, hr, hid⟩ := segLoop_origin env name max_length _ _ _ _ hseg
  dsimp only at hc hr
  constructor
  · intro hname
    have hne : (name != Model.GPT2) = true := by simpa using hname
    rw [hne] at hr hres
    simp only [↓reduceIte] at hr hres
    rw [hres, hr]
    refine ⟨by simp, by simp, ?_⟩
    exact List.getLast?_concat _
  · intro hname
    subst hname
    simp only [bne_self_eq_false, Bool.false_eq_true, ↓reduceIte, reduceCtorEq,
      beq_iff_eq] at hr hres hpre hin
    have hinput : r.input = input := by
      rw [hin]; exact (Except.ok.inj hpre).symm
    rw [hinput] at hid
    constructor
    · intro id hmem
      rw [hres, hr, List.nil_append] at hmem
      rcases hid id hmem with h1 | ⟨l, hl, hp⟩
      · exact Or.inl h1
      · refine Or.inr ⟨l, ?_, hp⟩
        rw [hcalls, hc, returned_append]
        simp [hl]
    · intro hsplit
      rw [hinput, hsplit] at hseg
      unfold segLoop at hseg
      rw [hres, ← Except.ok.inj hseg]
      simp

/-- Claim C1, instance: the Roberta run on `"Hi"` returns `[bos, 'H', 'i', eos]`. -/
theorem C1_tokenize_wraps_by_family_witness :
    Tokenize asciiEnv Model.Roberta [72, 105] 100 false [] =
        .ok { res := [256, 72, 105, 257], offset_map := [], input := [72, 105],
              calls := [Call.SplitBySpecialTokens [72, 105], Call.Set [72, 105],
                Call.GetNextToken (some [72, 105]), Call.already_tokenized [72, 105] false,
                Call.bpe [(72, 1), (105, 1)] [(72, 1), (105, 1)],
                Call.add [72, 105] [(72, 1), (105, 1)], Call.GetNextToken none] } ∧
      (([256, 72, 105, 257] : List Int) ≠ [] ∧
        ([256, 72, 105, 257] : List Int).head? = some asciiEnv.bos_token_id_ ∧
        ([256, 72, 105, 257] : List Int).getLast? = some asciiEnv.eos_token_id_) :=
  ⟨by decide,
   ((C1_tokenize_wraps_by_family asciiEnv Model.Roberta [72, 105] 100 false []).2
      { res := [256, 72, 105, 257], offset_map := [], input := [72, 105],
        calls := [Call.SplitBySpecialTokens [72, 105], Call.Set [72, 105],
          Call.GetNextToken (some [72, 105]), Call.already_tokenized [72, 105] false,
          Call.bpe [(72, 1), (105, 1)] [(72, 1), (105, 1)],
          Call.add [72, 105] [(72, 1), (105, 1)], Call.GetNextToken none] }
      (by decide)).1 (by decide)⟩

/-! ## Runs of the small tokenizer on a text made of special tokens only -/

theorem RemoveConsecutiveSpaces.loop_replicate_one (n : Nat) (b : Bool) :
    RemoveConsecutiveSpaces.loop (List.replicate n 1) b = List.replicate n 1 := by
  induction n generalizing b with
  | zero => rfl
  | succ n ih =>
    rw [List.replicate_succ]
    unfold RemoveConsecutiveSpaces.loop
    rw [if_neg (by decide), ih]

theorem CLIPPreProcess_replicate_one (n : Nat) (hn : 0 < n) :
    CLIPPreProcess (List.replicate n 1) = .ok (List.replicate n 1) := by
  obtain ⟨k, rfl⟩ : ∃ k, n = k + 1 := ⟨n - 1, by omega⟩
  unfold CLIPPreProcess RemoveConsecutiveSpaces
  rw [RemoveConsecutiveSpaces.loop_replicate_one]
  have hlast : (List.replicate (k + 1) 1).getLast? = some 1 := by
    rw [List.getLast?_replicate]; simp
  have hhead : (List.replicate (k + 1) 1).head? = some 1 := by
    simp [List.replicate_succ]
  simp only [hhead]
  have h1 : IsUnicodeSpace 1 = false := by decide
  simp only [h1, Bool.false_eq_true, ↓reduceIte, hlast]
  rw [List.filter_replicate_of_pos (by decide), List.filter_replicate_of_pos (by decide)]

theorem splitAt_replicate (special : Nat) (id : Int) (n : Nat) :
    splitAt special id (List.replicate n special) = List.replicate n ([special], id) := by
  induction n with
  | zero => rfl
  | succ n ih =>
    rw [List.replicate_succ]
    unfold splitAt
    rw [if_pos rfl, ih, List.replicate_succ]

/-- The segment loop on special-token segments only: their ids are added, one per segment,
until the budget is reached. -/
theorem segLoop_specials {κ : Type} (env : BpeEnv κ) (name : Model) (M : Int) (com : Bool)
    (seg : ustring) (id : Int) (hid : id ≠ -1) (n : Nat) (st : SegState κ) :
    segLoop env name M com (List.replicate n (seg, id)) st
      = .ok { st with res := st.res ++ List.replicate (min n (M - st.res.length).toNat) id } := by
  induction n generalizing st with
  | zero => simp [segLoop]
  | succ n ih =>
    rw [List.replicate_succ]
    unfold segLoop
    split
    · rename_i hge
      have : (M - st.res.length).toNat = 0 := by omega
      simp [this]
    · rename_i hge
      rw [ih]
      simp only [List.length_append, List.length_singleton, List.append_assoc]
      obtain ⟨k, hk⟩ : ∃ k, (M - st.res.length).toNat = k + 1 :=
        ⟨(M - st.res.length).toNat - 1, by omega⟩
      have hk2 : (M - ((st.res.length + 1 : Nat) : Int)).toNat = k := by omega
      rw [hk, hk2, Nat.add_min_add_right, List.replicate_succ]
      rfl

/-- With a budget of `M ≥ 1`, the small tokenizer for Roberta or CLIP returns `M + 1` ids on the
text made of `M` special tokens. -/
theorem asciiEnv_attains (name : Model) (hname : name ≠ Model.GPT2) (M : Int) (hM : 1 ≤ M) :
    ∃ r, Tokenize asciiEnv name (List.replicate M.toNat 1) M false [] = .ok r ∧
      (r.res.length : Int) = M + 1 := by
  have hn : 0 < M.toNat := by omega
  have hpre : (if name = Model.CLIP then CLIPPreProcess (List.replicate M.toNat 1)
      else Except.ok (List.replicate M.toNat 1)) = .ok (List.replicate M.toNat 1) := by
    split
    · exact CLIPPreProcess_replicate_one _ hn
    · rfl
  have hall : AllSpaceUstring (List.replicate M.toNat 1) = false := by
    obtain ⟨k, hk⟩ : ∃ k, M.toNat = k + 1 := ⟨M.toNat - 1, by omega⟩
    rw [hk, List.replicate_succ]
    rfl
  have hlow : (if name == Model.CLIP then (List.replicate M.toNat 1).map asciiEnv.ToLower
      else List.replicate M.toNat 1) = List.replicate M.toNat 1 := by
    split
    · rw [List.map_replicate]; rfl
    · rfl
  have hne : (name != Model.GPT2) = true := by simpa using hname
  unfold Tokenize
  rw [hpre]
  simp only [hall, Bool.false_and, Bool.false_eq_true, ↓reduceIte, hlow, hne]
  have hsplit : asciiEnv.SplitBySpecialTokens (List.replicate M.toNat 1)
      = List.replicate M.toNat ([1], 300) := splitAt_replicate 1 300 _
  rw [hsplit, segLoop_specials asciiEnv name M false [1] 300 (by decide)]
  refine ⟨_, rfl, ?_⟩
  simp only [List.length_append, List.length_singleton, List.length_replicate, List.length_cons,
    List.length_nil]
  have : (asciiEnv.bos_token_id_ :: ([] : List Int)).length = 1 := rfl
  omega

/-- Claim C2. Length bound of `Tokenize`: for every input and every `max_length ≥ 1` the GPT2
result has at most `max_length` ids and the Roberta/CLIP result at most `max_length + 1` (the
EOS id is appended after the budget has been used up); and for Roberta and for CLIP, for every
`max_length ≥ 1`, some input attains `max_length + 1`. -/
theorem C2_tokenize_length_bound :
    (∀ {κ : Type} (env : BpeEnv κ) (name : Model) (input : ustring) (max_length : Int)
        (compute_offset_mapping : Bool) (offset_map : List OffsetMappingType)
        (r : TokenizeResult),
        1 ≤ max_length →
        Tokenize env name input max_length compute_offset_mapping offset_map = .ok r →
        (name = Model.GPT2 → (r.res.length : Int) ≤ max_length) ∧
        (name ≠ Model.GPT2 → (r.res.length : Int) ≤ max_length + 1)) ∧
    (∀ (name : Model) (max_length : Int), name ≠ Model.GPT2 → 1 ≤ max_length →
        ∃ input r, Tokenize asciiEnv name input max_length false [] = .ok r ∧
          (r.res.length : Int) = max_length + 1) := by
  constructor
  · intro κ env name input max_length com om r hM h
    obtain ⟨input1, st, _, _, hseg, hres, _, _⟩ := Tokenize_ok env name input max_length com om r h
    have hlen := segLoop_length env name max_length _ _ _ _ hseg
    dsimp only at hlen
    constructor
    · intro hname
      subst hname
      simp only [bne_self_eq_false, Bool.false_eq_true, ↓reduceIte, List.length_nil] at hlen hres
      rw [hres]
      omega
    · intro hname
      have hne : (name != Model.GPT2) = true := by simpa using hname
      simp only [hne, ↓reduceIte, List.length_singleton] at hlen hres
      rw [hres, List.length_append, List.length_singleton]
      omega
  · intro name max_length hname hM
    obtain ⟨r, hr, hlen⟩ := asciiEnv_attains name hname max_length hM
    exact ⟨_, r, hr, hlen⟩

/-- Claim C2, instance: the CLIP run on `"ab cd"` with a budget of 3 returns 4 ids. -/
theorem C2_tokenize_length_bound_witness :
    (1 : Int) ≤ 3 ∧
    Tokenize asciiEnv Model.CLIP [97, 98, 32, 99, 100] 3 false [] =
        .ok { res := [256, 97, 1098, 257], offset_map := [], input := [97, 98, 32, 99, 100],
              calls := [Call.SplitBySpecialTokens [97, 98, 32, 99, 100],
                Call.Set [97, 98, 32, 99, 100], Call.GetNextToken (some [97, 98]),
                Call.already_tokenized [97, 98] false,
                Call.bpe [(97, 1), (1098, 1)] [(97, 1), (1098, 1)],
                Call.add [97, 98] [(97, 1), (1098, 1)]] } ∧
    (([256, 97, 1098, 257] : List Int).length : Int) ≤ 3 + 1 :=
  ⟨by decide, by decide,
   (C2_tokenize_length_bound.1 asciiEnv Model.CLIP [97, 98, 32, 99, 100] 3 false []
      { res := [256, 97, 1098, 257], offset_map := [], input := [97, 98, 32, 99, 100],
        calls := [Call.SplitBySpecialTokens [97, 98, 32, 99, 100],
          Call.Set [97, 98, 32, 99, 100], Call.GetNextToken (some [97, 98]),
          Call.already_tokenized [97, 98] false,
          Call.bpe [(97, 1), (1098, 1)] [(97, 1), (1098, 1)],
          Call.add [97, 98] [(97, 1), (1098, 1)]] }
      (by decide) (by decide)).2 (by decide)⟩

/-! ## The chunks a run asks from the scanner -/

section fetching
variable {κ : Type}

/-- The call log of a run of `scanLoop` with `k` ids left in the budget: a chunk is asked from
the scanner only while the symbol lists returned so far hold fewer than `k` symbols, the
chunks asked for are the first chunks of the segment, and the scanner is asked once more at the
end exactly when all its chunks together gave fewer than `k` symbols. -/
theorem scanLoop_calls (env : BpeEnv κ) (M : Int) (com clean : Bool) (chunks : List ustring)
    (st st' : ScanState κ) (h : scanLoop env M com clean chunks st = .ok st') :
    ∃ new, st'.calls = st.calls ++ new ∧
      (∀ j < (returned new).length,
        ((returned new).take j).flatten.length < (M - st.res.length).toNat) ∧
      fetched new = (chunks.take (returned new).length).map some ++
        (if (returned new).flatten.length < (M - st.res.length).toNat then [none] else []) ∧
      ((returned new).flatten.length < (M - st.res.length).toNat →
        (returned new).flatten = symbolsOf env clean chunks st.bpe_cache) := by
  refine scanLoop_induction env M com clean
    (fun chunks st st' => ∃ new, st'.calls = st.calls ++ new ∧
      (∀ j < (returned new).length,
        ((returned new).take j).flatten.length < (M - st.res.length).toNat) ∧
      fetched new = (chunks.take (returned new).length).map some ++
        (if (returned new).flatten.length < (M - st.res.length).toNat then [none] else []) ∧
      ((returned new).flatten.length < (M - st.res.length).toNat →
        (returned new).flatten = symbolsOf env clean chunks st.bpe_cache)) ?_ ?_ ?_
    chunks st st' h
  · intro chunks st hlt
    have hk : (M - st.res.length).toNat = 0 := by omega
    refine ⟨[], by simp, ?_, ?_, ?_⟩
    · intro j hj; simp [returned] at hj
    · simp [returned, fetched, hk]
    · intro h0; rw [hk] at h0; simp at h0
  · intro st hlt
    have hk : 0 < (M - st.res.length).toNat := by omega
    refine ⟨[Call.GetNextToken none], rfl, ?_, ?_, ?_⟩
    · intro j hj; simp [returned] at hj
    · simp [returned, fetched, hlt]
    · intro _; simp [returned, symbolsOf]
  · intro tok rest st adjusted st' hlt _ hP
    obtain ⟨new, hc, hfew, hfetch, hall⟩ := hP
    rw [emitLoop_calls] at hc
    rw [emitLoop_res] at hfew hfetch hall
    rw [emitLoop_bpe_cache] at hall
    dsimp only at hc hfew hfetch hall
    have hk : 0 < (M - st.res.length).toNat := by omega
    have hk' : (M - ((st.res ++ List.take (M - st.res.length).toNat
        (List.map (fun p => (p.1 : Int))
          (lookupOrMerge env clean (env.utf8 tok) st.bpe_cache).1)).length : Nat)).toNat
        = (M - st.res.length).toNat
          - (lookupOrMerge env clean (env.utf8 tok) st.bpe_cache).1.length := by
      simp only [List.length_append, List.length_take, List.length_map]
      omega
    rw [hk'] at hfew hfetch hall
    have hret : returned ([Call.GetNextToken (some tok)]
        ++ (lookupOrMerge env clean (env.utf8 tok) st.bpe_cache).2.2 ++ new)
        = (lookupOrMerge env clean (env.utf8 tok) st.bpe_cache).1 :: returned new := by
      rw [returned_append, returned_append, returned_lookupOrMerge]
      rfl
    have hfet : fetched ([Call.GetNextToken (some tok)]
        ++ (lookupOrMerge env clean (env.utf8 tok) st.bpe_cache).2.2 ++ new)
        = some tok :: fetched new := by
      rw [fetched_append, fetched_append, fetched_lookupOrMerge]
      rfl
    refine ⟨[Call.GetNextToken (some tok)]
        ++ (lookupOrMerge env clean (env.utf8 tok) st.bpe_cache).2.2 ++ new, ?_, ?_, ?_, ?_⟩
    · rw [hc]; simp
    · rw [hret]
      intro j hj
      cases j with
      | zero => simpa using hk
      | succ j =>
        have := hfew j (by simpa using hj)
        simp only [List.take_succ_cons, List.flatten_cons, List.length_append]
        omega
    · rw [hret, hfet, hfetch]
      simp only [List.length_cons, List.take_succ_cons, List.map_cons, List.flatten_cons,
        List.length_append, List.cons_append, List.cons.injEq, true_and,
        List.append_cancel_left_eq]
      by_cases hlt2 : (returned new).flatten.length < (M - st.res.length).toNat
          - (lookupOrMerge env clean (env.utf8 tok) st.bpe_cache).1.length
      · rw [if_pos hlt2, if_pos (by omega)]
      · rw [if_neg hlt2, if_neg (by omega)]
    · rw [hret]
      intro hlt2
      simp only [List.flatten_cons, List.length_append] at hlt2
      simp only [List.flatten_cons, symbolsOf]
      rw [hall (by omega)]

end fetching

section single
variable {κ : Type}

theorem contentIds_wrapped (name : Model) (hname : name ≠ Model.GPT2) (bos eos : Int)
    (l : List Int) : contentIds name (([bos] ++ l) ++ [eos]) = l := by
  simp [contentIds, hname]

theorem contentBudget_eq (name : Model) (M : Int) (bos : Int) :
    (M - ((if name != Model.GPT2 then [bos] else [] : List Int).length : Nat)).toNat
      = contentBudget name M := by
  unfold contentBudget
  by_cases hname : name = Model.GPT2
  · subst hname; simp
  · have hne : (name != Model.GPT2) = true := by simpa using hname
    simp [hne, hname]

/-- The run of `Tokenize` on an input that the splitter leaves as one plain-text segment: the
content ids are the first symbols of the segment, as many as the budget allows, and the call
log is the one of `scanLoop_calls`. -/
theorem Tokenize_single_segment (env : BpeEnv κ) (name : Model) (input : ustring) (M : Int)
    (com : Bool) (om : List OffsetMappingType) (r : TokenizeResult) (seg : ustring)
    (h : Tokenize env name input M com om = .ok r)
    (hsplit : env.SplitBySpecialTokens r.input = [(seg, -1)]) :
    contentIds name r.res
      = ((symbolsOf env (name == Model.CLIP) (env.GetNextToken seg)
          (env.bpe_cache.create 500)).map (fun p => (p.1 : Int))).take (contentBudget name M) ∧
    (∀ j < (returned r.calls).length,
        ((returned r.calls).take j).flatten.length < contentBudget name M) ∧
    fetched r.calls = ((env.GetNextToken seg).take (returned r.calls).length).map some ++
        (if 0 < contentBudget name M ∧ (returned r.calls).flatten.length < contentBudget name M
          then [none] else []) := by
  obtain ⟨input1, st, _, _, hseg, hres, _, hcalls⟩ := Tokenize_ok env name input M com om r h
  rw [hsplit] at hseg
  have hb := contentBudget_eq name M env.bos_token_id_
  have hres0 : ∀ l : List Int, contentIds name
      (if name != Model.GPT2 then ((if name != Model.GPT2 then [env.bos_token_id_] else []) ++ l)
        ++ [env.eos_token_id_] else (if name != Model.GPT2 then [env.bos_token_id_] else []) ++ l)
      = l := by
    intro l
    by_cases hname : name = Model.GPT2
    · subst hname; simp [contentIds]
    · have hne : (name != Model.GPT2) = true := by simpa using hname
      simp only [hne, ↓reduceIte]
      exact contentIds_wrapped name hname _ _ _
  generalize (if name != Model.GPT2 then [env.bos_token_id_] else [] : List Int) = res0
    at hseg hb hres0
  unfold segLoop at hseg
  dsimp only at hseg
  split at hseg
  · -- the budget is used up before the segment is looked at
    rename_i hge
    have hb0 : contentBudget name M = 0 := by rw [← hb]; omega
    have hst := Except.ok.inj hseg
    rw [← hst] at hres hcalls
    dsimp only at hres hcalls
    rw [hb0, hcalls]
    refine ⟨?_, ?_, ?_⟩
    · rw [hres]
      have := hres0 []
      simp only [List.append_nil] at this
      rw [this]; simp
    · intro j hj; simp [returned] at hj
    · simp [returned, fetched]
  · rename_i hge
    rw [if_neg (by simp)] at hseg
    cases hscan : scanLoop env M com (name == Model.CLIP) (env.GetNextToken seg)
        { res := res0,
          bpe_cache := env.bpe_cache.create 500, offset := 0,
          offset_mapping := if com && (name != Model.GPT2) then [(0, 0)] else [],
          calls := [Call.SplitBySpecialTokens r.input] ++ [Call.Set seg] } with
    | error e => rw [hscan] at hseg; cases hseg
    | ok st1 =>
      rw [hscan] at hseg
      dsimp only at hseg
      unfold segLoop at hseg
      have hst := Except.ok.inj hseg
      rw [← hst] at hres hcalls
      dsimp only at hres hcalls
      have hr1 := scanLoop_res env M com _ _ _ _ hscan
      obtain ⟨new, hc, hfew, hfetch, _⟩ := scanLoop_calls env M com _ _ _ _ hscan
      dsimp only at hr1 hc hfew hfetch
      rw [hb] at hr1 hfew hfetch
      have hpos : 0 < contentBudget name M := by rw [← hb]; omega
      have hret : returned r.calls = returned new := by
        rw [hcalls, hc, returned_append]; rfl
      have hfet : fetched r.calls = fetched new := by
        rw [hcalls, hc, fetched_append]; rfl
      rw [hret, hfet]
      refine ⟨?_, hfew, ?_⟩
      · rw [hres, hr1]
        exact hres0 _
      · rw [hfetch]
        simp [hpos]

end single

/-- Claim C3, amended. Truncation by `max_length = m ≥ 1` on an input that the splitter leaves
as one plain-text segment and that gives at least `m` content ids with some budget `M`: the
ids between BOS and EOS are exactly the first `contentBudget name m` content ids of the run
with budget `M`, that is `m` of them for GPT2 and `m - 1` for Roberta and CLIP (whose BOS id
is counted against the budget). A chunk is asked from the scanner only while the symbol lists
returned for the chunks before it hold fewer symbols than that, the chunks asked for are the
first chunks of the segment, and the scanner is not asked again once the budget is reached. -/
theorem C3_truncation_by_max_length {κ : Type} (env : BpeEnv κ) (name : Model) (input : ustring)
    (m M : Int) (compute_offset_mapping : Bool) (offset_map : List OffsetMappingType)
    (r r' : TokenizeResult) (seg : ustring)
    (hm : 1 ≤ m)
    (h : Tokenize env name input m compute_offset_mapping offset_map = .ok r)
    (hsplit : env.SplitBySpecialTokens r.input = [(seg, -1)])
    (h' : Tokenize env name input M compute_offset_mapping offset_map = .ok r')
    (hwould : m ≤ ((contentIds name r'.res).length : Int)) :
    contentIds name r.res = (contentIds name r'.res).take (contentBudget name m) ∧
    ((contentIds name r.res).length : Int) = (if name = Model.GPT2 then m else m - 1) ∧
    (∀ j < (returned r.calls).length,
        ((returned r.calls).take j).flatten.length < contentBudget name m) ∧
    fetched r.calls = ((env.GetNextToken seg).take (returned r.calls).length).map some := by
  have hin : r'.input = r.input := by
    obtain ⟨i1, _, hp1, hi1, _⟩ := Tokenize_ok env name input m _ _ r h
    obtain ⟨i2, _, hp2, hi2, _⟩ := Tokenize_ok env name input M _ _ r' h'
    rw [hp1] at hp2
    rw [hi1, hi2, Except.ok.inj hp2]
  obtain ⟨hc, hfew, hfetch⟩ := Tokenize_single_segment env name input m _ _ r seg h hsplit
  obtain ⟨hc', _, _⟩ := Tokenize_single_segment env name input M _ _ r' seg h' (hin ▸ hsplit)
  have hbm : (contentBudget name m : Int) ≤ m := by
    unfold contentBudget; split <;> omega
  have hlen' : contentBudget name m ≤ (contentIds name r'.res).length := by omega
  have hsyms : contentBudget name m ≤ (symbolsOf env (name == Model.CLIP) (env.GetNextToken seg)
      (env.bpe_cache.create 500)).length := by
    rw [hc'] at hlen'
    simp only [List.length_take, List.length_map] at hlen'
    omega
  have hbM : contentBudget name m ≤ contentBudget name M := by
    rw [hc'] at hlen'
    simp only [List.length_take, List.length_map] at hlen'
    omega
  have hlen : (contentIds name r.res).length = contentBudget name m := by
    rw [hc]; simp only [List.length_take, List.length_map]; omega
  refine ⟨?_, ?_, hfew, ?_⟩
  · rw [hc, hc', List.take_take, Nat.min_eq_left hbM]
  · rw [hlen]; unfold contentBudget; split <;> omega
  · rw [hfetch]
    have hno : ¬ (0 < contentBudget name m ∧
        (returned r.calls).flatten.length < contentBudget name m) := by
      intro ⟨hpos, hlt⟩
      -- fewer symbols than the budget were returned, so every chunk was asked for
      obtain ⟨_, st, _, _, hseg, _, _, hcalls⟩ := Tokenize_ok env name input m _ _ r h
      rw [hsplit] at hseg
      have hb := contentBudget_eq name m env.bos_token_id_
      generalize (if name != Model.GPT2 then [env.bos_token_id_] else [] : List Int) = res0
        at hseg hb
      unfold segLoop at hseg
      dsimp only at hseg
      rw [if_neg (by omega), if_neg (by simp)] at hseg
      cases hscan : scanLoop env m compute_offset_mapping (name == Model.CLIP)
          (env.GetNextToken seg)
          { res := res0,
            bpe_cache := env.bpe_cache.create 500, offset := 0,
            offset_mapping :=
              if compute_offset_mapping && (name != Model.GPT2) then [(0, 0)] else [],
            calls := [Call.SplitBySpecialTokens r.input] ++ [Call.Set seg] } with
      | error e => rw [hscan] at hseg; cases hseg
      | ok st1 =>
        rw [hscan] at hseg
        dsimp only at hseg
        unfold segLoop at hseg
        rw [← Except.ok.inj hseg] at hcalls
        dsimp only at hcalls
        obtain ⟨new, hcn, _, _, hall⟩ := scanLoop_calls env m _ _ _ _ _ hscan
        dsimp only at hcn hall
        rw [hb] at hall
        have hret : returned r.calls = returned new := by
          rw [hcalls, hcn, returned_append]; rfl
        rw [hret] at hlt
        have := hall hlt
        rw [this] at hlt
        omega
    rw [if_neg hno, List.append_nil]

/-- Claim C3, as stated, fails for Roberta: on `"abcde"`, one plain-text segment that gives 5
content ids with a budget of 100, the budget `m = 2` leaves 1 content id, not 2. -/
theorem C3_truncation_by_max_length_counterexample :
    asciiEnv.SplitBySpecialTokens [97, 98, 99, 100, 101] = [([97, 98, 99, 100, 101], -1)] ∧
    (Tokenize asciiEnv Model.Roberta [97, 98, 99, 100, 101] 100 false []).map
        (fun r => contentIds Model.Roberta r.res) = .ok [97, 98, 99, 100, 101] ∧
    (Tokenize asciiEnv Model.Roberta [97, 98, 99, 100, 101] 2 false []).map
        (fun r => r.res) = .ok [256, 97, 257] ∧
    (Tokenize asciiEnv Model.Roberta [97, 98, 99, 100, 101] 2 false []).map
        (fun r => (contentIds Model.Roberta r.res).length) = .ok 1 := by
  decide

/-- Claim C3, amended, instance: Roberta on `"a b c"` with budget 3 keeps 2 of the 5 content
ids and asks the scanner for the first 2 of the 3 chunks. -/
theorem C3_truncation_by_max_length_witness :
    ((1 : Int) ≤ 3 ∧
      Tokenize asciiEnv Model.Roberta [97, 32, 98, 32, 99] 3 false [] = .ok robertaRun3 ∧
      asciiEnv.SplitBySpecialTokens robertaRun3.input = [([97, 32, 98, 32, 99], -1)] ∧
      Tokenize asciiEnv Model.Roberta [97, 32, 98, 32, 99] 100 false [] = .ok robertaRun100 ∧
      (3 : Int) ≤ ((contentIds Model.Roberta robertaRun100.res).length : Int)) ∧
    (contentIds Model.Roberta robertaRun3.res
        = (contentIds Model.Roberta robertaRun100.res).take (contentBudget Model.Roberta 3) ∧
      ((contentIds Model.Roberta robertaRun3.res).length : Int)
        = (if Model.Roberta = Model.GPT2 then 3 else 3 - 1) ∧
      (∀ j < (returned robertaRun3.calls).length,
        ((returned robertaRun3.calls).take j).flatten.length < contentBudget Model.Roberta 3) ∧
      fetched robertaRun3.calls
        = ((asciiEnv.GetNextToken [97, 32, 98, 32, 99]).take
            (returned robertaRun3.calls).length).map some) :=
  ⟨⟨by decide, by decide, by decide, by decide, by decide⟩,
   C3_truncation_by_max_length asciiEnv Model.Roberta [97, 32, 98, 32, 99] 3 100 false []
     robertaRun3 robertaRun100 [97, 32, 98, 32, 99]
     (by decide) (by decide) (by decide) (by decide) (by decide)⟩

/-! ## CLIP on whitespace-only input -/

theorem RemoveConsecutiveSpaces.loop_all_space (l : ustring) (h : AllSpaceUstring l = true) :
    RemoveConsecutiveSpaces.loop l true = [] := by
  induction l with
  | nil => rfl
  | cons ch rest ih =>
    simp only [AllSpaceUstring, List.all_cons, Bool.and_eq_true] at h
    unfold RemoveConsecutiveSpaces.loop
    rw [if_pos h.1]
    simp only [Bool.not_true, Bool.false_eq_true, ↓reduceIte]
    exact ih h.2

/-- Claim C4, what the code does on the inputs of the claim. For CLIP, on every input that
consists of whitespace only, `Tokenize` does not reach the test `AllSpaceUstring(input)`: on the
empty string it evaluates `str.front()` on an empty string, on any other such input the string
is empty after the first strip and it evaluates `str.back()` on an empty string. -/
theorem C4_clip_whitespace_only_undefined {κ : Type} (env : BpeEnv κ) (input : ustring)
    (max_length : Int) (compute_offset_mapping : Bool) (offset_map : List OffsetMappingType)
    (hall : AllSpaceUstring input = true) :
    Tokenize env Model.CLIP input max_length compute_offset_mapping offset_map
      = .error (if input = [] then TokenizeError.front_of_empty
          else TokenizeError.back_of_empty) := by
  cases input with
  | nil => rfl
  | cons c rest =>
    simp only [AllSpaceUstring, List.all_cons, Bool.and_eq_true] at hall
    have hstr : RemoveConsecutiveSpaces (c :: rest) = [c] := by
      unfold RemoveConsecutiveSpaces RemoveConsecutiveSpaces.loop
      rw [if_pos hall.1]
      simp only [Bool.not_false, ↓reduceIte]
      rw [RemoveConsecutiveSpaces.loop_all_space rest hall.2]
    have hpre : CLIPPreProcess (c :: rest) = .error TokenizeError.back_of_empty := by
      unfold CLIPPreProcess
      simp [hstr, hall.1]
    unfold Tokenize
    simp [hpre]

/-- Claim C4, instance: CLIP on the empty string and on `"  \n"`. -/
theorem C4_clip_whitespace_only_undefined_witness :
    (AllSpaceUstring [] = true ∧
      Tokenize asciiEnv Model.CLIP [] 77 true [] = .error TokenizeError.front_of_empty) ∧
    (AllSpaceUstring [32, 32, 10] = true ∧
      Tokenize asciiEnv Model.CLIP [32, 32, 10] 77 true []
        = .error TokenizeError.back_of_empty) :=
  ⟨⟨by decide, C4_clip_whitespace_only_undefined asciiEnv [] 77 true [] (by decide)⟩,
   ⟨by decide, C4_clip_whitespace_only_undefined asciiEnv [32, 32, 10] 77 true [] (by decide)⟩⟩

/-! ## The write loops of `Compute` -/

theorem writeIds_eq (res buf : List Int) : writeIds res buf = buf ++ res := by
  unfold writeIds
  induction res generalizing buf with
  | nil => simp
  | cons id res ih => simp [List.foldl_cons, ih]

theorem writeOnes_eq (res buf : List Int) :
    writeOnes res buf = buf ++ List.replicate res.length 1 := by
  unfold writeOnes
  induction res generalizing buf with
  | nil => simp
  | cons id res ih => simp [List.foldl_cons, ih, List.replicate_succ]

theorem foldl_const_append (v : Int) (l : List Nat) (buf : List Int) :
    l.foldl (fun b _ => b ++ [v]) buf = buf ++ List.replicate l.length v := by
  induction l generalizing buf with
  | nil => simp
  | cons a l ih => simp [List.foldl_cons, ih, List.replicate_succ]

theorem writePad_eq (v : Int) (n W : Nat) (buf : List Int) :
    writePad v n W buf = buf ++ List.replicate (W - n) v := by
  unfold writePad
  rw [foldl_const_append, List.length_range']

/-- What the iteration of the loop over `tokenize_results` for `res` writes to `token`. -/
theorem tokenLoop_eq (pad : Int) (W : Nat) (results : List (List Int)) (buf : List Int) :
    tokenLoop pad W results buf
      = buf ++ (results.map (fun res => res ++ List.replicate (W - res.length) pad)).flatten := by
  induction results generalizing buf with
  | nil => simp [tokenLoop]
  | cons res rest ih =>
    unfold tokenLoop
    rw [ih, writePad_eq, writeIds_eq]
    simp

/-- What the iteration of the loop over `tokenize_results` for `res` writes to `mask`. -/
theorem maskLoop_eq (W : Nat) (results : List (List Int)) (buf : List Int) :
    maskLoop W results buf
      = buf ++ (results.map
          (fun res => List.replicate res.length 1 ++ List.replicate (W - res.length) 0)).flatten := by
  induction results generalizing buf with
  | nil => simp [maskLoop]
  | cons res rest ih =>
    unfold maskLoop
    rw [ih, writePad_eq, writeOnes_eq]
    simp

theorem maxSize_ge (a : Nat) (l : List (List Int)) : a ≤ maxSize a l := by
  induction l generalizing a with
  | nil => exact Nat.le_refl a
  | cons res rest ih =>
    unfold maxSize
    exact Nat.le_trans (Nat.le_max_left a res.length) (ih _)

theorem maxSize_upper (a : Nat) (l : List (List Int)) :
    ∀ res ∈ l, res.length ≤ maxSize a l := by
  induction l generalizing a with
  | nil => intro res h; cases h
  | cons r rest ih =>
    intro res h
    unfold maxSize
    rcases List.mem_cons.mp h with h1 | h1
    · rw [h1]
      exact Nat.le_trans (Nat.le_max_right a r.length) (maxSize_ge _ rest)
    · exact ih _ res h1

theorem maxSize_attained (a : Nat) (l : List (List Int)) :
    maxSize a l = a ∨ ∃ res ∈ l, res.length = maxSize a l := by
  induction l generalizing a with
  | nil => exact Or.inl rfl
  | cons r rest ih =>
    unfold maxSize
    rcases ih (max a r.length) with h | ⟨res, hres, hlen⟩
    · rcases Nat.le_total a r.length with hle | hle
      · rw [Nat.max_eq_right hle] at h ⊢
        exact Or.inr ⟨r, by simp, h.symm⟩
      · rw [Nat.max_eq_left hle] at h ⊢
        exact Or.inl h
    · exact Or.inr ⟨res, List.mem_cons_of_mem _ hres, hlen⟩

section compute
variable {κ : Type}

/-- The vector `tokenize_results` holds, in order, the result of `Tokenize` on every string
of the batch, with the budget `2^32 - 1` when `padding_length_` is negative and
`padding_length_` otherwise. -/
theorem tokenizeAll_results (env : BpeEnv κ) (name : Model) (P : Int) (com : Bool)
    (input : List Bytes) (done : List (List Int)) (om : List OffsetMappingType)
    (results : List (List Int)) (om' : List OffsetMappingType)
    (h : tokenizeAll env name P com input done om = .ok (results, om')) :
    ∃ added, results = done ++ added ∧
      List.Forall₂ (fun str res => ∃ om0 r,
        Tokenize env name (env.from_utf8 str) (if P < 0 then 4294967295 else P) com om0 = .ok r ∧
          r.res = res) input added := by
  induction input generalizing done om with
  | nil =>
    unfold tokenizeAll at h
    have := Except.ok.inj h
    simp only [Prod.mk.injEq] at this
    exact ⟨[], by simp [this.1], List.Forall₂.nil⟩
  | cons str rest ih =>
    unfold tokenizeAll at h
    cases ht : Tokenize env name (env.from_utf8 str) (if P < 0 then 4294967295 else P) com om with
    | error e => rw [ht] at h; cases h
    | ok r =>
      rw [ht] at h
      dsimp only at h
      obtain ⟨added, hres, hall⟩ := ih _ _ h
      exact ⟨r.res :: added, by rw [hres]; simp, List.Forall₂.cons ⟨om, r, ht, rfl⟩ hall⟩

/-- The parts of the result of `Compute`. -/
theorem Compute_ok (env : BpeEnv κ) (name : Model) (P : Int) (input : List Bytes)
    (input_dim : List Int) (am om : Bool) (out : ComputeResult)
    (h : Compute env name P input input_dim am om = .ok out) :
    tokenizeAll env name P om input [] [] = .ok (out.tokenize_results, out.offset_map) ∧
    out.max_length = (if P = -1 then maxSize 0 out.tokenize_results else int64_to_size_t P) ∧
    out.output_dim = input_dim ++ [size_t_to_int64 out.max_length] ∧
    out.token = (out.tokenize_results.map
      (fun res => res ++ List.replicate (out.max_length - res.length) env.pad_token_id_)).flatten ∧
    out.mask = (if am then some (out.tokenize_results.map
      (fun res => List.replicate res.length 1
        ++ List.replicate (out.max_length - res.length) 0)).flatten else none) := by
  unfold Compute at h
  dsimp only at h
  cases ht : tokenizeAll env name P om input [] [] with
  | error e => rw [ht] at h; cases h
  | ok pair =>
    obtain ⟨results, offset_map⟩ := pair
    rw [ht] at h
    dsimp only at h
    rw [← Except.ok.inj h]
    dsimp only
    refine ⟨rfl, rfl, rfl, ?_, ?_⟩
    · rw [tokenLoop_eq]; simp
    · rw [maskLoop_eq]; simp

end compute

theorem flatten_rows_length {α : Type} (W : Nat) (rows : List (List α))
    (h : ∀ row ∈ rows, row.length = W) : rows.flatten.length = rows.length * W := by
  induction rows with
  | nil => simp
  | cons row rows ih =>
    rw [List.flatten_cons, List.length_append, h row (by simp),
      ih (fun r hr => h r (List.mem_cons_of_mem _ hr)), List.length_cons]
    rw [Nat.add_mul, Nat.one_mul, Nat.add_comm]

/-- Claim C7, the code at a failing input. The Roberta kernel with `padding_length_ = 3` on the
batch `["a b c"]`: `Tokenize` returns 4 ids (BOS, 2 content ids, EOS), and `Compute` writes 4
entries to `token` and 4 to `mask`, whose shape `[1, 3]` has 3 elements. -/
theorem C7_fixed_padding_row_overflow :
    Compute asciiEnv Model.Roberta 3 [[97, 32, 98, 32, 99]] [1] true false =
      .ok { output_dim := [1, 3], offset_dim := [1, 3, 2], max_length := 3,
            tokenize_results := [[256, 97, 32, 257]], offset_map := [],
            token := [256, 97, 32, 257], mask := some [1, 1, 1, 1], offset := none } ∧
    NumberOfElement [1, 3] = 3 ∧
    ([256, 97, 32, 257] : List Int).length = 4 := by
  decide

/-! ## The offsets -/

section offsets
variable {κ : Type}

theorem sourceLength_cons (p : Symbol) (ps : List Symbol) :
    sourceLength (p :: ps) = p.2 + sourceLength ps := by
  simp [sourceLength]

theorem offsetSpan_append (a b : List Call) : offsetSpan (a ++ b) = offsetSpan a + offsetSpan b := by
  simp [offsetSpan, returned_append]

theorem offsetSpan_lookupOrMerge (env : BpeEnv κ) (clean : Bool) (key : Bytes) (cache : κ) :
    offsetSpan (lookupOrMerge env clean key cache).2.2
      = 1 + sourceLength (lookupOrMerge env clean key cache).1 := by
  simp [offsetSpan, returned_lookupOrMerge]

/-- The pairs `emitLoop` adds, when the running offset has room for the source lengths of the
byte list: every pair starts at the running offset of its moment, does not end before its
start, and the starts do not decrease. With a `space_dif` of `2^64 - 1` this needs that every
source length is at least 1. -/
theorem emitLoop_offsets (M : Int) (clean : Bool) (sd : Nat) (ps : List Symbol)
    (st : ScanState κ)
    (hsd : clean = true ∨ sd = 0 ∨ (sd = 18446744073709551615 ∧ ∀ p ∈ ps, 1 ≤ p.2))
    (hfit : st.offset + sourceLength ps < 18446744073709551616) :
    ∃ content,
      (emitLoop M true clean sd ps st).offset_mapping = st.offset_mapping ++ content ∧
      (∀ pr ∈ content, st.offset ≤ pr.1 ∧ pr.1 ≤ pr.2 ∧
        pr.1 ≤ (emitLoop M true clean sd ps st).offset) ∧
      List.Pairwise (fun a b => a ≤ b) (content.map Prod.fst) ∧
      st.offset ≤ (emitLoop M true clean sd ps st).offset ∧
      (emitLoop M true clean sd ps st).offset ≤ st.offset + sourceLength ps := by
  induction ps generalizing st with
  | nil => exact ⟨[], by simp [emitLoop], by simp, by simp, by simp [emitLoop], by simp [emitLoop]⟩
  | cons p ps ih =>
    rw [sourceLength_cons] at hfit
    unfold emitLoop
    split
    · exact ⟨[], by simp, by simp, by simp, Nat.le_refl _, Nat.le_add_right _ _⟩
    · -- the state after the symbol `p`
      have hstep : ∃ e, (emitStep true clean sd p st).offset_mapping
            = st.offset_mapping ++ [(st.offset, e)] ∧ st.offset ≤ e ∧
            st.offset ≤ (emitStep true clean sd p st).offset ∧
            (emitStep true clean sd p st).offset ≤ st.offset + p.2 := by
        unfold emitStep
        simp only [↓reduceIte]
        rcases hsd with hc | h0 | ⟨hm, hpos⟩
        · subst hc
          simp only [↓reduceIte]
          refine ⟨_, rfl, ?_, ?_, ?_⟩ <;> simp only [wrap64] <;> omega
        · subst h0
          cases clean
          · simp only [Bool.false_eq_true, ↓reduceIte]
            refine ⟨_, rfl, ?_, ?_, ?_⟩ <;> simp only [wrap64] <;> omega
          · simp only [↓reduceIte]
            refine ⟨_, rfl, ?_, ?_, ?_⟩ <;> simp only [wrap64] <;> omega
        · subst hm
          have hp := hpos p (by simp)
          cases clean
          · simp only [Bool.false_eq_true, ↓reduceIte]
            refine ⟨_, rfl, ?_, ?_, ?_⟩ <;> simp only [wrap64] <;> omega
          · simp only [↓reduceIte]
            refine ⟨_, rfl, ?_, ?_, ?_⟩ <;> simp only [wrap64] <;> omega
      obtain ⟨e, hmap, he, hlo, hhi⟩ := hstep
      generalize emitStep true clean sd p st = st2 at hmap hlo hhi ⊢
      have hsd2 : clean = true ∨ sd = 0 ∨ (sd = 18446744073709551615 ∧ ∀ q ∈ ps, 1 ≤ q.2) := by
        rcases hsd with hc | h0 | ⟨hm, hpos⟩
        · exact Or.inl hc
        · exact Or.inr (Or.inl h0)
        · exact Or.inr (Or.inr ⟨hm, fun q hq => hpos q (List.mem_cons_of_mem _ hq)⟩)
      obtain ⟨content, hc, hall, hpw, hlo2, hhi2⟩ := ih st2 hsd2 (by omega)
      refine ⟨(st.offset, e) :: content, ?_, ?_, ?_, by omega, by rw [sourceLength_cons]; omega⟩
      · rw [hc, hmap]; simp
      · intro pr hpr
        rcases List.mem_cons.mp hpr with h1 | h1
        · rw [h1]; exact ⟨Nat.le_refl _, he, by simp only; omega⟩
        · have := hall pr h1
          exact ⟨by omega, this.2.1, this.2.2⟩
      · rw [List.map_cons, List.pairwise_cons]
        refine ⟨?_, hpw⟩
        intro b hb
        obtain ⟨pr, hpr, rfl⟩ := List.mem_map.mp hb
        have := hall pr hpr
        simp only
        omega

end offsets

section offsets2
variable {κ : Type}

/-- The pairs a run of `scanLoop` adds when offsets are asked for, provided the symbol lists
returned during the run have source lengths of at least 1 and the running offset has room for
them: every pair ends at or after its start, and the starts do not decrease. -/
theorem scanLoop_offsets (env : BpeEnv κ) (M : Int) (clean : Bool) (chunks : List ustring)
    (st st' : ScanState κ) (h : scanLoop env M true clean chunks st = .ok st') :
    ∃ new, st'.calls = st.calls ++ new ∧
      ((∀ l ∈ returned new, ∀ p ∈ l, 1 ≤ p.2) →
        st.offset + offsetSpan new < 18446744073709551616 →
        ∃ content, st'.offset_mapping = st.offset_mapping ++ content ∧
          (∀ pr ∈ content, st.offset ≤ pr.1 ∧ pr.1 ≤ pr.2) ∧
          List.Pairwise (fun a b => a ≤ b) (content.map Prod.fst)) := by
  refine scanLoop_induction env M true clean
    (fun _ st st' => ∃ new, st'.calls = st.calls ++ new ∧
      ((∀ l ∈ returned new, ∀ p ∈ l, 1 ≤ p.2) →
        st.offset + offsetSpan new < 18446744073709551616 →
        ∃ content, st'.offset_mapping = st.offset_mapping ++ content ∧
          (∀ pr ∈ content, st.offset ≤ pr.1 ∧ pr.1 ≤ pr.2) ∧
          List.Pairwise (fun a b => a ≤ b) (content.map Prod.fst))) ?_ ?_ ?_ chunks st st' h
  · intro _ st _
    exact ⟨[], by simp, fun _ _ => ⟨[], by simp, by simp, by simp⟩⟩
  · intro st _
    exact ⟨[Call.GetNextToken none], rfl, fun _ _ => ⟨[], by simp, by simp, by simp⟩⟩
  · intro tok rest st adjusted st' _ hadj hP
    obtain ⟨new, hc, himp⟩ := hP
    rw [emitLoop_calls] at hc
    dsimp only at hc
    refine ⟨[Call.GetNextToken (some tok)]
        ++ (lookupOrMerge env clean (env.utf8 tok) st.bpe_cache).2.2 ++ new, ?_, ?_⟩
    · rw [hc]; simp
    · intro hpos hfit
      rw [returned_append, returned_append, returned_lookupOrMerge] at hpos
      rw [offsetSpan_append, offsetSpan_append, offsetSpan_lookupOrMerge] at hfit
      have hspan0 : offsetSpan [Call.GetNextToken (some tok)] = 0 := rfl
      rw [hspan0] at hfit
      have hposA : ∀ p ∈ (lookupOrMerge env clean (env.utf8 tok) st.bpe_cache).1, 1 ≤ p.2 :=
        hpos _ (by simp [returned])
      have hposN : ∀ l ∈ returned new, ∀ p ∈ l, 1 ≤ p.2 :=
        fun l hl => hpos l (by simp [hl])
      -- the adjustment for a leading space
      have hadj2 : st.offset ≤ adjusted.1 ∧ adjusted.1 ≤ st.offset + 1 ∧
          (adjusted.2 = 0 ∨ adjusted.2 = 18446744073709551615) := by
        unfold spaceAdjust at hadj
        simp only [↓reduceIte] at hadj
        split at hadj
        · cases hadj
        · split at hadj
          · rw [← Except.ok.inj hadj]
            dsimp only [wrap64]
            refine ⟨?_, ?_, Or.inr rfl⟩ <;> omega
          · rw [← Except.ok.inj hadj]
            simp
      obtain ⟨h1, h2, h3⟩ := hadj2
      have hsd : clean = true ∨ adjusted.2 = 0 ∨ (adjusted.2 = 18446744073709551615 ∧
          ∀ p ∈ (lookupOrMerge env clean (env.utf8 tok) st.bpe_cache).1, 1 ≤ p.2) := by
        rcases h3 with h0 | hm
        · exact Or.inr (Or.inl h0)
        · exact Or.inr (Or.inr ⟨hm, hposA⟩)
      obtain ⟨contentA, hmapA, hallA, hpwA, hloA, hhiA⟩ :=
        emitLoop_offsets M clean adjusted.2
          (lookupOrMerge env clean (env.utf8 tok) st.bpe_cache).1
          { st with
            offset := adjusted.1
            bpe_cache := (lookupOrMerge env clean (env.utf8 tok) st.bpe_cache).2.1
            calls := (st.calls ++ [Call.GetNextToken (some tok)])
              ++ (lookupOrMerge env clean (env.utf8 tok) st.bpe_cache).2.2 }
          hsd (by dsimp only; omega)
      dsimp only at hmapA hallA hloA hhiA
      obtain ⟨contentR, hmapR, hallR, hpwR⟩ := himp hposN (by omega)
      refine ⟨contentA ++ contentR, ?_, ?_, ?_⟩
      · rw [hmapR, hmapA]; simp
      · intro pr hpr
        rcases List.mem_append.mp hpr with hin | hin
        · have := hallA pr hin
          exact ⟨by omega, this.2.1⟩
        · have := hallR pr hin
          exact ⟨by omega, this.2⟩
      · rw [List.map_append, List.pairwise_append]
        refine ⟨hpwA, hpwR, ?_⟩
        intro a ha b hb
        obtain ⟨pa, hpa, rfl⟩ := List.mem_map.mp ha
        obtain ⟨pb, hpb, rfl⟩ := List.mem_map.mp hb
        have := hallA pa hpa
        have := hallR pb hpb
        omega

/-- The offset lists a run of `segLoop` adds to `offset_map`: one list per plain-text segment
it goes through, which is the content pairs of the segment, for Roberta and CLIP between two
pairs `(0, 0)`. Under the conditions of `scanLoop_offsets` every content pair ends at or after
its start and the starts of the content pairs do not decrease. -/
theorem segLoop_offsets (env : BpeEnv κ) (name : Model) (M : Int) (com : Bool)
    (segs : List (ustring × Int)) (st st' : SegState κ)
    (h : segLoop env name M com segs st = .ok st') :
    ∃ new, st'.calls = st.calls ++ new ∧
      ((∀ l ∈ returned new, ∀ p ∈ l, 1 ≤ p.2) →
        offsetSpan new < 18446744073709551616 →
        ∃ added, st'.offset_map = st.offset_map ++ added ∧
          ∀ m ∈ added, ∃ content,
            m = (if name = Model.GPT2 then content else (0, 0) :: (content ++ [(0, 0)])) ∧
            (∀ pr ∈ content, pr.1 ≤ pr.2) ∧
            List.Pairwise (fun a b => a ≤ b) (content.map Prod.fst)) := by
  refine segLoop_induction env name M com
    (fun _ st st' => ∃ new, st'.calls = st.calls ++ new ∧
      ((∀ l ∈ returned new, ∀ p ∈ l, 1 ≤ p.2) →
        offsetSpan new < 18446744073709551616 →
        ∃ added, st'.offset_map = st.offset_map ++ added ∧
          ∀ m ∈ added, ∃ content,
            m = (if name = Model.GPT2 then content else (0, 0) :: (content ++ [(0, 0)])) ∧
            (∀ pr ∈ content, pr.1 ≤ pr.2) ∧
            List.Pairwise (fun a b => a ≤ b) (content.map Prod.fst))) ?_ ?_ ?_ ?_ segs st st' h
  · intro st
    exact ⟨[], by simp, fun _ _ => ⟨[], by simp, by simp⟩⟩
  · intro _ _ st _
    exact ⟨[], by simp, fun _ _ => ⟨[], by simp, by simp⟩⟩
  · intro seg_id rest st st' _ _ hP
    obtain ⟨new, hc, himp⟩ := hP
    exact ⟨new, hc, himp⟩
  · intro seg_id rest st st1 st' _ _ hscan hP
    obtain ⟨new, hc, himp⟩ := hP
    dsimp only at hc himp
    cases com with
    | false =>
      obtain ⟨new1, _, hc1, _, _⟩ := scanLoop_origin env M false _ _ _ _ hscan
      dsimp only at hc1
      refine ⟨[Call.Set seg_id.1] ++ new1 ++ new, by rw [hc, hc1]; simp, ?_⟩
      intro hpos hfit
      rw [returned_append] at hpos
      rw [offsetSpan_append] at hfit
      simp only [Bool.false_eq_true, ↓reduceIte] at himp
      exact himp (fun l hl => hpos l (by simp [hl])) (by omega)
    | true =>
      obtain ⟨new1, hc1, himp1⟩ := scanLoop_offsets env M _ _ _ _ hscan
      dsimp only at hc1 himp1
      refine ⟨[Call.Set seg_id.1] ++ new1 ++ new, by rw [hc, hc1]; simp, ?_⟩
      intro hpos hfit
      rw [returned_append, returned_append] at hpos
      rw [offsetSpan_append, offsetSpan_append] at hfit
      have hspan0 : offsetSpan [Call.Set seg_id.1] = 0 := rfl
      rw [hspan0] at hfit
      obtain ⟨content, hmap, hall, hpw⟩ :=
        himp1 (fun l hl => hpos l (by simp [hl])) (by omega)
      obtain ⟨added, hadd, hprop⟩ := himp (fun l hl => hpos l (by simp [hl])) (by omega)
      simp only [↓reduceIte] at hadd
      by_cases hname : name = Model.GPT2
      · subst hname
        simp only [bne_self_eq_false, Bool.and_false, Bool.false_eq_true, ↓reduceIte,
          List.nil_append] at hmap hadd
        refine ⟨st1.offset_mapping :: added, by rw [hadd]; simp, ?_⟩
        intro m hm
        rcases List.mem_cons.mp hm with h1 | h1
        · refine ⟨content, by rw [h1, hmap]; simp, fun pr hpr => (hall pr hpr).2, hpw⟩
        · exact hprop m h1
      · have hne : (name != Model.GPT2) = true := by simpa using hname
        simp only [hne, Bool.and_self, ↓reduceIte] at hmap hadd
        refine ⟨(st1.offset_mapping ++ [(0, 0)]) :: added, by rw [hadd]; simp, ?_⟩
        intro m hm
        rcases List.mem_cons.mp hm with h1 | h1
        · refine ⟨content, ?_, fun pr hpr => (hall pr hpr).2, hpw⟩
          rw [h1, hmap, if_neg hname]; simp
        · exact hprop m h1

/-- The offset lists one call of `Tokenize` adds to `offset_map`, see `segLoop_offsets`. -/
theorem Tokenize_offsets (env : BpeEnv κ) (name : Model) (input : ustring) (M : Int)
    (com : Bool) (om : List OffsetMappingType) (r : TokenizeResult)
    (h : Tokenize env name input M com om = .ok r)
    (hpos : ∀ l ∈ returned r.calls, ∀ p ∈ l, 1 ≤ p.2)
    (hfit : offsetSpan r.calls < 18446744073709551616) :
    ∃ added, r.offset_map = om ++ added ∧
      ∀ m ∈ added, ∃ content,
        m = (if name = Model.GPT2 then content else (0, 0) :: (content ++ [(0, 0)])) ∧
        (∀ pr ∈ content, pr.1 ≤ pr.2) ∧
        List.Pairwise (fun a b => a ≤ b) (content.map Prod.fst) := by
  obtain ⟨_, st, _, _, hseg, _, hom, hcalls⟩ := Tokenize_ok env name input M com om r h
  obtain ⟨new, hc, himp⟩ := segLoop_offsets env name M com _ _ _ hseg
  dsimp only at hc himp
  rw [hcalls, hc] at hpos hfit
  rw [returned_append] at hpos
  rw [offsetSpan_append] at hfit
  obtain ⟨added, hadd, hprop⟩ := himp (fun l hl => hpos l (by simp [hl])) (by omega)
  exact ⟨added, by rw [hom, hadd], hprop⟩

end offsets2

/-- Claim C8, the code at failing inputs (`a` is the code point 97, `<sp>` the special token
of the small tokenizer). Roberta on `"a<sp>b"` returns 5 ids and adds 6 pairs in two lists,
each with its own pairs for BOS and EOS and none for the special token; GPT2 on the same text
returns 3 ids and adds 2 pairs; Roberta on `"<sp>"` returns 3 ids and adds no pair. -/
theorem C8_offsets_not_parallel_to_ids :
    (Tokenize asciiEnv Model.Roberta [97, 1, 98] 100 true []).map
        (fun r => (r.res, r.offset_map))
      = .ok ([256, 97, 300, 98, 257], [[(0, 0), (0, 1), (0, 0)], [(0, 0), (0, 1), (0, 0)]]) ∧
    (Tokenize asciiEnv Model.GPT2 [97, 1, 98] 100 true []).map
        (fun r => (r.res, r.offset_map))
      = .ok ([97, 300, 98], [[(0, 1)], [(0, 1)]]) ∧
    (Tokenize asciiEnv Model.Roberta [1] 100 true []).map
        (fun r => (r.res, r.offset_map))
      = .ok ([256, 300, 257], []) :=
  ⟨rfl, rfl, rfl⟩

/-- Claim C9. Offset pairs are well-formed: every pair `(start, end)` that a call of `Tokenize`
adds to `offset_map` has `end ≥ start`, as values of `size_t`, given that every symbol returned
by the merge engine or the cache during the call has a source length of at least 1, and that
the running offset does not run out of the range of `size_t` (the source lengths returned
during the call, plus one position per returned list, stay below `2^64`). -/
theorem C9_offset_pairs_well_formed {κ : Type} (env : BpeEnv κ) (name : Model) (input : ustring)
    (max_length : Int) (compute_offset_mapping : Bool) (offset_map : List OffsetMappingType)
    (r : TokenizeResult)
    (h : Tokenize env name input max_length compute_offset_mapping offset_map = .ok r)
    (hpos : ∀ l ∈ returned r.calls, ∀ p ∈ l, 1 ≤ p.2)
    (hfit : offsetSpan r.calls < 18446744073709551616) :
    ∃ added, r.offset_map = offset_map ++ added ∧ ∀ m ∈ added, ∀ pr ∈ m, pr.1 ≤ pr.2 := by
  obtain ⟨added, hadd, hprop⟩ :=
    Tokenize_offsets env name input max_length compute_offset_mapping offset_map r h hpos hfit
  refine ⟨added, hadd, ?_⟩
  intro m hm pr hpr
  obtain ⟨content, hmc, hall, _⟩ := hprop m hm
  rw [hmc] at hpr
  split at hpr
  · exact hall pr hpr
  · rcases List.mem_cons.mp hpr with h1 | h1
    · rw [h1]
    · rcases List.mem_append.mp h1 with h2 | h2
      · exact hall pr h2
      · rw [List.mem_singleton.mp h2]

/-- Claim C9, instance: GPT2 on `"a bc"`, where the chunk `" bc"` starts with a space and the
pairs of its three symbols are `(2, 2)`. -/
theorem C9_offset_pairs_well_formed_witness :
    (Tokenize asciiEnv Model.GPT2 [97, 32, 98, 99] 100 true [] = .ok gpt2OffsetsRun ∧
      (∀ l ∈ returned gpt2OffsetsRun.calls, ∀ p ∈ l, 1 ≤ p.2) ∧
      offsetSpan gpt2OffsetsRun.calls < 18446744073709551616) ∧
    ∃ added, gpt2OffsetsRun.offset_map = [] ++ added ∧ ∀ m ∈ added, ∀ pr ∈ m, pr.1 ≤ pr.2 :=
  ⟨⟨by decide, by decide, by decide⟩,
   C9_offset_pairs_well_formed asciiEnv Model.GPT2 [97, 32, 98, 99] 100 true [] gpt2OffsetsRun
     (by decide) (by decide) (by decide)⟩

/-- Claim C10, as stated, fails: Roberta on `"ab"` adds the pairs
`(0,0), (0,1), (1,2), (0,0)`, and the start 0 of the pair for EOS is below the start 1 of the
pair before it. -/
theorem C10_offset_starts_monotone_counterexample :
    (Tokenize asciiEnv Model.Roberta [97, 98] 100 true []).map (fun r => r.offset_map)
      = .ok [[(0, 0), (0, 1), (1, 2), (0, 0)]] ∧
    ¬ List.Pairwise (fun a b => a ≤ b)
      (([(0, 0), (0, 1), (1, 2), (0, 0)] : List (Nat × Nat)).map Prod.fst) := by
  decide

/-- Claim C10, amended. Every list that a call of `Tokenize` adds to `offset_map` (one per
plain-text segment) is, for GPT2, the content pairs of the segment, and for Roberta and CLIP
the pair `(0, 0)` for BOS, the content pairs, and the pair `(0, 0)` for EOS. The starts of the
content pairs of one list do not decrease, given that every symbol returned during the call
has a source length of at least 1 and that the running offset stays in the range of
`size_t`. -/
theorem C10_offset_starts_monotone_in_segment {κ : Type} (env : BpeEnv κ) (name : Model)
    (input : ustring) (max_length : Int) (compute_offset_mapping : Bool)
    (offset_map : List OffsetMappingType) (r : TokenizeResult)
    (h : Tokenize env name input max_length compute_offset_mapping offset_map = .ok r)
    (hpos : ∀ l ∈ returned r.calls, ∀ p ∈ l, 1 ≤ p.2)
    (hfit : offsetSpan r.calls < 18446744073709551616) :
    ∃ added, r.offset_map = offset_map ++ added ∧
      ∀ m ∈ added, ∃ content,
        m = (if name = Model.GPT2 then content else (0, 0) :: (content ++ [(0, 0)])) ∧
        List.Pairwise (fun a b => a ≤ b) (content.map Prod.fst) := by
  obtain ⟨added, hadd, hprop⟩ :=
    Tokenize_offsets env name input max_length compute_offset_mapping offset_map r h hpos hfit
  refine ⟨added, hadd, ?_⟩
  intro m hm
  obtain ⟨content, hmc, _, hpw⟩ := hprop m hm
  exact ⟨content, hmc, hpw⟩

/-- Claim C10, amended, instance: Roberta on `"ab"`. -/
theorem C10_offset_starts_monotone_in_segment_witness :
    (Tokenize asciiEnv Model.Roberta [97, 98] 100 true [] = .ok robertaOffsetsRun ∧
      (∀ l ∈ returned robertaOffsetsRun.calls, ∀ p ∈ l, 1 ≤ p.2) ∧
      offsetSpan robertaOffsetsRun.calls < 18446744073709551616) ∧
    ∃ added, robertaOffsetsRun.offset_map = [] ++ added ∧
      ∀ m ∈ added, ∃ content,
        m = (if Model.Roberta = Model.GPT2 then content else (0, 0) :: (content ++ [(0, 0)])) ∧
        List.Pairwise (fun a b => a ≤ b) (content.map Prod.fst) :=
  ⟨⟨by decide, by decide, by decide⟩,
   C10_offset_starts_monotone_in_segment asciiEnv Model.Roberta [97, 98] 100 true []
     robertaOffsetsRun (by decide) (by decide) (by decide)⟩

/-! ## The constructor -/

/-- Claim C17. Construction-time validation: before the vocabulary is loaded the constructor
throws if and only if the attribute `vocab` is empty, or the attribute `merges` is empty, or
`padding_length` is present and is neither -1 nor positive; every such throw carries the code
`ORT_INVALID_ARGUMENT`, and otherwise `padding_length_` is the attribute, or -1 when the
attribute is absent. -/
theorem C17_constructor_validation (vocab merges : Bytes) (padding_length : Option Int) :
    ((∃ e, KernelBpeTokenizer vocab merges padding_length = .error e) ↔
      (vocab = [] ∨ merges = [] ∨
        ∃ value, padding_length = some value ∧ value ≠ -1 ∧ ¬ 0 < value)) ∧
    (∀ e, KernelBpeTokenizer vocab merges padding_length = .error e →
      e.code = OrtErrorCode.ORT_INVALID_ARGUMENT) ∧
    (∀ value, KernelBpeTokenizer vocab merges padding_length = .ok value →
      value = padding_length.getD (-1)) := by
  refine ⟨?_, ?_, ?_⟩
  · unfold KernelBpeTokenizer
    cases vocab with
    | nil => simp
    | cons v vs =>
      cases merges with
      | nil => simp
      | cons m ms =>
        cases padding_length with
        | none => simp
        | some value =>
          simp only [List.isEmpty_cons, Bool.false_eq_true, ↓reduceIte, reduceCtorEq, false_or,
            Option.some.injEq, exists_eq_left']
          by_cases h1 : value = -1
          · subst h1; simp
          · by_cases h2 : value ≤ 0
            · simp [h1, h2]
            · simp [h1, h2]
  · intro e _
    cases e <;> rfl
  · intro value h
    unfold KernelBpeTokenizer at h
    split at h
    · cases h
    · split at h
      · cases h
      · dsimp only at h
        split at h
        · cases h
        · cases padding_length with
          | none => exact (Except.ok.inj h).symm
          | some v => exact (Except.ok.inj h).symm

/-- Claim C18, as stated, fails. With the vocabulary of Scenario A and an empty attribute
`merges` the constructor throws, so no tokenizer exists; and a GPT2 tokenizer whose merge
engine merges nothing gives one id per byte for the chunks `"Hello"` and `" world"`, 11 ids
and not 2. -/
theorem C18_scenario_A_counterexample :
    KernelBpeTokenizer scenarioAVocab [] none = .error ConstructorThrow.merges_empty ∧
    (Tokenize asciiEnv Model.GPT2 [72, 101, 108, 108, 111, 32, 119, 111, 114, 108, 100]
        100 false []).map (fun r => r.res)
      = .ok [72, 101, 108, 108, 111, 32, 119, 111, 114, 108, 100] := by
  decide

/-- Claim C18, amended. No tokenizer can be constructed with an empty merges table: for every
non-empty vocabulary and every `padding_length` the constructor throws the invalid-argument
error about the merges before the vocabulary is loaded. -/
theorem C18_scenario_A_construction_fails (vocab : Bytes) (padding_length : Option Int)
    (hvocab : vocab ≠ []) :
    KernelBpeTokenizer vocab [] padding_length = .error ConstructorThrow.merges_empty ∧
    ConstructorThrow.merges_empty.code = OrtErrorCode.ORT_INVALID_ARGUMENT := by
  refine ⟨?_, rfl⟩
  unfold KernelBpeTokenizer
  cases vocab with
  | nil => exact absurd rfl hvocab
  | cons v vs => rfl

/-- Claim C18, amended, instance: the vocabulary of Scenario A with `padding_length = 16`. -/
theorem C18_scenario_A_construction_fails_witness :
    scenarioAVocab ≠ [] ∧
    (KernelBpeTokenizer scenarioAVocab [] (some 16) = .error ConstructorThrow.merges_empty ∧
      ConstructorThrow.merges_empty.code = OrtErrorCode.ORT_INVALID_ARGUMENT) :=
  ⟨by decide, C18_scenario_A_construction_fails scenarioAVocab (some 16) (by decide)⟩

/-! ## The whitespace of CLIP -/

theorem RemoveConsecutiveSpaces.loop_mem (l : ustring) (b : Bool) (c : Nat)
    (h : c ∈ RemoveConsecutiveSpaces.loop l b) : c ∈ l := by
  induction l generalizing b with
  | nil => simp [RemoveConsecutiveSpaces.loop] at h
  | cons ch rest ih =>
    unfold RemoveConsecutiveSpaces.loop at h
    split at h
    · split at h
      · rcases List.mem_cons.mp h with h1 | h1
        · rw [h1]; simp
        · exact List.mem_cons_of_mem _ (ih true h1)
      · exact List.mem_cons_of_mem _ (ih true h)
    · rcases List.mem_cons.mp h with h1 | h1
      · rw [h1]; simp
      · exact List.mem_cons_of_mem _ (ih false h1)

/-- Claim C13, the code at a failing input. `RemoveConsecutiveSpaces` keeps the first
character of a run of whitespace as it is: `"a\t\tb"` becomes `"a\tb"`, not `"a b"`; and it
never puts a character into the result that is not in the input. -/
theorem C13_whitespace_run_keeps_first_character :
    RemoveConsecutiveSpaces [97, 9, 9, 98] = [97, 9, 98] ∧
    RemoveConsecutiveSpaces [97, 9, 9, 98] ≠ [97, 0x20, 98] ∧
    (∀ (input : ustring) (c : Nat), c ∈ RemoveConsecutiveSpaces input → c ∈ input) :=
  ⟨by decide, by decide, fun input c h => RemoveConsecutiveSpaces.loop_mem input false c h⟩

/-- Claim C14, the code at the input of Scenario C. The CLIP pre-processing turns
`"a   b\n\nc"` into `"a bc"`: the run `"\n\n"` is collapsed to `"\n"`, which is then erased.
The small CLIP tokenizer is handed the text `"a bc"` and gets the two chunks `"a"` and
`" bc"` from the scanner, not three chunks. -/
theorem C14_scenario_C_preprocessing :
    CLIPPreProcess [97, 32, 32, 32, 98, 10, 10, 99] = .ok [97, 32, 98, 99] ∧
    (Tokenize asciiEnv Model.CLIP [97, 32, 32, 32, 98, 10, 10, 99] 100 false []).map
        (fun r => r.input) = .ok [97, 32, 98, 99] ∧
    (Tokenize asciiEnv Model.CLIP [97, 32, 32, 32, 98, 10, 10, 99] 100 false []).map
        (fun r => fetchedChunks r.calls) = .ok [[97], [32, 98, 99]] := by
  decide

/-! ## The layout of the offsets, the key of the cache, degenerate inputs -/

/-- Claim C12, the code at a failing input. The Roberta kernel with `padding_length_ = -1` on
the batch `["a", "abc"]` with offsets: the width is 5 and the shape of `offset` is `[2, 5, 2]`
with 20 elements, but the pairs of the two inputs are written one after the other without a
gap for the two padding positions of the first row, 16 entries in all. The pairs of the second
input start at index 6 instead of 10: the entries 10 and 11, claimed to be its first pair
`(0, 0)`, are `1` and `2`. -/
theorem C12_offsets_written_without_padding_gap :
    Compute asciiEnv Model.Roberta (-1) [[97], [97, 98, 99]] [2] false true =
      .ok { output_dim := [2, 5], offset_dim := [2, 5, 2], max_length := 5,
            tokenize_results := [[256, 97, 257], [256, 97, 98, 99, 257]],
            offset_map := [[(0, 0), (0, 1), (0, 0)], [(0, 0), (0, 1), (1, 2), (2, 3), (0, 0)]],
            token := [256, 97, 257, 258, 258, 256, 97, 98, 99, 257], mask := none,
            offset := some [0, 0, 0, 1, 0, 0, 0, 0, 0, 1, 1, 2, 2, 3, 0, 0] } ∧
    NumberOfElement [2, 5, 2] = 20 ∧
    ([0, 0, 0, 1, 0, 0, 0, 0, 0, 1, 1, 2, 2, 3, 0, 0] : List Int).length = 16 ∧
    ([0, 0, 0, 1, 0, 0, 0, 0, 0, 1, 1, 2, 2, 3, 0, 0] : List Int)[2 * (1 * 5 + 0)]? = some 1 ∧
    ([0, 0, 0, 1, 0, 0, 0, 0, 0, 1, 1, 2, 2, 3, 0, 0] : List Int)[2 * (1 * 5 + 0) + 1]?
      = some 2 := by
  decide

/-- Claim C16, the code at a failing input. CLIP on `"a b b"`: the chunk `" b"` is looked up
under `" b"` and, after the miss, stored under `"b"`, the chunk with its spaces erased; the
second occurrence of `" b"` is a miss again and the merge is done a second time. GPT2 on the
same text stores under `" b"` and the second occurrence is a hit. -/
theorem C16_clip_stores_under_erased_key :
    (Tokenize asciiEnv Model.CLIP [97, 32, 98, 32, 98] 100 false []).map (fun r => r.calls)
      = .ok [Call.SplitBySpecialTokens [97, 32, 98, 32, 98], Call.Set [97, 32, 98, 32, 98],
          Call.GetNextToken (some [97]), Call.already_tokenized [97] false,
          Call.bpe [(1097, 1)] [(1097, 1)], Call.add [97] [(1097, 1)],
          Call.GetNextToken (some [32, 98]), Call.already_tokenized [32, 98] false,
          Call.bpe [(1098, 1)] [(1098, 1)], Call.add [98] [(1098, 1)],
          Call.GetNextToken (some [32, 98]), Call.already_tokenized [32, 98] false,
          Call.bpe [(1098, 1)] [(1098, 1)], Call.add [98] [(1098, 1)],
          Call.GetNextToken none] ∧
    (Tokenize asciiEnv Model.GPT2 [97, 32, 98, 32, 98] 100 false []).map (fun r => r.calls)
      = .ok [Call.SplitBySpecialTokens [97, 32, 98, 32, 98], Call.Set [97, 32, 98, 32, 98],
          Call.GetNextToken (some [97]), Call.already_tokenized [97] false,
          Call.bpe [(97, 1)] [(97, 1)], Call.add [97] [(97, 1)],
          Call.GetNextToken (some [32, 98]), Call.already_tokenized [32, 98] false,
          Call.bpe [(32, 1), (98, 1)] [(32, 1), (98, 1)], Call.add [32, 98] [(32, 1), (98, 1)],
          Call.GetNextToken (some [32, 98]), Call.already_tokenized [32, 98] true,
          Call.get_output [32, 98] [(32, 1), (98, 1)], Call.GetNextToken none] :=
  ⟨rfl, rfl⟩

/-- Claim C19, the code at failing inputs, and where the claim holds. For CLIP `Tokenize`
evaluates `str.front()` on an empty string when the input is empty, and `str.back()` on an
empty string when the input is one space. Apart from that a call returns: for GPT2 and Roberta
on every input, for CLIP on every input that holds a character that is not whitespace,
provided that with offsets the scanner hands out no chunk whose UTF-8 form is empty (the test
`utf8_token.at(0)` is applied to every chunk). -/
theorem C19_tokenize_on_degenerate_inputs {κ : Type} (env : BpeEnv κ) (max_length : Int)
    (compute_offset_mapping : Bool) (offset_map : List OffsetMappingType) :
    Tokenize env Model.CLIP [] max_length compute_offset_mapping offset_map
      = .error TokenizeError.front_of_empty ∧
    Tokenize env Model.CLIP [0x20] max_length compute_offset_mapping offset_map
      = .error TokenizeError.back_of_empty ∧
    (∀ (name : Model) (input : ustring),
      (name = Model.CLIP → AllSpaceUstring input = false) →
      (compute_offset_mapping = true →
        ∀ seg, ∀ tok ∈ env.GetNextToken seg, env.utf8 tok ≠ []) →
      ∃ r, Tokenize env name input max_length compute_offset_mapping offset_map = .ok r) :=
  ⟨rfl, rfl, fun name input h1 h2 =>
    Tokenize_returns env name input max_length compute_offset_mapping offset_map h1 h2⟩

/-! ## Special-token segments -/

section special
variable {κ : Type}

theorem segLoop_stop (env : BpeEnv κ) (name : Model) (M : Int) (com : Bool)
    (segs : List (ustring × Int)) (st : SegState κ) (h : (st.res.length : Int) ≥ M) :
    segLoop env name M com segs st = .ok st := by
  cases segs <;> simp [segLoop, h]

theorem segLoop_cons (env : BpeEnv κ) (name : Model) (M : Int) (com : Bool)
    (seg_id : ustring × Int) (rest : List (ustring × Int)) (st : SegState κ) :
    segLoop env name M com (seg_id :: rest) st
      = if (st.res.length : Int) ≥ M then .ok st
        else if seg_id.2 ≠ -1 then
          segLoop env name M com rest { st with res := st.res ++ [seg_id.2] }
        else
          match scanLoop env M com (name == Model.CLIP) (env.GetNextToken seg_id.1)
            { res := st.res, bpe_cache := st.bpe_cache, offset := 0,
              offset_mapping := if com && (name != Model.GPT2) then [(0, 0)] else [],
              calls := st.calls ++ [Call.Set seg_id.1] } with
          | .error e => .error e
          | .ok st1 =>
            segLoop env name M com rest
              { res := st1.res, bpe_cache := st1.bpe_cache,
                offset_map :=
                  if com then
                    if name != Model.GPT2 then st.offset_map ++ [st1.offset_mapping ++ [(0, 0)]]
                    else st.offset_map ++ [st1.offset_mapping]
                  else st.offset_map,
                calls := st1.calls } := by
  rfl

/-- The segment loop on a list of segments in two parts: the second part starts in the state
that the first part ends in. -/
theorem segLoop_append (env : BpeEnv κ) (name : Model) (M : Int) (com : Bool)
    (a b : List (ustring × Int)) (st : SegState κ) :
    segLoop env name M com (a ++ b) st
      = match segLoop env name M com a st with
        | .error e => .error e
        | .ok mid => segLoop env name M com b mid := by
  induction a generalizing st with
  | nil => simp [segLoop]
  | cons seg_id a ih =>
    rw [List.cons_append, segLoop_cons, segLoop_cons]
    split
    · rename_i hge
      exact (segLoop_stop env name M com b st hge).symm
    · split
      · exact ih _
      · cases hscan : scanLoop env M com (name == Model.CLIP) (env.GetNextToken seg_id.1)
          { res := st.res, bpe_cache := st.bpe_cache, offset := 0,
            offset_mapping := if com && (name != Model.GPT2) then [(0, 0)] else [],
            calls := st.calls ++ [Call.Set seg_id.1] } with
        | error e => rfl
        | ok st1 => exact ih _

theorem lookupOrMerge_no_Set (env : BpeEnv κ) (clean : Bool) (key : Bytes) (cache : κ)
    (s : ustring) : Call.Set s ∉ (lookupOrMerge env clean key cache).2.2 := by
  unfold lookupOrMerge
  split
  · simp
  · split <;> simp

/-- The loop over the chunks of a segment makes no call of `Set`. -/
theorem scanLoop_no_Set (env : BpeEnv κ) (M : Int) (com clean : Bool) (chunks : List ustring)
    (st st' : ScanState κ) (h : scanLoop env M com clean chunks st = .ok st') :
    ∃ new, st'.calls = st.calls ++ new ∧ ∀ s, Call.Set s ∉ new := by
  refine scanLoop_induction env M com clean
    (fun _ st st' => ∃ new, st'.calls = st.calls ++ new ∧ ∀ s, Call.Set s ∉ new) ?_ ?_ ?_
    chunks st st' h
  · intro _ st _
    exact ⟨[], by simp, by simp⟩
  · intro st _
    exact ⟨[Call.GetNextToken none], rfl, by simp⟩
  · intro tok rest st adjusted st' _ _ hP
    obtain ⟨new, hc, hno⟩ := hP
    rw [emitLoop_calls] at hc
    dsimp only at hc
    refine ⟨[Call.GetNextToken (some tok)]
        ++ (lookupOrMerge env clean (env.utf8 tok) st.bpe_cache).2.2 ++ new, ?_, ?_⟩
    · rw [hc]; simp
    · intro s hs
      rcases List.mem_append.mp hs with h1 | h1
      · rcases List.mem_append.mp h1 with h2 | h2
        · simp at h2
        · exact lookupOrMerge_no_Set env clean _ _ s h2
      · exact hno s h1

/-- Every call of `Set` that the segment loop makes is for a segment whose id is -1. -/
theorem segLoop_Set (env : BpeEnv κ) (name : Model) (M : Int) (com : Bool)
    (segs : List (ustring × Int)) (st st' : SegState κ)
    (h : segLoop env name M com segs st = .ok st') :
    ∃ new, st'.calls = st.calls ++ new ∧ ∀ s, Call.Set s ∈ new → (s, -1) ∈ segs := by
  refine segLoop_induction env name M com
    (fun segs st st' => ∃ new, st'.calls = st.calls ++ new ∧
      ∀ s, Call.Set s ∈ new → (s, -1) ∈ segs) ?_ ?_ ?_ ?_ segs st st' h
  · intro st
    exact ⟨[], by simp, by simp⟩
  · intro _ _ st _
    exact ⟨[], by simp, by simp⟩
  · intro seg_id rest st st' _ _ hP
    obtain ⟨new, hc, hset⟩ := hP
    exact ⟨new, hc, fun s hs => List.mem_cons_of_mem _ (hset s hs)⟩
  · intro seg_id rest st st1 st' _ hplain hscan hP
    obtain ⟨new, hc, hset⟩ := hP
    obtain ⟨new1, hc1, hno⟩ := scanLoop_no_Set env M com _ _ _ _ hscan
    dsimp only at hc hc1
    refine ⟨[Call.Set seg_id.1] ++ new1 ++ new, by rw [hc, hc1]; simp, ?_⟩
    intro s hs
    rcases List.mem_append.mp hs with h1 | h1
    · rcases List.mem_append.mp h1 with h2 | h2
      · have hs1 : s = seg_id.1 := by simpa using h2
        have : (s, (-1 : Int)) = seg_id := by
          rw [hs1, ← hplain]
        rw [this]; simp
      · exact absurd h2 (hno s)
    · exact List.mem_cons_of_mem _ (hset s h1)

end special

/-- Claim C20. Special-token segments bypass scanning. When the segment loop reaches a unit
`(segment, id)` with `id ≠ -1` while the result is shorter than `max_length`, it goes on with
the later units in the state it had, with that one id added to the result: the cache, the
offset map and the call log are the same, so no scanner, cache or merge-engine call is made
for the unit. In every returning call of `Tokenize`, every segment handed to the scanner is a
unit of the split input with the id -1. -/
theorem C20_special_token_segments_bypass_scanning {κ : Type} (env : BpeEnv κ) (name : Model)
    (max_length : Int) (compute_offset_mapping : Bool) :
    (∀ (earlier later : List (ustring × Int)) (segment : ustring) (id : Int)
        (st mid : SegState κ),
      id ≠ -1 →
      segLoop env name max_length compute_offset_mapping earlier st = .ok mid →
      (mid.res.length : Int) < max_length →
      segLoop env name max_length compute_offset_mapping (earlier ++ (segment, id) :: later) st
        = segLoop env name max_length compute_offset_mapping later
            { res := mid.res ++ [id], bpe_cache := mid.bpe_cache,
              offset_map := mid.offset_map, calls := mid.calls }) ∧
    (∀ (input : ustring) (offset_map : List OffsetMappingType) (r : TokenizeResult),
      Tokenize env name input max_length compute_offset_mapping offset_map = .ok r →
      ∀ s, Call.Set s ∈ r.calls → (s, -1) ∈ env.SplitBySpecialTokens r.input) := by
  constructor
  · intro earlier later segment id st mid hid hmid hlt
    rw [segLoop_append, hmid]
    dsimp only
    rw [segLoop_cons, if_neg (by omega), if_pos hid]
  · intro input offset_map r h s hs
    obtain ⟨_, st, _, _, hseg, _, _, hcalls⟩ :=
      Tokenize_ok env name input max_length compute_offset_mapping offset_map r h
    obtain ⟨new, hc, hset⟩ := segLoop_Set env name max_length _ _ _ _ hseg
    dsimp only at hc
    rw [hcalls, hc] at hs
    rcases List.mem_append.mp hs with h1 | h1
    · simp at h1
    · exact hset s h1

/-- Claim C20, instance: Roberta on `"a<sp>b"`, where `<sp>` is the special token of the small
tokenizer; the only segments handed to the scanner are `"a"` and `"b"`. -/
theorem C20_special_token_segments_bypass_scanning_witness :
    (Tokenize asciiEnv Model.Roberta [97, 1, 98] 100 false []).map (fun r => r.res)
      = .ok [256, 97, 300, 98, 257] ∧
    asciiEnv.SplitBySpecialTokens [97, 1, 98] = [([97], -1), ([1], 300), ([98], -1)] ∧
    (∀ (st mid : SegState (List (Bytes × List Symbol))),
      segLoop asciiEnv Model.Roberta 100 false [([97], -1)] st = .ok mid →
      (mid.res.length : Int) < 100 →
      segLoop asciiEnv Model.Roberta 100 false ([([97], -1)] ++ ([1], 300) :: [([98], -1)]) st
        = segLoop asciiEnv Model.Roberta 100 false [([98], -1)]
            { res := mid.res ++ [300], bpe_cache := mid.bpe_cache,
              offset_map := mid.offset_map, calls := mid.calls }) :=
  ⟨by decide, by decide, fun st mid h1 h2 =>
    (C20_special_token_segments_bypass_scanning asciiEnv Model.Roberta 100 false).1
      [([97], -1)] [([98], -1)] [1] 300 st mid (by decide) h1 h2⟩

/-! ## The cache is transparent -/

section transparency
variable {κ : Type}

theorem fetchedChunks_append (a b : List Call) :
    fetchedChunks (a ++ b) = fetchedChunks a ++ fetchedChunks b := by
  simp [fetchedChunks, fetched_append]

theorem fetchedChunks_lookupOrMerge (env : BpeEnv κ) (clean : Bool) (key : Bytes) (cache : κ) :
    fetchedChunks (lookupOrMerge env clean key cache).2.2 = [] := by
  simp [fetchedChunks, fetched_lookupOrMerge]

theorem get_output_mem_lookupOrMerge (env : BpeEnv κ) (clean : Bool) (key : Bytes) (cache : κ)
    (key1 : Bytes) (out : List Symbol)
    (h : Call.get_output key1 out ∈ (lookupOrMerge env clean key cache).2.2) :
    key1 = key ∧ out = (lookupOrMerge env clean key cache).1 := by
  unfold lookupOrMerge at h ⊢
  split at h
  · rename_i hhit
    rw [if_pos hhit]
    simpa using h
  · split at h <;> simp at h

/-- One lookup with a lawful cache all of whose entries hold the merge of the encoding of
their key: the list used for the chunk is the merge of the encoding of the chunk, whether it
comes from the cache or from the merge engine, and the entries of the new cache state are of
the same kind. -/
theorem lookupOrMerge_transparent (env : BpeEnv κ) (clean : Bool)
    (view : κ → Bytes → Option (List Symbol))
    (hget : ∀ c key, env.bpe_cache.already_tokenized c key = true →
      view c key = some (env.bpe_cache.get_output c key).2)
    (hkeep : ∀ c key key1 value, view (env.bpe_cache.get_output c key).1 key1 = some value →
      view c key1 = some value)
    (hadd : ∀ c key value key1 value1, view (env.bpe_cache.add c key value) key1 = some value1 →
      (key1 = key ∧ value1 = value) ∨ view c key1 = some value1)
    (key : Bytes) (cache : κ)
    (hinv : ∀ k v, view cache k = some v → v = env.bpe (encodeChunk env clean k)) :
    (lookupOrMerge env clean key cache).1 = env.bpe (encodeChunk env clean key) ∧
    ∀ k v, view (lookupOrMerge env clean key cache).2.1 k = some v →
      v = env.bpe (encodeChunk env clean k) := by
  unfold lookupOrMerge
  split
  · rename_i hhit
    dsimp only
    exact ⟨hinv key _ (hget cache key hhit), fun k v hv => hinv k v (hkeep cache key k v hv)⟩
  · cases clean with
    | true =>
      simp only [↓reduceIte]
      refine ⟨rfl, ?_⟩
      intro k v hv
      rcases hadd _ _ _ _ _ hv with ⟨hk, hval⟩ | hold
      · rw [hk, hval]
        simp [encodeChunk, List.filter_filter]
      · exact hinv k v hold
    | false =>
      simp only [Bool.false_eq_true, ↓reduceIte]
      refine ⟨rfl, ?_⟩
      intro k v hv
      rcases hadd _ _ _ _ _ hv with ⟨hk, hval⟩ | hold
      · rw [hk, hval]
        simp [encodeChunk]
      · exact hinv k v hold

/-- The loop over the chunks of a segment with a lawful cache: every symbol list returned by
the cache or the merge engine is the merge of the encoding of the chunk it is used for. -/
theorem scanLoop_transparent (env : BpeEnv κ) (M : Int) (com clean : Bool)
    (view : κ → Bytes → Option (List Symbol))
    (hget : ∀ c key, env.bpe_cache.already_tokenized c key = true →
      view c key = some (env.bpe_cache.get_output c key).2)
    (hkeep : ∀ c key key1 value, view (env.bpe_cache.get_output c key).1 key1 = some value →
      view c key1 = some value)
    (hadd : ∀ c key value key1 value1, view (env.bpe_cache.add c key value) key1 = some value1 →
      (key1 = key ∧ value1 = value) ∨ view c key1 = some value1)
    (chunks : List ustring) (st st' : ScanState κ)
    (h : scanLoop env M com clean chunks st = .ok st')
    (hinv : ∀ k v, view st.bpe_cache k = some v → v = env.bpe (encodeChunk env clean k)) :
    (∀ k v, view st'.bpe_cache k = some v → v = env.bpe (encodeChunk env clean k)) ∧
    ∃ new, st'.calls = st.calls ++ new ∧
      returned new
        = (fetchedChunks new).map (fun tok => env.bpe (encodeChunk env clean (env.utf8 tok))) ∧
      ∀ key out, Call.get_output key out ∈ new → out = env.bpe (encodeChunk env clean key) := by
  refine scanLoop_induction env M com clean
    (fun _ st st' =>
      (∀ k v, view st.bpe_cache k = some v → v = env.bpe (encodeChunk env clean k)) →
      (∀ k v, view st'.bpe_cache k = some v → v = env.bpe (encodeChunk env clean k)) ∧
      ∃ new, st'.calls = st.calls ++ new ∧
        returned new
          = (fetchedChunks new).map
              (fun tok => env.bpe (encodeChunk env clean (env.utf8 tok))) ∧
        ∀ key out, Call.get_output key out ∈ new →
          out = env.bpe (encodeChunk env clean key)) ?_ ?_ ?_ chunks st st' h hinv
  · intro _ st _ hinv
    exact ⟨hinv, [], by simp, rfl, by simp⟩
  · intro st _ hinv
    exact ⟨hinv, [Call.GetNextToken none], rfl, rfl, by simp⟩
  · intro tok rest st adjusted st' _ _ hP hinv
    obtain ⟨hfound, hinv1⟩ :=
      lookupOrMerge_transparent env clean view hget hkeep hadd (env.utf8 tok) st.bpe_cache hinv
    rw [emitLoop_bpe_cache, emitLoop_calls] at hP
    obtain ⟨hinv', new, hc, hret, hout⟩ := hP hinv1
    dsimp only at hc
    refine ⟨hinv', [Call.GetNextToken (some tok)]
        ++ (lookupOrMerge env clean (env.utf8 tok) st.bpe_cache).2.2 ++ new, ?_, ?_, ?_⟩
    · rw [hc]; simp
    · rw [returned_append, returned_append, returned_lookupOrMerge, fetchedChunks_append,
        fetchedChunks_append, fetchedChunks_lookupOrMerge, hret, hfound]
      rfl
    · intro key out hmem
      rcases List.mem_append.mp hmem with h1 | h1
      · rcases List.mem_append.mp h1 with h2 | h2
        · simp at h2
        · obtain ⟨hk, ho⟩ := get_output_mem_lookupOrMerge env clean _ _ key out h2
          rw [hk, ho, hfound]
      · exact hout key out h1

/-- The loop over the segments with a lawful cache, see `scanLoop_transparent`. -/
theorem segLoop_transparent (env : BpeEnv κ) (name : Model) (M : Int) (com : Bool)
    (view : κ → Bytes → Option (List Symbol))
    (hget : ∀ c key, env.bpe_cache.already_tokenized c key = true →
      view c key = some (env.bpe_cache.get_output c key).2)
    (hkeep : ∀ c key key1 value, view (env.bpe_cache.get_output c key).1 key1 = some value →
      view c key1 = some value)
    (hadd : ∀ c key value key1 value1, view (env.bpe_cache.add c key value) key1 = some value1 →
      (key1 = key ∧ value1 = value) ∨ view c key1 = some value1)
    (segs : List (ustring × Int)) (st st' : SegState κ)
    (h : segLoop env name M com segs st = .ok st')
    (hinv : ∀ k v, view st.bpe_cache k = some v →
      v = env.bpe (encodeChunk env (name == Model.CLIP) k)) :
    ∃ new, st'.calls = st.calls ++ new ∧
      returned new = (fetchedChunks new).map
        (fun tok => env.bpe (encodeChunk env (name == Model.CLIP) (env.utf8 tok))) ∧
      ∀ key out, Call.get_output key out ∈ new →
        out = env.bpe (encodeChunk env (name == Model.CLIP) key) := by
  refine segLoop_induction env name M com
    (fun _ st st' =>
      (∀ k v, view st.bpe_cache k = some v →
        v = env.bpe (encodeChunk env (name == Model.CLIP) k)) →
      ∃ new, st'.calls = st.calls ++ new ∧
        returned new = (fetchedChunks new).map
          (fun tok => env.bpe (encodeChunk env (name == Model.CLIP) (env.utf8 tok))) ∧
        ∀ key out, Call.get_output key out ∈ new →
          out = env.bpe (encodeChunk env (name == Model.CLIP) key)) ?_ ?_ ?_ ?_
    segs st st' h hinv
  · intro st _
    exact ⟨[], by simp, rfl, by simp⟩
  · intro _ _ st _ _
    exact ⟨[], by simp, rfl, by simp⟩
  · intro seg_id rest st st' _ _ hP hinv
    exact hP hinv
  · intro seg_id rest st st1 st' _ _ hscan hP hinv
    obtain ⟨hinv1, new1, hc1, hret1, hout1⟩ :=
      scanLoop_transparent env M com (name == Model.CLIP) view hget hkeep hadd _ _ _ hscan hinv
    obtain ⟨new, hc, hret, hout⟩ := hP hinv1
    dsimp only at hc hc1
    refine ⟨[Call.Set seg_id.1] ++ new1 ++ new, by rw [hc, hc1]; simp, ?_, ?_⟩
    · rw [returned_append, returned_append, fetchedChunks_append, fetchedChunks_append,
        hret, hret1]
      simp [returned, fetchedChunks, fetched]
    · intro key out hmem
      rcases List.mem_append.mp hmem with h1 | h1
      · rcases List.mem_append.mp h1 with h2 | h2
        · simp at h2
        · exact hout1 key out h2
      · exact hout key out h1

theorem listCache_lawful : LawfulCache listCache := by
  refine ⟨fun c key => c.lookup key, ?_, ?_, ?_, ?_⟩
  · intro _ _; rfl
  · intro c key h
    simp only [listCache] at h ⊢
    cases hl : List.lookup key c with
    | none => rw [hl] at h; simp at h
    | some v => simp
  · intro c key key1 value h
    exact h
  · intro c key value key1 value1 h
    simp only [listCache, List.lookup_cons] at h
    by_cases hk : key1 = key
    · subst hk
      simp at h
      exact Or.inl ⟨rfl, h.symm⟩
    · right
      have : (key1 == key) = false := by simpa using hk
      rw [this] at h
      exact h

end transparency

/-- Claim C15. Cache transparency: with a cache that returns for a present key the value last
added under it (entries may be evicted at any time), in every returning call of `Tokenize`,
for every family, the symbol list used for a chunk is the merge of the family's encoding of
the chunk, whether it is served from the cache or recomputed: the lists returned by the cache
and the merge engine are, in order, the merges of the encodings of the chunks handed out by
the scanner, and every list that `get_output` returns is the merge of the encoding of its
key. -/
theorem C15_cache_transparency {κ : Type} (env : BpeEnv κ) (name : Model) (input : ustring)
    (max_length : Int) (compute_offset_mapping : Bool) (offset_map : List OffsetMappingType)
    (r : TokenizeResult)
    (hcache : LawfulCache env.bpe_cache)
    (h : Tokenize env name input max_length compute_offset_mapping offset_map = .ok r) :
    returned r.calls = (fetchedChunks r.calls).map
      (fun tok => env.bpe (encodeChunk env (name == Model.CLIP) (env.utf8 tok))) ∧
    ∀ key out, Call.get_output key out ∈ r.calls →
      out = env.bpe (encodeChunk env (name == Model.CLIP) key) := by
  obtain ⟨view, hnew, hget, hkeep, hadd⟩ := hcache
  obtain ⟨_, st, _, _, hseg, _, _, hcalls⟩ :=
    Tokenize_ok env name input max_length compute_offset_mapping offset_map r h
  obtain ⟨new, hc, hret, hout⟩ :=
    segLoop_transparent env name max_length compute_offset_mapping view hget hkeep hadd _ _ _ hseg
      (by intro k v hv; rw [hnew] at hv; cases hv)
  dsimp only at hc
  rw [hcalls, hc]
  constructor
  · rw [returned_append, fetchedChunks_append, hret]
    rfl
  · intro key out hmem
    rcases List.mem_append.mp hmem with h1 | h1
    · simp at h1
    · exact hout key out h1

/-- Claim C15, instance: GPT2 on `"a b b"`, where the second `" b"` is served from the cache
with the list that the merge engine gave for the first. -/
theorem C15_cache_transparency_witness :
    (LawfulCache asciiEnv.bpe_cache ∧
      Tokenize asciiEnv Model.GPT2 [97, 32, 98, 32, 98] 100 false [] = .ok gpt2CacheRun) ∧
    (returned gpt2CacheRun.calls = (fetchedChunks gpt2CacheRun.calls).map
        (fun tok => asciiEnv.bpe (encodeChunk asciiEnv (Model.GPT2 == Model.CLIP)
          (asciiEnv.utf8 tok))) ∧
      ∀ key out, Call.get_output key out ∈ gpt2CacheRun.calls →
        out = asciiEnv.bpe (encodeChunk asciiEnv (Model.GPT2 == Model.CLIP) key)) :=
  ⟨⟨listCache_lawful, by decide⟩,
   C15_cache_transparency asciiEnv Model.GPT2 [97, 32, 98, 32, 98] 100 false [] gpt2CacheRun
     listCache_lawful (by decide)⟩

/-! ## The arithmetic of the offsets -/

section arithmetic
variable {κ : Type}

theorem take_chunk {α : Type} (k : Nat) (X Y Y' : List α) (hY : X.length < k → Y' = Y) :
    List.take k X ++ List.take (k - X.length) Y' = List.take k (X ++ Y) := by
  by_cases hlt : X.length < k
  · rw [hY hlt, List.take_append_eq_append_take]
  · have h0 : k - X.length = 0 := by omega
    rw [h0, List.take_zero, List.append_nil, List.take_append_of_le_length (by omega)]

theorem symbolPairs_length (loss o : Nat) (ps : List Symbol) :
    (symbolPairs loss o ps).length = ps.length := by
  induction ps generalizing o with
  | nil => rfl
  | cons p ps ih => simp [symbolPairs, ih]

/-- One symbol with offsets: the pair starts at the running offset and ends `L - loss` later,
and the running offset moves to the end of the pair. -/
theorem emitStep_pair (clean : Bool) (sd loss : Nat) (p : Symbol) (st : ScanState κ)
    (hcase : (loss = 0 ∧ (clean = true ∨ sd = 0)) ∨
      (loss = 1 ∧ clean = false ∧ sd = 18446744073709551615 ∧ 1 ≤ p.2))
    (hfit : st.offset + p.2 < 18446744073709551616) :
    (emitStep true clean sd p st).offset_mapping
        = st.offset_mapping ++ [(st.offset, st.offset + p.2 - loss)] ∧
    (emitStep true clean sd p st).offset = st.offset + p.2 - loss ∧
    (emitStep true clean sd p st).res = st.res ++ [(p.1 : Int)] := by
  cases clean with
  | true =>
    have hl : loss = 0 := by
      rcases hcase with ⟨hl, _⟩ | ⟨_, hc, _⟩
      · exact hl
      · cases hc
    have e1 : wrap64 (st.offset + p.2) = st.offset + p.2 - loss := by
      simp only [wrap64]; omega
    simp [emitStep, e1]
  | false =>
    have e2 : wrap64 (st.offset + p.2 + sd) = st.offset + p.2 - loss := by
      simp only [wrap64]
      rcases hcase with ⟨hl, hc | h0⟩ | ⟨hl, _, hm, hp⟩
      · cases hc
      · omega
      · omega
    have e3 : wrap64 (st.offset + (p.2 + sd)) = st.offset + p.2 - loss := by
      rw [← Nat.add_assoc]; exact e2
    simp [emitStep, e2, e3]

/-- The pairs `emitLoop` adds are the first pairs of `symbolPairs`, as many as the budget
allows; when the budget allows all of them the running offset ends at `symbolsEnd`. -/
theorem emitLoop_pairs (M : Int) (clean : Bool) (sd loss : Nat) (ps : List Symbol)
    (st : ScanState κ)
    (hcase : (loss = 0 ∧ (clean = true ∨ sd = 0)) ∨
      (loss = 1 ∧ clean = false ∧ sd = 18446744073709551615 ∧ ∀ p ∈ ps, 1 ≤ p.2))
    (hfit : st.offset + sourceLength ps < 18446744073709551616) :
    (emitLoop M true clean sd ps st).offset_mapping
        = st.offset_mapping ++ (symbolPairs loss st.offset ps).take (M - st.res.length).toNat ∧
    (ps.length ≤ (M - st.res.length).toNat →
      (emitLoop M true clean sd ps st).offset = symbolsEnd loss st.offset ps) := by
  induction ps generalizing st with
  | nil => simp [emitLoop, symbolPairs, symbolsEnd]
  | cons p ps ih =>
    rw [sourceLength_cons] at hfit
    unfold emitLoop
    split
    · rename_i hge
      have hk : (M - st.res.length).toNat = 0 := by omega
      rw [hk]
      simp
    · rename_i hge
      have hcase1 : (loss = 0 ∧ (clean = true ∨ sd = 0)) ∨
          (loss = 1 ∧ clean = false ∧ sd = 18446744073709551615 ∧ 1 ≤ p.2) := by
        rcases hcase with h0 | ⟨hl, hc, hm, hp⟩
        · exact Or.inl h0
        · exact Or.inr ⟨hl, hc, hm, hp p (by simp)⟩
      have hcase2 : (loss = 0 ∧ (clean = true ∨ sd = 0)) ∨
          (loss = 1 ∧ clean = false ∧ sd = 18446744073709551615 ∧ ∀ q ∈ ps, 1 ≤ q.2) := by
        rcases hcase with h0 | ⟨hl, hc, hm, hp⟩
        · exact Or.inl h0
        · exact Or.inr ⟨hl, hc, hm, fun q hq => hp q (List.mem_cons_of_mem _ hq)⟩
      obtain ⟨hmap, hoff, hres⟩ := emitStep_pair clean sd loss p st hcase1 (by omega)
      obtain ⟨ih1, ih2⟩ := ih (emitStep true clean sd p st) hcase2 (by rw [hoff]; omega)
      obtain ⟨k, hk⟩ : ∃ k, (M - st.res.length).toNat = k + 1 :=
        ⟨(M - st.res.length).toNat - 1, by omega⟩
      have hk2 : (M - (emitStep true clean sd p st).res.length).toNat = k := by
        rw [hres]; simp; omega
      rw [hk2, hoff, hmap] at ih1
      rw [hk2, hoff] at ih2
      rw [hk]
      constructor
      · rw [ih1]; simp [symbolPairs]
      · intro hlen
        simp only [List.length_cons] at hlen
        rw [ih2 (by omega)]
        rfl

/-- The adjustment for a leading space, when the running offset has room for it. -/
theorem spaceAdjust_chunkStart (clean : Bool) (u : Bytes) (o : Nat) (adjusted : Nat × Nat)
    (h : spaceAdjust true u o = .ok adjusted) (hfit : o + 1 < 18446744073709551616) :
    adjusted.1 = chunkStart u o ∧
    ((spaceLoss clean u = 0 ∧ (clean = true ∨ adjusted.2 = 0)) ∨
      (spaceLoss clean u = 1 ∧ clean = false ∧ adjusted.2 = 18446744073709551615)) := by
  unfold spaceAdjust at h
  simp only [↓reduceIte] at h
  cases hu : u.head? with
  | none => rw [hu] at h; cases h
  | some c =>
    rw [hu] at h
    dsimp only at h
    by_cases hc : c = 0x20
    · subst hc
      simp only [↓reduceIte] at h
      rw [← Except.ok.inj h]
      cases clean <;> simp [chunkStart, spaceLoss, hu, wrap64] <;> omega
    · rw [if_neg hc] at h
      rw [← Except.ok.inj h]
      simp [chunkStart, spaceLoss, hu, hc]

theorem offsetSpan_single (tok : ustring) : offsetSpan [Call.GetNextToken (some tok)] = 0 := rfl

/-- The pairs a run of `scanLoop` adds with offsets are the first pairs of `chunkPairs` on the
byte lists of the chunks of the segment, as many as the budget allows, provided the symbol
lists returned during the run have source lengths of at least 1 and the running offset has
room for them. -/
theorem scanLoop_pairs (env : BpeEnv κ) (M : Int) (clean : Bool) (chunks : List ustring)
    (st st' : ScanState κ) (h : scanLoop env M true clean chunks st = .ok st') :
    ∃ new, st'.calls = st.calls ++ new ∧
      ((∀ l ∈ returned new, ∀ p ∈ l, 1 ≤ p.2) →
        st.offset + offsetSpan new < 18446744073709551616 →
        st'.offset_mapping = st.offset_mapping ++
          (chunkPairs clean st.offset (chunkLists env clean chunks st.bpe_cache)).take
            (M - st.res.length).toNat) := by
  refine scanLoop_induction env M true clean
    (fun chunks st st' => ∃ new, st'.calls = st.calls ++ new ∧
      ((∀ l ∈ returned new, ∀ p ∈ l, 1 ≤ p.2) →
        st.offset + offsetSpan new < 18446744073709551616 →
        st'.offset_mapping = st.offset_mapping ++
          (chunkPairs clean st.offset (chunkLists env clean chunks st.bpe_cache)).take
            (M - st.res.length).toNat)) ?_ ?_ ?_ chunks st st' h
  · intro chunks st hlt
    have hk : (M - st.res.length).toNat = 0 := by omega
    exact ⟨[], by simp, fun _ _ => by rw [hk]; simp⟩
  · intro st _
    exact ⟨[Call.GetNextToken none], rfl, fun _ _ => by simp [chunkLists, chunkPairs]⟩
  · intro tok rest st adjusted st' hlt hadj hP
    obtain ⟨new, hc, himp⟩ := hP
    rw [emitLoop_calls] at hc
    dsimp only at hc
    refine ⟨[Call.GetNextToken (some tok)]
        ++ (lookupOrMerge env clean (env.utf8 tok) st.bpe_cache).2.2 ++ new, ?_, ?_⟩
    · rw [hc]; simp
    · intro hpos hfit
      rw [returned_append, returned_append, returned_lookupOrMerge] at hpos
      rw [offsetSpan_append, offsetSpan_append, offsetSpan_lookupOrMerge, offsetSpan_single]
        at hfit
      have hposA : ∀ p ∈ (lookupOrMerge env clean (env.utf8 tok) st.bpe_cache).1, 1 ≤ p.2 :=
        hpos _ (by simp [returned])
      have hposN : ∀ l ∈ returned new, ∀ p ∈ l, 1 ≤ p.2 :=
        fun l hl => hpos l (by simp [hl])
      obtain ⟨hstart, hloss⟩ :=
        spaceAdjust_chunkStart clean (env.utf8 tok) st.offset adjusted hadj (by omega)
      have hstart_le : chunkStart (env.utf8 tok) st.offset ≤ st.offset + 1 := by
        unfold chunkStart; split <;> omega
      have hcase : (spaceLoss clean (env.utf8 tok) = 0 ∧ (clean = true ∨ adjusted.2 = 0)) ∨
          (spaceLoss clean (env.utf8 tok) = 1 ∧ clean = false ∧
            adjusted.2 = 18446744073709551615 ∧
            ∀ p ∈ (lookupOrMerge env clean (env.utf8 tok) st.bpe_cache).1, 1 ≤ p.2) := by
        rcases hloss with h0 | ⟨h1, h2, h3⟩
        · exact Or.inl h0
        · exact Or.inr ⟨h1, h2, h3, hposA⟩
      have hsd : clean = true ∨ adjusted.2 = 0 ∨ (adjusted.2 = 18446744073709551615 ∧
          ∀ p ∈ (lookupOrMerge env clean (env.utf8 tok) st.bpe_cache).1, 1 ≤ p.2) := by
        rcases hloss with ⟨_, hc | h0⟩ | ⟨_, _, h3⟩
        · exact Or.inl hc
        · exact Or.inr (Or.inl h0)
        · exact Or.inr (Or.inr ⟨h3, hposA⟩)
      -- the pairs of this chunk
      obtain ⟨hmapA, hendA⟩ :=
        emitLoop_pairs M clean adjusted.2 (spaceLoss clean (env.utf8 tok))
          (lookupOrMerge env clean (env.utf8 tok) st.bpe_cache).1
          { st with
            offset := adjusted.1
            bpe_cache := (lookupOrMerge env clean (env.utf8 tok) st.bpe_cache).2.1
            calls := (st.calls ++ [Call.GetNextToken (some tok)])
              ++ (lookupOrMerge env clean (env.utf8 tok) st.bpe_cache).2.2 }
          hcase (by dsimp only; omega)
      obtain ⟨_, _, _, _, _, hhiA⟩ :=
        emitLoop_offsets M clean adjusted.2
          (lookupOrMerge env clean (env.utf8 tok) st.bpe_cache).1
          { st with
            offset := adjusted.1
            bpe_cache := (lookupOrMerge env clean (env.utf8 tok) st.bpe_cache).2.1
            calls := (st.calls ++ [Call.GetNextToken (some tok)])
              ++ (lookupOrMerge env clean (env.utf8 tok) st.bpe_cache).2.2 }
          hsd (by dsimp only; omega)
      dsimp only at hmapA hendA hhiA
      have hrest := himp hposN (by omega)
      have hk : (M - ((emitLoop M true clean adjusted.2
          (lookupOrMerge env clean (env.utf8 tok) st.bpe_cache).1
          { st with
            offset := adjusted.1
            bpe_cache := (lookupOrMerge env clean (env.utf8 tok) st.bpe_cache).2.1
            calls := (st.calls ++ [Call.GetNextToken (some tok)])
              ++ (lookupOrMerge env clean (env.utf8 tok) st.bpe_cache).2.2 }).res.length
            : Nat)).toNat
          = (M - st.res.length).toNat
            - (symbolPairs (spaceLoss clean (env.utf8 tok)) adjusted.1
                (lookupOrMerge env clean (env.utf8 tok) st.bpe_cache).1).length := by
        rw [emitLoop_res, symbolPairs_length]
        simp only [List.length_append, List.length_take, List.length_map]
        omega
      rw [hrest, hk, emitLoop_bpe_cache, hmapA]
      simp only [chunkLists, chunkPairs]
      rw [← hstart, List.append_assoc]
      congr 1
      apply take_chunk
      intro hlt2
      rw [symbolPairs_length] at hlt2
      rw [hendA (by omega)]

end arithmetic

section arithmetic2
variable {κ : Type}

/-- Every list that a run of `segLoop` with offsets adds to `offset_map` is, between the pairs
of BOS and EOS, a run of first pairs of `chunkPairs` from the running offset 0 on the byte
lists of the chunks of a plain-text segment, under the conditions of `scanLoop_pairs`. -/
theorem segLoop_pairs (env : BpeEnv κ) (name : Model) (M : Int)
    (segs : List (ustring × Int)) (st st' : SegState κ)
    (h : segLoop env name M true segs st = .ok st') :
    ∃ new, st'.calls = st.calls ++ new ∧
      ((∀ l ∈ returned new, ∀ p ∈ l, 1 ≤ p.2) →
        offsetSpan new < 18446744073709551616 →
        ∃ added, st'.offset_map = st.offset_map ++ added ∧
          ∀ m ∈ added, ∃ segment cache k, (segment, -1) ∈ segs ∧
            m = wrapPairs name ((chunkPairs (name == Model.CLIP) 0
              (chunkLists env (name == Model.CLIP) (env.GetNextToken segment) cache)).take k)) := by
  refine segLoop_induction env name M true
    (fun segs st st' => ∃ new, st'.calls = st.calls ++ new ∧
      ((∀ l ∈ returned new, ∀ p ∈ l, 1 ≤ p.2) →
        offsetSpan new < 18446744073709551616 →
        ∃ added, st'.offset_map = st.offset_map ++ added ∧
          ∀ m ∈ added, ∃ segment cache k, (segment, -1) ∈ segs ∧
            m = wrapPairs name ((chunkPairs (name == Model.CLIP) 0
              (chunkLists env (name == Model.CLIP) (env.GetNextToken segment) cache)).take k)))
    ?_ ?_ ?_ ?_ segs st st' h
  · intro st
    exact ⟨[], by simp, fun _ _ => ⟨[], by simp, by simp⟩⟩
  · intro _ _ st _
    exact ⟨[], by simp, fun _ _ => ⟨[], by simp, by simp⟩⟩
  · intro seg_id rest st st' _ _ hP
    obtain ⟨new, hc, himp⟩ := hP
    refine ⟨new, hc, fun hpos hfit => ?_⟩
    obtain ⟨added, hadd, hprop⟩ := himp hpos hfit
    refine ⟨added, hadd, fun m hm => ?_⟩
    obtain ⟨segment, cache, k, hmem, hm2⟩ := hprop m hm
    exact ⟨segment, cache, k, List.mem_cons_of_mem _ hmem, hm2⟩
  · intro seg_id rest st st1 st' _ hplain hscan hP
    obtain ⟨new, hc, himp⟩ := hP
    obtain ⟨new1, hc1, himp1⟩ := scanLoop_pairs env M _ _ _ _ hscan
    dsimp only at hc himp hc1 himp1
    refine ⟨[Call.Set seg_id.1] ++ new1 ++ new, by rw [hc, hc1]; simp, ?_⟩
    intro hpos hfit
    rw [returned_append, returned_append] at hpos
    rw [offsetSpan_append, offsetSpan_append] at hfit
    have hspan0 : offsetSpan [Call.Set seg_id.1] = 0 := rfl
    rw [hspan0] at hfit
    have hmap := himp1 (fun l hl => hpos l (by simp [hl])) (by omega)
    obtain ⟨added, hadd, hprop⟩ := himp (fun l hl => hpos l (by simp [hl])) (by omega)
    simp only [↓reduceIte, Bool.true_and] at hadd hmap
    have hseg : (seg_id.1, (-1 : Int)) = seg_id := by rw [← hplain]
    refine ⟨wrapPairs name ((chunkPairs (name == Model.CLIP) 0
        (chunkLists env (name == Model.CLIP) (env.GetNextToken seg_id.1) st.bpe_cache)).take
          (M - st.res.length).toNat) :: added, ?_, ?_⟩
    · rw [hadd, hmap]
      by_cases hname : name = Model.GPT2
      · subst hname
        simp [wrapPairs]
      · have hne : (name != Model.GPT2) = true := by simpa using hname
        simp [wrapPairs, hname, hne]
    · intro m hm
      rcases List.mem_cons.mp hm with h1 | h1
      · exact ⟨seg_id.1, st.bpe_cache, _, by rw [hseg]; simp, h1⟩
      · obtain ⟨segment, cache, k, hmem, hm2⟩ := hprop m h1
        exact ⟨segment, cache, k, List.mem_cons_of_mem _ hmem, hm2⟩

end arithmetic2

/-! ## Adjacent whitespace and the fixed points of `RemoveConsecutiveSpaces` -/

theorem hasAdjacentSpaces_cons_cons (c d : Nat) (rest : ustring) :
    hasAdjacentSpaces (c :: d :: rest)
      = ((IsUnicodeSpace c && IsUnicodeSpace d) || hasAdjacentSpaces (d :: rest)) := rfl

/-- The function `hasAdjacentSpaces` says what its name says. -/
theorem hasAdjacentSpaces_iff (s : ustring) :
    hasAdjacentSpaces s = true ↔
      ∃ i c d, s[i]? = some c ∧ s[i + 1]? = some d ∧
        IsUnicodeSpace c = true ∧ IsUnicodeSpace d = true := by
  induction s with
  | nil => simp [hasAdjacentSpaces]
  | cons c rest ih =>
    cases rest with
    | nil => simp [hasAdjacentSpaces]
    | cons d rest =>
      rw [hasAdjacentSpaces_cons_cons, Bool.or_eq_true, Bool.and_eq_true, ih]
      constructor
      · rintro (⟨hc, hd⟩ | ⟨i, x, y, hx, hy, hsx, hsy⟩)
        · exact ⟨0, c, d, by simp, by simp, hc, hd⟩
        · exact ⟨i + 1, x, y, by simpa using hx, by simpa using hy, hsx, hsy⟩
      · rintro ⟨i, x, y, hx, hy, hsx, hsy⟩
        cases i with
        | zero =>
          simp only [List.getElem?_cons_zero, Option.some.injEq, zero_add,
            List.getElem?_cons_succ] at hx hy
          subst hx; subst hy
          exact Or.inl ⟨hsx, hsy⟩
        | succ i =>
          exact Or.inr ⟨i, x, y, by simpa using hx, by simpa using hy, hsx, hsy⟩

theorem hasAdjacentSpaces_tail (c : Nat) (rest : ustring)
    (h : hasAdjacentSpaces (c :: rest) = false) : hasAdjacentSpaces rest = false := by
  cases rest with
  | nil => rfl
  | cons d rest =>
    rw [hasAdjacentSpaces_cons_cons, Bool.or_eq_false_iff] at h
    exact h.2

theorem hasAdjacentSpaces_head (c d : Nat) (rest : ustring)
    (h : hasAdjacentSpaces (c :: d :: rest) = false) (hc : IsUnicodeSpace c = true) :
    IsUnicodeSpace d = false := by
  rw [hasAdjacentSpaces_cons_cons, Bool.or_eq_false_iff, hc] at h
  simpa using h.1

theorem RemoveConsecutiveSpaces.loop_length_le (l : ustring) (b : Bool) :
    (RemoveConsecutiveSpaces.loop l b).length ≤ l.length := by
  induction l generalizing b with
  | nil => simp [RemoveConsecutiveSpaces.loop]
  | cons c rest ih =>
    unfold RemoveConsecutiveSpaces.loop
    split
    · split
      · have := ih true
        simp only [List.length_cons]; omega
      · have := ih true
        simp only [List.length_cons]; omega
    · have := ih false
      simp only [List.length_cons]; omega

/-- The result of the loop of `RemoveConsecutiveSpaces` holds no two adjacent whitespace
characters. -/
theorem RemoveConsecutiveSpaces.loop_no_adjacent (l : ustring) (b : Bool) :
    hasAdjacentSpaces (RemoveConsecutiveSpaces.loop l b) = false := by
  induction l generalizing b with
  | nil => simp [RemoveConsecutiveSpaces.loop, hasAdjacentSpaces]
  | cons c rest ih =>
    unfold RemoveConsecutiveSpaces.loop
    split
    · split
      · cases hrest : RemoveConsecutiveSpaces.loop rest true with
        | nil => rfl
        | cons d t =>
          have hd := RemoveConsecutiveSpaces.loop_true_head rest d t hrest
          have ih1 := ih true
          rw [hrest] at ih1
          rw [hasAdjacentSpaces_cons_cons, ih1, hd]
          simp
      · exact ih true
    · rename_i hns
      cases hrest : RemoveConsecutiveSpaces.loop rest false with
      | nil => rfl
      | cons d t =>
        have ih1 := ih false
        rw [hrest] at ih1
        rw [hasAdjacentSpaces_cons_cons, ih1]
        simp [hns]

/-- The loop of `RemoveConsecutiveSpaces` returns its argument exactly when the argument holds
no two adjacent whitespace characters and, if the loop starts after a whitespace character,
does not start with one. -/
theorem RemoveConsecutiveSpaces.loop_fixed (l : ustring) (b : Bool) :
    RemoveConsecutiveSpaces.loop l b = l ↔
      (hasAdjacentSpaces l = false ∧
        (b = true → ∀ c, l.head? = some c → IsUnicodeSpace c = false)) := by
  induction l generalizing b with
  | nil => simp [RemoveConsecutiveSpaces.loop, hasAdjacentSpaces]
  | cons c rest ih =>
    unfold RemoveConsecutiveSpaces.loop
    by_cases hc : IsUnicodeSpace c = true
    · rw [if_pos hc]
      cases b with
      | true =>
        simp only [Bool.not_true, Bool.false_eq_true, ↓reduceIte, List.head?_cons,
          Option.some.injEq, forall_eq', true_implies]
        constructor
        · intro heq
          have hlen := RemoveConsecutiveSpaces.loop_length_le rest true
          rw [heq] at hlen
          simp only [List.length_cons] at hlen
          omega
        · rintro ⟨_, h2⟩
          rw [hc] at h2
          cases h2
      | false =>
        simp only [Bool.not_false, ↓reduceIte, List.cons.injEq, true_and, Bool.false_eq_true,
          false_implies, and_true]
        rw [ih true]
        cases rest with
        | nil => simp [hasAdjacentSpaces]
        | cons d rest =>
          rw [hasAdjacentSpaces_cons_cons, Bool.or_eq_false_iff, hc]
          simp only [true_implies, List.head?_cons, Option.some.injEq, forall_eq',
            Bool.true_and]
          exact ⟨fun h => ⟨h.2, h.1⟩, fun h => ⟨h.2, h.1⟩⟩
    · rw [if_neg hc]
      have hc' : IsUnicodeSpace c = false := by simpa using hc
      simp only [List.cons.injEq, true_and, List.head?_cons, Option.some.injEq, forall_eq']
      rw [ih false]
      cases rest with
      | nil => simp [hasAdjacentSpaces, hc']
      | cons d rest =>
        rw [hasAdjacentSpaces_cons_cons, hc']
        simp

/-- Claim C27. `RemoveConsecutiveSpaces` is idempotent, and it returns its argument exactly
when the argument holds no two adjacent characters that are both Unicode whitespace. -/
theorem C27_remove_consecutive_spaces_idempotent (s : ustring) :
    RemoveConsecutiveSpaces (RemoveConsecutiveSpaces s) = RemoveConsecutiveSpaces s ∧
    (RemoveConsecutiveSpaces s = s ↔
      ¬ ∃ i c d, s[i]? = some c ∧ s[i + 1]? = some d ∧
        IsUnicodeSpace c = true ∧ IsUnicodeSpace d = true) := by
  constructor
  · unfold RemoveConsecutiveSpaces
    rw [RemoveConsecutiveSpaces.loop_fixed]
    exact ⟨RemoveConsecutiveSpaces.loop_no_adjacent s false, by simp⟩
  · unfold RemoveConsecutiveSpaces
    rw [RemoveConsecutiveSpaces.loop_fixed, ← hasAdjacentSpaces_iff]
    simp

/-! ## The string that the CLIP pre-processing yields -/

theorem hasAdjacentSpaces_append_left (a b : ustring)
    (h : hasAdjacentSpaces (a ++ b) = false) : hasAdjacentSpaces a = false := by
  induction a with
  | nil => rfl
  | cons c rest ih =>
    cases rest with
    | nil => rfl
    | cons d rest =>
      simp only [List.cons_append] at h ih
      rw [hasAdjacentSpaces_cons_cons, Bool.or_eq_false_iff] at h
      rw [hasAdjacentSpaces_cons_cons, Bool.or_eq_false_iff]
      exact ⟨h.1, ih h.2⟩

theorem hasAdjacentSpaces_append_pair (a : ustring) (x y : Nat)
    (h : hasAdjacentSpaces (a ++ [x, y]) = false) :
    (IsUnicodeSpace x && IsUnicodeSpace y) = false := by
  induction a with
  | nil =>
    simp only [List.nil_append] at h
    rw [hasAdjacentSpaces_cons_cons, Bool.or_eq_false_iff] at h
    exact h.1
  | cons c rest ih =>
    exact ih (hasAdjacentSpaces_tail c (rest ++ [x, y]) h)

theorem getLast?_decomp {α : Type} (l : List α) (x : α) (h : l.getLast? = some x) :
    ∃ init, l = init ++ [x] := by
  induction l with
  | nil => simp at h
  | cons c rest ih =>
    cases rest with
    | nil =>
      simp only [List.getLast?_singleton, Option.some.injEq] at h
      exact ⟨[], by simp [h]⟩
    | cons d rest =>
      rw [List.getLast?_cons_cons] at h
      obtain ⟨init, hinit⟩ := ih h
      exact ⟨c :: init, by rw [hinit]; rfl⟩

/-- Erasing characters that are whitespace from a string without two adjacent whitespace
characters leaves such a string. -/
theorem hasAdjacentSpaces_filter (p : Nat → Bool)
    (hp : ∀ c, p c = false → IsUnicodeSpace c = true) (l : ustring)
    (h : hasAdjacentSpaces l = false) : hasAdjacentSpaces (l.filter p) = false := by
  induction l with
  | nil => rfl
  | cons c rest ih =>
    have ih1 := ih (hasAdjacentSpaces_tail c rest h)
    by_cases hpc : p c = true
    · rw [List.filter_cons_of_pos hpc]
      by_cases hc : IsUnicodeSpace c = true
      · cases rest with
        | nil => rfl
        | cons d rest =>
          have hd := hasAdjacentSpaces_head c d rest h hc
          have hpd : p d = true := by
            by_cases hpd : p d = true
            · exact hpd
            · have := hp d (by simpa using hpd)
              rw [hd] at this
              cases this
          rw [List.filter_cons_of_pos hpd] at ih1 ⊢
          rw [hasAdjacentSpaces_cons_cons, ih1, hd]
          simp
      · cases hX : List.filter p rest with
        | nil => rfl
        | cons e X =>
          rw [hX] at ih1
          rw [hasAdjacentSpaces_cons_cons, ih1]
          simp [hc]
    · rw [List.filter_cons_of_neg hpc]
      exact ih1

theorem getLast?_filter {α : Type} (p : α → Bool) (l : List α) (x : α)
    (h : l.getLast? = some x) (hx : p x = true) : (l.filter p).getLast? = some x := by
  obtain ⟨init, hinit⟩ := getLast?_decomp l x h
  rw [hinit, List.filter_append, List.filter_cons_of_pos hx, List.filter_nil]
  exact List.getLast?_concat _

theorem not_space_ne (k d : Nat) (hk : IsUnicodeSpace k = true) (hd : IsUnicodeSpace d = false) :
    (d != k) = true := by
  by_cases heq : d = k
  · subst heq
    rw [hk] at hd
    cases hd
  · simpa using heq

/-- The second strip step: applied to a string without two adjacent whitespace characters
that starts with a character which is not whitespace, it leaves a string of the same kind
that also ends with a character which is not whitespace. -/
theorem strip_back_post (d : Nat) (u : ustring) (back : Nat)
    (hd : IsUnicodeSpace d = false) (hadj : hasAdjacentSpaces (d :: u) = false)
    (hb : (d :: u).getLast? = some back) :
    ∃ t, (if IsUnicodeSpace back then (d :: u).dropLast else d :: u) = d :: t ∧
      hasAdjacentSpaces (d :: t) = false ∧
      ∀ x, (d :: t).getLast? = some x → IsUnicodeSpace x = false := by
  obtain ⟨t, ht⟩ := strip_back_head d u hd back hb
  refine ⟨t, ht, ?_, ?_⟩
  · rw [← ht]
    split
    · obtain ⟨init, hinit⟩ := getLast?_decomp _ _ hb
      rw [hinit, List.dropLast_concat]
      rw [hinit] at hadj
      exact hasAdjacentSpaces_append_left _ _ hadj
    · exact hadj
  · intro x hx
    rw [← ht] at hx
    split at hx
    · rename_i hback
      obtain ⟨init, hinit⟩ := getLast?_decomp _ _ hb
      rw [hinit, List.dropLast_concat] at hx
      obtain ⟨init1, hinit1⟩ := getLast?_decomp _ _ hx
      rw [hinit, hinit1, List.append_assoc] at hadj
      have := hasAdjacentSpaces_append_pair init1 x back hadj
      rw [hback] at this
      simpa using this
    · rename_i hback
      rw [hb] at hx
      rw [← Option.some.inj hx]
      simpa using hback

/-- The steps of the CLIP branch one by one, for a run in which `front()` and `back()` are
called on non-empty strings. -/
theorem CLIPPreProcess_ok (input s : ustring) (h : CLIPPreProcess input = .ok s) :
    ∃ d t, IsUnicodeSpace d = false ∧ hasAdjacentSpaces (d :: t) = false ∧
      (∀ x, (d :: t).getLast? = some x → IsUnicodeSpace x = false) ∧
      s = ((d :: t).filter (fun c => c != 0x0A)).filter (fun c => c != 0x0D) := by
  unfold CLIPPreProcess at h
  dsimp only at h
  have hadj0 : hasAdjacentSpaces (RemoveConsecutiveSpaces input) = false :=
    RemoveConsecutiveSpaces.loop_no_adjacent input false
  cases hstr : RemoveConsecutiveSpaces input with
  | nil => rw [hstr] at h; simp at h
  | cons c t =>
    rw [hstr] at h hadj0
    simp only [List.head?_cons] at h
    have key : ∀ (d : Nat) (u : ustring), IsUnicodeSpace d = false →
        hasAdjacentSpaces (d :: u) = false →
        (match (d :: u).getLast? with
          | none => (Except.error TokenizeError.back_of_empty : Except TokenizeError ustring)
          | some back =>
            Except.ok (List.filter (fun c => c != 0x0D) (List.filter (fun c => c != 0x0A)
              (if IsUnicodeSpace back = true then (d :: u).dropLast else d :: u)))) = .ok s →
        ∃ d t, IsUnicodeSpace d = false ∧ hasAdjacentSpaces (d :: t) = false ∧
          (∀ x, (d :: t).getLast? = some x → IsUnicodeSpace x = false) ∧
          s = ((d :: t).filter (fun c => c != 0x0A)).filter (fun c => c != 0x0D) := by
      intro d u hd hadj hm
      cases hb : (d :: u).getLast? with
      | none => rw [hb] at hm; cases hm
      | some back =>
        rw [hb] at hm
        obtain ⟨t', ht', hadj', hlast'⟩ := strip_back_post d u back hd hadj hb
        simp only at hm
        rw [ht'] at hm
        exact ⟨d, t', hd, hadj', hlast', (Except.ok.inj hm).symm⟩
    by_cases hc : IsUnicodeSpace c = true
    · simp only [hc, ↓reduceIte, List.tail_cons] at h
      cases t with
      | nil => simp at h
      | cons d u =>
        exact key d u (hasAdjacentSpaces_head c d u hadj0 hc)
          (hasAdjacentSpaces_tail c (d :: u) hadj0) h
    · simp only [hc, Bool.false_eq_true, ↓reduceIte] at h
      exact key c t (by simpa using hc) hadj0 h

/-- Claim C22. The post-condition of the CLIP pre-processing: whenever the two strip steps
act on non-empty strings (the pre-processing is defined), the text it yields holds no `\n` and
no `\r`, does not start and does not end with a Unicode whitespace character, and holds no two
adjacent Unicode whitespace characters; it consists of whitespace only when it is empty (it
never does, as it starts with a character that is not whitespace). -/
theorem C22_clip_preprocessing_postcondition (input s : ustring)
    (h : CLIPPreProcess input = .ok s) :
    0x0A ∉ s ∧ 0x0D ∉ s ∧
    (∀ c, s.head? = some c → IsUnicodeSpace c = false) ∧
    (∀ c, s.getLast? = some c → IsUnicodeSpace c = false) ∧
    (¬ ∃ i c d, s[i]? = some c ∧ s[i + 1]? = some d ∧
      IsUnicodeSpace c = true ∧ IsUnicodeSpace d = true) ∧
    (AllSpaceUstring s = true → s = []) ∧
    AllSpaceUstring s = false := by
  have hall := CLIPPreProcess_not_all_space input s h
  obtain ⟨d, t, hd, hadj, hlast, hs⟩ := CLIPPreProcess_ok input s h
  have h10 : (d != 0x0A) = true := not_space_ne 0x0A d (by decide) hd
  have h13 : (d != 0x0D) = true := not_space_ne 0x0D d (by decide) hd
  refine ⟨?_, ?_, ?_, ?_, ?_, ?_, hall⟩
  · rw [hs]
    simp [List.mem_filter]
  · rw [hs]
    simp [List.mem_filter]
  · intro c hc
    rw [hs] at hc
    simp only [List.filter_cons, h10, h13, ↓reduceIte, List.head?_cons,
      Option.some.injEq] at hc
    rw [← hc]; exact hd
  · intro c hc
    cases hl : (d :: t).getLast? with
    | none => simp at hl
    | some x =>
      have hx := hlast x hl
      have h1 := getLast?_filter (fun c => c != 0x0A) (d :: t) x hl
        (not_space_ne 0x0A x (by decide) hx)
      have h2 := getLast?_filter (fun c => c != 0x0D) _ x h1
        (not_space_ne 0x0D x (by decide) hx)
      rw [← hs, hc] at h2
      rw [Option.some.inj h2]; exact hx
  · rw [← hasAdjacentSpaces_iff, hs]
    have h1 := hasAdjacentSpaces_filter (fun c => c != 0x0A)
      (fun c hc => by
        have : c = 0x0A := by simpa using hc
        rw [this]; decide) (d :: t) hadj
    have h2 := hasAdjacentSpaces_filter (fun c => c != 0x0D)
      (fun c hc => by
        have : c = 0x0D := by simpa using hc
        rw [this]; decide) _ h1
    rw [h2]; simp
  · intro htrue
    rw [hall] at htrue
    cases htrue

/-- Claim C22, instance: the input of Scenario C, `"a   b\n\nc"`, is turned into `"a bc"`. -/
theorem C22_clip_preprocessing_postcondition_witness :
    CLIPPreProcess [97, 32, 32, 32, 98, 10, 10, 99] = .ok [97, 32, 98, 99] ∧
    (0x0A ∉ ([97, 32, 98, 99] : ustring) ∧ 0x0D ∉ ([97, 32, 98, 99] : ustring) ∧
      (∀ c, ([97, 32, 98, 99] : ustring).head? = some c → IsUnicodeSpace c = false) ∧
      (∀ c, ([97, 32, 98, 99] : ustring).getLast? = some c → IsUnicodeSpace c = false) ∧
      (¬ ∃ i c d, ([97, 32, 98, 99] : ustring)[i]? = some c ∧
        ([97, 32, 98, 99] : ustring)[i + 1]? = some d ∧
        IsUnicodeSpace c = true ∧ IsUnicodeSpace d = true) ∧
      (AllSpaceUstring [97, 32, 98, 99] = true → ([97, 32, 98, 99] : ustring) = []) ∧
      AllSpaceUstring [97, 32, 98, 99] = false) :=
  ⟨by decide,
   C22_clip_preprocessing_postcondition [97, 32, 32, 32, 98, 10, 10, 99] [97, 32, 98, 99]
     (by decide)⟩

/-! ## The special tokens of a configuration -/

theorem startsWith_iff (sp tok : Bytes) :
    startsWith sp tok = true ↔ ∃ post, sp = tok ++ post := by
  induction tok generalizing sp with
  | nil => simp [startsWith]
  | cons t ts ih =>
    cases sp with
    | nil => simp [startsWith]
    | cons c cs =>
      simp only [startsWith, Bool.and_eq_true, beq_iff_eq, ih, List.cons_append,
        List.cons.injEq]
      constructor
      · rintro ⟨hc, post, hpost⟩
        exact ⟨post, hc, hpost⟩
      · rintro ⟨post, hc, hpost⟩
        exact ⟨hc, post, hpost⟩

/-- The call `sp.find(tok)` gives `npos` exactly when `tok` does not occur in `sp`. -/
theorem find_eq_none_iff (sp tok : Bytes) :
    find sp tok = none ↔ ¬ ∃ pre post, sp = pre ++ tok ++ post := by
  induction sp with
  | nil =>
    cases tok with
    | nil => simp [find]
    | cons t ts => simp [find]
  | cons c cs ih =>
    unfold find
    by_cases hstart : startsWith (c :: cs) tok = true
    · rw [if_pos hstart]
      obtain ⟨post, hpost⟩ := (startsWith_iff _ _).mp hstart
      simp only [reduceCtorEq, false_iff, not_not]
      exact ⟨[], post, by simpa using hpost⟩
    · rw [if_neg hstart]
      have hno : ¬ ∃ post, c :: cs = tok ++ post := fun hx => hstart ((startsWith_iff _ _).mpr hx)
      constructor
      · intro hnone
        have hcs : find cs tok = none := by
          cases hf : find cs tok with
          | none => rfl
          | some pos => rw [hf] at hnone; cases hnone
        rintro ⟨pre, post, hocc⟩
        cases pre with
        | nil => exact hno ⟨post, by simpa using hocc⟩
        | cons e pre =>
          simp only [List.cons_append, List.cons.injEq] at hocc
          exact (ih.mp hcs) ⟨pre, post, hocc.2⟩
      · intro hnot
        have hcs : find cs tok = none := by
          rw [ih]
          rintro ⟨pre, post, hocc⟩
          exact hnot ⟨c :: pre, post, by rw [hocc]; simp⟩
        rw [hcs]

theorem add_token_of_occurs (sp tok : Bytes) (h : ∃ pre post, sp = pre ++ tok ++ post) :
    add_token sp (some tok) = sp := by
  have hf : ¬ find sp tok = none := fun hx => (find_eq_none_iff sp tok).mp hx h
  simp [add_token, hf]

theorem add_token_of_not_occurs (sp tok : Bytes)
    (h : ¬ ∃ pre post, sp = pre ++ tok ++ post) :
    add_token sp (some tok) = sp ++ [0x0A] ++ tok := by
  have hf : find sp tok = none := (find_eq_none_iff sp tok).mpr h
  simp [add_token, hf]

/-- A call of `add_token` only adds to the end of `sp`. -/
theorem add_token_extends (sp : Bytes) (tok : Option Bytes) :
    ∃ post, add_token sp tok = sp ++ post := by
  cases tok with
  | none => exact ⟨[], by simp [add_token]⟩
  | some tok =>
    unfold add_token
    dsimp only
    split
    · exact ⟨[0x0A] ++ tok, by simp⟩
    · exact ⟨[], by simp⟩

/-- After `add_token(sp, tok)` the token occurs in `sp`. -/
theorem add_token_occurs (sp tok : Bytes) :
    ∃ pre post, add_token sp (some tok) = pre ++ tok ++ post := by
  by_cases h : ∃ pre post, sp = pre ++ tok ++ post
  · rw [add_token_of_occurs sp tok h]
    exact h
  · rw [add_token_of_not_occurs sp tok h]
    exact ⟨sp ++ [0x0A], [], by simp⟩

theorem occurs_add_token (sp tok : Bytes) (next : Option Bytes)
    (h : ∃ pre post, sp = pre ++ tok ++ post) :
    ∃ pre post, add_token sp next = pre ++ tok ++ post := by
  obtain ⟨pre, post, hocc⟩ := h
  obtain ⟨more, hmore⟩ := add_token_extends sp next
  exact ⟨pre, post ++ more, by rw [hmore, hocc]; simp⟩

/-- Claim C26. `GetSpecialTokens` starts from `unk_token_` and goes through `bos_token_`,
`eos_token_` and `pad_token_` in this order; a null token changes nothing, a token that occurs
as a substring of the string accumulated so far changes nothing, and any other token is
added after a `"\n"`. So the empty token is never added, the result starts with `unk_token_`,
and every token that is not null occurs as a substring of the result. The configurations of
Roberta and CLIP give `"<unk>\n<s>\n</s>\n<pad>"` and `"<|endoftext|>\n<|startoftext|>"`. -/
theorem C26_get_special_tokens (conf : BpeModelConf) :
    conf.GetSpecialTokens
      = add_token (add_token (add_token conf.unk_token_ conf.bos_token_) conf.eos_token_)
          conf.pad_token_ ∧
    (∀ sp, add_token sp none = sp) ∧
    (∀ sp tok, (∃ pre post, sp = pre ++ tok ++ post) → add_token sp (some tok) = sp) ∧
    (∀ sp tok, (¬ ∃ pre post, sp = pre ++ tok ++ post) →
      add_token sp (some tok) = sp ++ [0x0A] ++ tok) ∧
    (∀ sp, add_token sp (some []) = sp) ∧
    (∃ post, conf.GetSpecialTokens = conf.unk_token_ ++ post) ∧
    (∀ tok, (conf.bos_token_ = some tok ∨ conf.eos_token_ = some tok ∨
        conf.pad_token_ = some tok) →
      ∃ pre post, conf.GetSpecialTokens = pre ++ tok ++ post) ∧
    kRobertaConfiguration.GetSpecialTokens
      = [60, 117, 110, 107, 62, 10, 60, 115, 62, 10, 60, 47, 115, 62, 10, 60, 112, 97, 100, 62] ∧
    kCLIPConfiguration.GetSpecialTokens
      = [60, 124, 101, 110, 100, 111, 102, 116, 101, 120, 116, 124, 62, 10,
         60, 124, 115, 116, 97, 114, 116, 111, 102, 116, 101, 120, 116, 124, 62] := by
  refine ⟨rfl, fun sp => rfl, add_token_of_occurs, add_token_of_not_occurs, ?_, ?_, ?_,
    by decide, by decide⟩
  · intro sp
    exact add_token_of_occurs sp [] ⟨[], sp, by simp⟩
  · obtain ⟨p1, h1⟩ := add_token_extends conf.unk_token_ conf.bos_token_
    obtain ⟨p2, h2⟩ := add_token_extends (add_token conf.unk_token_ conf.bos_token_)
      conf.eos_token_
    obtain ⟨p3, h3⟩ := add_token_extends
      (add_token (add_token conf.unk_token_ conf.bos_token_) conf.eos_token_) conf.pad_token_
    refine ⟨p1 ++ p2 ++ p3, ?_⟩
    show add_token (add_token (add_token conf.unk_token_ conf.bos_token_) conf.eos_token_)
      conf.pad_token_ = _
    rw [h3, h2, h1]
    simp
  · intro tok htok
    show ∃ pre post,
      add_token (add_token (add_token conf.unk_token_ conf.bos_token_) conf.eos_token_)
        conf.pad_token_ = pre ++ tok ++ post
    rcases htok with hb | he | hp
    · rw [hb]
      exact occurs_add_token _ tok _ (occurs_add_token _ tok _ (add_token_occurs _ tok))
    · rw [he]
      exact occurs_add_token _ tok _ (add_token_occurs _ tok)
    · rw [hp]
      exact add_token_occurs _ tok

/-! ## Asking for the offsets does not change the ids -/

section offsets_and_ids
variable {κ : Type}

/-- The loop over the chunks with and without offsets, from states with the same result,
cache and call log: when no chunk is empty both runs return, with the same result, cache and
call log. -/
theorem scanLoop_offsets_ids (env : BpeEnv κ) (M : Int) (clean : Bool) (chunks : List ustring)
    (hne : ∀ tok ∈ chunks, env.utf8 tok ≠ []) (st st2 : ScanState κ)
    (hres : st.res = st2.res) (hcache : st.bpe_cache = st2.bpe_cache)
    (hcalls : st.calls = st2.calls) :
    ∃ a b, scanLoop env M true clean chunks st = .ok a ∧
      scanLoop env M false clean chunks st2 = .ok b ∧
      a.res = b.res ∧ a.bpe_cache = b.bpe_cache ∧ a.calls = b.calls := by
  induction chunks generalizing st st2 with
  | nil =>
    unfold scanLoop
    rw [← hres]
    split
    · exact ⟨_, _, rfl, rfl, rfl, hcache, by simp [hcalls]⟩
    · exact ⟨_, _, rfl, rfl, hres, hcache, hcalls⟩
  | cons tok rest ih =>
    unfold scanLoop
    rw [← hres]
    split
    · have htok := hne tok (by simp)
      cases hu : env.utf8 tok with
      | nil => exact absurd hu htok
      | cons c cs =>
        have hadj : ∃ adjusted, spaceAdjust true (c :: cs) st.offset = .ok adjusted := by
          unfold spaceAdjust
          simp only [↓reduceIte, List.head?_cons]
          split
          · exact ⟨_, rfl⟩
          · exact ⟨_, rfl⟩
        obtain ⟨adjusted, hadj⟩ := hadj
        have hadj2 : spaceAdjust false (c :: cs) st2.offset = .ok (st2.offset, 0) := rfl
        rw [hadj, hadj2]
        dsimp only
        apply ih (fun t ht => hne t (List.mem_cons_of_mem _ ht))
        · rw [emitLoop_res, emitLoop_res]
          dsimp only
          rw [hres, hcache]
        · rw [emitLoop_bpe_cache, emitLoop_bpe_cache]
          dsimp only
          rw [hcache]
        · rw [emitLoop_calls, emitLoop_calls]
          dsimp only
          rw [hcalls, hcache]
    · exact ⟨_, _, rfl, rfl, hres, hcache, hcalls⟩

/-- The loop over the segments with and without offsets, see `scanLoop_offsets_ids`. -/
theorem segLoop_offsets_ids (env : BpeEnv κ) (name : Model) (M : Int)
    (hne : ∀ seg, ∀ tok ∈ env.GetNextToken seg, env.utf8 tok ≠ [])
    (segs : List (ustring × Int)) (st st2 : SegState κ)
    (hres : st.res = st2.res) (hcache : st.bpe_cache = st2.bpe_cache)
    (hcalls : st.calls = st2.calls) :
    ∃ a b, segLoop env name M true segs st = .ok a ∧
      segLoop env name M false segs st2 = .ok b ∧
      a.res = b.res ∧ a.bpe_cache = b.bpe_cache ∧ a.calls = b.calls := by
  induction segs generalizing st st2 with
  | nil => exact ⟨st, st2, rfl, rfl, hres, hcache, hcalls⟩
  | cons seg_id rest ih =>
    rw [segLoop_cons, segLoop_cons, ← hres]
    split
    · exact ⟨_, _, rfl, rfl, hres, hcache, hcalls⟩
    · split
      · apply ih
        · rfl
        · exact hcache
        · exact hcalls
      · obtain ⟨a, b, ha, hb, h1, h2, h3⟩ :=
          scanLoop_offsets_ids env M (name == Model.CLIP) (env.GetNextToken seg_id.1)
            (hne seg_id.1)
            { res := st.res, bpe_cache := st.bpe_cache, offset := 0,
              offset_mapping := if true && (name != Model.GPT2) then [(0, 0)] else [],
              calls := st.calls ++ [Call.Set seg_id.1] }
            { res := st.res, bpe_cache := st2.bpe_cache, offset := 0,
              offset_mapping := if false && (name != Model.GPT2) then [(0, 0)] else [],
              calls := st2.calls ++ [Call.Set seg_id.1] }
            rfl hcache (by rw [hcalls])
        rw [ha, hb]
        dsimp only
        exact ih _ _ h1 h2 h3

/-- Without offsets the loop over the segments leaves `offset_map` as it is. -/
theorem segLoop_keeps_offset_map (env : BpeEnv κ) (name : Model) (M : Int)
    (segs : List (ustring × Int)) (st st' : SegState κ)
    (h : segLoop env name M false segs st = .ok st') : st'.offset_map = st.offset_map := by
  refine segLoop_induction env name M false
    (fun _ st st' => st'.offset_map = st.offset_map) ?_ ?_ ?_ ?_ segs st st' h
  · intro st; rfl
  · intro _ _ st _; rfl
  · intro seg_id rest st st' _ _ hP
    exact hP
  · intro seg_id rest st st1 st' _ _ _ hP
    simpa using hP

theorem spaceScan_ne_nil (seg : ustring) : ∀ tok ∈ spaceScan seg, tok ≠ [] := by
  induction seg with
  | nil => simp [spaceScan]
  | cons c cs ih =>
    unfold spaceScan
    cases hcs : spaceScan cs with
    | nil => simp
    | cons g gs =>
      rw [hcs] at ih
      dsimp only
      split
      · intro tok htok
        rcases List.mem_cons.mp htok with h1 | h1
        · rw [h1]; simp
        · exact ih tok h1
      · intro tok htok
        rcases List.mem_cons.mp htok with h1 | h1
        · rw [h1]; simp
        · exact ih tok (List.mem_cons_of_mem _ h1)

end offsets_and_ids

/-- Claim C24. Asking for the offsets does not change the ids: when the scanner hands out
only chunks whose UTF-8 form is not empty, `Tokenize` with `compute_offset_mapping = true`
returns exactly when it returns with `compute_offset_mapping = false`, and with the same id
sequence (the same pre-processed input and the same calls into the collaborators as well);
with `compute_offset_mapping = false` it leaves `offset_map` as it is. -/
theorem C24_offsets_do_not_change_ids {κ : Type} (env : BpeEnv κ) (name : Model)
    (input : ustring) (max_length : Int) (offset_map : List OffsetMappingType)
    (hne : ∀ seg, ∀ tok ∈ env.GetNextToken seg, env.utf8 tok ≠ []) :
    (Tokenize env name input max_length true offset_map).map
        (fun r => (r.res, r.input, r.calls))
      = (Tokenize env name input max_length false offset_map).map
        (fun r => (r.res, r.input, r.calls)) ∧
    ∀ r, Tokenize env name input max_length false offset_map = .ok r →
      r.offset_map = offset_map := by
  constructor
  · unfold Tokenize
    cases hpre : (if name = Model.CLIP then CLIPPreProcess input else Except.ok input) with
    | error e => rfl
    | ok input1 =>
      dsimp only
      split
      · rfl
      · obtain ⟨a, b, ha, hb, h1, h2, h3⟩ :=
          segLoop_offsets_ids env name max_length hne
            (env.SplitBySpecialTokens
              (if name == Model.CLIP then input1.map env.ToLower else input1))
            { res := if name != Model.GPT2 then [env.bos_token_id_] else [],
              bpe_cache := env.bpe_cache.create 500, offset_map := offset_map,
              calls := [Call.SplitBySpecialTokens
                (if name == Model.CLIP then input1.map env.ToLower else input1)] }
            { res := if name != Model.GPT2 then [env.bos_token_id_] else [],
              bpe_cache := env.bpe_cache.create 500, offset_map := offset_map,
              calls := [Call.SplitBySpecialTokens
                (if name == Model.CLIP then input1.map env.ToLower else input1)] }
            rfl rfl rfl
        rw [ha, hb]
        simp only [Except.map, h1, h3]
  · intro r h
    obtain ⟨_, st, _, _, hseg, _, hom, _⟩ :=
      Tokenize_ok env name input max_length false offset_map r h
    rw [hom, segLoop_keeps_offset_map env name max_length _ _ _ hseg]

/-- Claim C24, instance: the small GPT2 tokenizer on `"a bc"` returns the ids
`[97, 32, 98, 99]` with and without offsets. -/
theorem C24_offsets_do_not_change_ids_witness :
    (∀ seg, ∀ tok ∈ asciiEnv.GetNextToken seg, asciiEnv.utf8 tok ≠ []) ∧
    ((Tokenize asciiEnv Model.GPT2 [97, 32, 98, 99] 100 true []).map
        (fun r => (r.res, r.input, r.calls))
      = (Tokenize asciiEnv Model.GPT2 [97, 32, 98, 99] 100 false []).map
        (fun r => (r.res, r.input, r.calls)) ∧
     ∀ r, Tokenize asciiEnv Model.GPT2 [97, 32, 98, 99] 100 false [] = .ok r →
      r.offset_map = []) ∧
    (Tokenize asciiEnv Model.GPT2 [97, 32, 98, 99] 100 true []).map (fun r => r.res)
      = .ok [97, 32, 98, 99] :=
  ⟨spaceScan_ne_nil,
   C24_offsets_do_not_change_ids asciiEnv Model.GPT2 [97, 32, 98, 99] 100 [] spaceScan_ne_nil,
   by decide⟩

/-! ## Truncation keeps a prefix -/

section truncation
variable {κ : Type}

theorem take_budget {α : Type} (m M : Int) (hmM : m ≤ M) (pre X : List α) :
    pre ++ X.take (m - pre.length).toNat
      = (pre ++ X.take (M - pre.length).toNat).take (max m (pre.length : Int)).toNat := by
  have h1 : pre.take (max m (pre.length : Int)).toNat = pre :=
    List.take_of_length_le (by omega)
  rw [List.take_append_eq_append_take, List.take_take, h1]
  congr 2
  omega

theorem emitStep_res_length (com clean : Bool) (sd : Nat) (p : Symbol) (st : ScanState κ) :
    (emitStep com clean sd p st).res.length = st.res.length + 1 := by
  unfold emitStep
  dsimp only
  split
  · split <;> simp
  · simp

/-- The loop that adds the symbols of one chunk does the same with two budgets when the
smaller one has room for all symbols. -/
theorem emitLoop_budget_same (m M : Int) (hmM : m ≤ M) (com clean : Bool) (sd : Nat)
    (ps : List Symbol) (st : ScanState κ)
    (hroom : (st.res.length : Int) + ps.length ≤ m) :
    emitLoop m com clean sd ps st = emitLoop M com clean sd ps st := by
  induction ps generalizing st with
  | nil => rfl
  | cons p ps ih =>
    simp only [List.length_cons, Nat.cast_add, Nat.cast_one] at hroom
    unfold emitLoop
    rw [if_neg (by omega), if_neg (by omega)]
    apply ih
    rw [emitStep_res_length]
    push_cast
    omega

/-- The loop over the chunks with a smaller budget: it returns whenever the run with the
larger budget does, its result is a first part of the other result, and when it ends below
its budget the two runs end in the same state. -/
theorem scanLoop_budget (env : BpeEnv κ) (m M : Int) (hmM : m ≤ M) (com clean : Bool)
    (chunks : List ustring) (st b : ScanState κ)
    (h : scanLoop env M com clean chunks st = .ok b) :
    ∃ a, scanLoop env m com clean chunks st = .ok a ∧
      a.res = b.res.take (max m (st.res.length : Int)).toNat ∧
      ((a.res.length : Int) < m → a = b) := by
  have hexists : ∃ a, scanLoop env m com clean chunks st = .ok a ∧
      ((a.res.length : Int) < m → a = b) := by
    induction chunks generalizing st with
    | nil =>
      unfold scanLoop at h ⊢
      by_cases hlt : (st.res.length : Int) < m
      · rw [if_pos (by omega)] at h
        rw [if_pos hlt]
        exact ⟨_, rfl, fun _ => Except.ok.inj h⟩
      · rw [if_neg hlt]
        exact ⟨_, rfl, fun hx => absurd hx hlt⟩
    | cons tok rest ih =>
      by_cases hlt : (st.res.length : Int) < m
      · unfold scanLoop at h ⊢
        rw [if_pos (by omega)] at h
        rw [if_pos hlt]
        cases hadj : spaceAdjust com (env.utf8 tok) st.offset with
        | error e => rw [hadj] at h; cases h
        | ok adjusted =>
          rw [hadj] at h
          dsimp only at h ⊢
          by_cases hroom : (st.res.length : Int)
              + (lookupOrMerge env clean (env.utf8 tok) st.bpe_cache).1.length ≤ m
          · rw [emitLoop_budget_same m M hmM _ _ _ _ _ (by exact hroom)]
            exact ih _ h
          · refine ⟨_, scanLoop_stop env m com clean rest _ ?_, fun hx => ?_⟩
            · rw [emitLoop_res]
              simp only [List.length_append, List.length_take, List.length_map]
              omega
            · rw [emitLoop_res] at hx
              simp only [List.length_append, List.length_take, List.length_map] at hx
              omega
      · exact ⟨st, scanLoop_stop env m com clean _ st hlt, fun hx => absurd hx hlt⟩
  obtain ⟨a, ha, hsame⟩ := hexists
  refine ⟨a, ha, ?_, hsame⟩
  rw [scanLoop_res env m com clean chunks st a ha, scanLoop_res env M com clean chunks st b h]
  exact take_budget m M hmM _ _

/-- The loop over the segments with a smaller budget: it returns whenever the run with the
larger budget does, and its result is a first part of the other result. -/
theorem segLoop_budget (env : BpeEnv κ) (name : Model) (m M : Int) (hmM : m ≤ M) (com : Bool)
    (segs : List (ustring × Int)) (st b : SegState κ)
    (h : segLoop env name M com segs st = .ok b) :
    ∃ a, segLoop env name m com segs st = .ok a ∧
      a.res = b.res.take (max m (st.res.length : Int)).toNat := by
  induction segs generalizing st with
  | nil =>
    unfold segLoop at h ⊢
    rw [← Except.ok.inj h]
    exact ⟨st, rfl, by rw [List.take_of_length_le (by omega)]⟩
  | cons seg_id rest ih =>
    by_cases hlt : (st.res.length : Int) < m
    · rw [segLoop_cons] at h ⊢
      rw [if_neg (by omega)] at h
      rw [if_neg (by omega)]
      by_cases hid : seg_id.2 ≠ -1
      · rw [if_pos hid] at h
        rw [if_pos hid]
        obtain ⟨a, ha, hres⟩ := ih _ h
        refine ⟨a, ha, ?_⟩
        rw [hres]
        simp only [List.length_append, List.length_singleton]
        congr 1
        push_cast
        omega
      · rw [if_neg hid] at h
        rw [if_neg hid]
        cases hscan : scanLoop env M com (name == Model.CLIP) (env.GetNextToken seg_id.1)
            { res := st.res, bpe_cache := st.bpe_cache, offset := 0,
              offset_mapping := if com && (name != Model.GPT2) then [(0, 0)] else [],
              calls := st.calls ++ [Call.Set seg_id.1] } with
        | error e => rw [hscan] at h; cases h
        | ok bM =>
          rw [hscan] at h
          dsimp only at h
          obtain ⟨am, ham, hres, hsame⟩ := scanLoop_budget env m M hmM _ _ _ _ _ hscan
          rw [ham]
          dsimp only at hres ⊢
          by_cases hend : (am.res.length : Int) < m
          · rw [hsame hend]
            obtain ⟨a, ha, hres2⟩ := ih _ h
            refine ⟨a, ha, ?_⟩
            rw [hres2]
            dsimp only
            rw [hsame hend] at hend
            congr 1
            omega
          · refine ⟨_, segLoop_stop env name m com rest _ (by dsimp only; omega), ?_⟩
            obtain ⟨_, added, _, hext, _⟩ := segLoop_origin env name M com _ _ _ h
            dsimp only at hext ⊢
            have hlen : am.res.length
                = min (max m (st.res.length : Int)).toNat bM.res.length := by
              rw [hres, List.length_take]
            have hle : (max m (st.res.length : Int)).toNat ≤ bM.res.length := by omega
            rw [hext, hres, List.take_append_of_le_length hle]
    · refine ⟨st, segLoop_stop env name m com _ st (by omega), ?_⟩
      obtain ⟨_, added, _, hext, _⟩ := segLoop_origin env name M com _ _ _ h
      have hn : (max m (st.res.length : Int)).toNat = st.res.length := by omega
      rw [hext, hn]
      simp

end truncation

/-! ## The offsets of a chunk that starts with a space -/

section leading_space
variable {κ : Type}

theorem symbolsEnd_closed (o : Nat) (ps : List Symbol) (hpos : ∀ p ∈ ps, 1 ≤ p.2) :
    symbolsEnd 1 o ps + ps.length = o + sourceLength ps := by
  induction ps generalizing o with
  | nil => simp [symbolsEnd, sourceLength]
  | cons p ps ih =>
    have hp := hpos p (by simp)
    have := ih (o + p.2 - 1) (fun q hq => hpos q (List.mem_cons_of_mem _ hq))
    rw [sourceLength_cons]
    simp only [symbolsEnd, List.length_cons]
    omega

theorem symbolPairs_getElem? (o : Nat) (ps : List Symbol) (i : Nat) (p : Symbol)
    (h : ps[i]? = some p) :
    (symbolPairs 1 o ps)[i]?
      = some (symbolsEnd 1 o (ps.take i), symbolsEnd 1 o (ps.take i) + p.2 - 1) := by
  induction ps generalizing o i with
  | nil => simp at h
  | cons q ps ih =>
    cases i with
    | zero =>
      simp only [List.getElem?_cons_zero, Option.some.injEq] at h
      subst h
      simp [symbolPairs, symbolsEnd]
    | succ i =>
      simp only [List.getElem?_cons_succ] at h
      simp only [symbolPairs, List.getElem?_cons_succ, List.take_succ_cons, symbolsEnd]
      exact ih _ i h

end leading_space

/-- Claim C25. Leading-space compensation in the offsets of GPT2 and Roberta: for a chunk
whose first byte is a space and whose `k` symbols, of source lengths `L1 .. Lk`, are all
emitted, the pair of the symbol number `i` is `(o_i, o_i + L_i - 1)`, where `o_i` is the
running offset at that moment, which is the running offset `o` before the chunk plus
`1 + (L1 + .. + L(i-1)) - (i - 1)`; the running offset after the chunk is
`o + 1 + (L1 + .. + Lk) - k`. So it advances by `L1 + .. + Lk` exactly when `k = 1`, and for
`k > 1` the span covered is `k - 1` positions shorter. This holds given that every source
length is at least 1 and the running offset stays in the range of `size_t`. -/
theorem C25_leading_space_compensation {κ : Type} (env : BpeEnv κ) (max_length : Int)
    (tok : ustring) (st st' : ScanState κ) (ps : List Symbol)
    (hspace : (env.utf8 tok).head? = some 0x20)
    (hps : (lookupOrMerge env false (env.utf8 tok) st.bpe_cache).1 = ps)
    (hroom : (st.res.length : Int) + ps.length ≤ max_length)
    (hreached : (st.res.length : Int) < max_length)
    (hpos : ∀ p ∈ ps, 1 ≤ p.2)
    (hfit : st.offset + 1 + sourceLength ps < 18446744073709551616)
    (h : scanLoop env max_length true false [tok] st = .ok st') :
    st'.offset_mapping.length = st.offset_mapping.length + ps.length ∧
    (∀ i p, ps[i]? = some p →
      st'.offset_mapping[st.offset_mapping.length + i]?
        = some (st.offset + 1 + sourceLength (ps.take i) - i,
            st.offset + 1 + sourceLength (ps.take i) - i + p.2 - 1)) ∧
    st'.offset + ps.length = st.offset + 1 + sourceLength ps ∧
    (st'.offset = st.offset + sourceLength ps ↔ ps.length = 1) ∧
    (1 < ps.length → st'.offset - st.offset + (ps.length - 1) = sourceLength ps) := by
  unfold scanLoop at h
  rw [if_pos hreached] at h
  cases hadj : spaceAdjust true (env.utf8 tok) st.offset with
  | error e => rw [hadj] at h; cases h
  | ok adjusted =>
    rw [hadj] at h
    dsimp only at h
    rw [hps] at h
    obtain ⟨hstart, hcase⟩ :=
      spaceAdjust_chunkStart false (env.utf8 tok) st.offset adjusted hadj (by omega)
    have hstart' : adjusted.1 = st.offset + 1 := by
      rw [hstart]; simp [chunkStart, hspace]
    have hloss : spaceLoss false (env.utf8 tok) = 1 := by simp [spaceLoss, hspace]
    have hsd : adjusted.2 = 18446744073709551615 := by
      rcases hcase with ⟨h0, _⟩ | ⟨_, _, h2⟩
      · rw [hloss] at h0; cases h0
      · exact h2
    obtain ⟨hmap, hend⟩ :=
      emitLoop_pairs max_length false adjusted.2 1 ps
        { st with
          offset := adjusted.1
          bpe_cache := (lookupOrMerge env false (env.utf8 tok) st.bpe_cache).2.1
          calls := (st.calls ++ [Call.GetNextToken (some tok)])
            ++ (lookupOrMerge env false (env.utf8 tok) st.bpe_cache).2.2 }
        (Or.inr ⟨rfl, rfl, hsd, hpos⟩) (by dsimp only; omega)
    dsimp only at hmap hend
    have hall : (symbolPairs 1 adjusted.1 ps).take (max_length - st.res.length).toNat
        = symbolPairs 1 adjusted.1 ps :=
      List.take_of_length_le (by rw [symbolPairs_length]; omega)
    rw [hall] at hmap
    have hend' := hend (by omega)
    have hfinal : st'.offset_mapping = st.offset_mapping ++ symbolPairs 1 (st.offset + 1) ps ∧
        st'.offset = symbolsEnd 1 (st.offset + 1) ps := by
      unfold scanLoop at h
      rw [← hstart', ← hmap, ← hend']
      split at h
      · rw [← Except.ok.inj h]
        exact ⟨rfl, rfl⟩
      · rw [← Except.ok.inj h]
        exact ⟨rfl, rfl⟩
    obtain ⟨hfm, hfo⟩ := hfinal
    have hclosed := symbolsEnd_closed (st.offset + 1) ps hpos
    have hlen : ps.length ≤ sourceLength ps := by
      have := symbolsEnd_closed 0 ps hpos
      omega
    refine ⟨by rw [hfm, List.length_append, symbolPairs_length], ?_, by omega, by omega,
      by omega⟩
    intro i p hi
    have hilt : i < ps.length := by
      by_contra hge
      rw [List.getElem?_eq_none (by omega)] at hi
      cases hi
    have hpre := symbolsEnd_closed (st.offset + 1) (ps.take i)
      (fun q hq => hpos q (List.mem_of_mem_take hq))
    rw [List.length_take, Nat.min_eq_left (by omega)] at hpre
    rw [hfm, List.getElem?_append_right (by omega), Nat.add_sub_cancel_left,
      symbolPairs_getElem? _ _ _ _ hi]
    have heq : symbolsEnd 1 (st.offset + 1) (ps.take i)
        = st.offset + 1 + sourceLength (ps.take i) - i := by omega
    rw [heq]

/-- Claim C25, instance: the chunk `" bc"` of the small GPT2 tokenizer, three symbols of
source length 1, from the running offset 1: each gets the pair `(2, 2)` and the running
offset ends at 2. -/
theorem C25_leading_space_compensation_witness :
    ((asciiEnv.utf8 [32, 98, 99]).head? = some 0x20 ∧
      (lookupOrMerge asciiEnv false (asciiEnv.utf8 [32, 98, 99]) []).1
        = [(32, 1), (98, 1), (99, 1)] ∧
      (∀ p ∈ ([(32, 1), (98, 1), (99, 1)] : List Symbol), 1 ≤ p.2) ∧
      scanLoop asciiEnv 100 true false [[32, 98, 99]]
          { res := [97], bpe_cache := [], offset := 1, offset_mapping := [(0, 1)], calls := [] }
        = .ok { res := [97, 32, 98, 99],
                bpe_cache := [([32, 98, 99], [(32, 1), (98, 1), (99, 1)])],
                offset := 2, offset_mapping := [(0, 1), (2, 2), (2, 2), (2, 2)],
                calls := [Call.GetNextToken (some [32, 98, 99]),
                  Call.already_tokenized [32, 98, 99] false,
                  Call.bpe [(32, 1), (98, 1), (99, 1)] [(32, 1), (98, 1), (99, 1)],
                  Call.add [32, 98, 99] [(32, 1), (98, 1), (99, 1)],
                  Call.GetNextToken none] }) ∧
    (([(0, 1), (2, 2), (2, 2), (2, 2)] : OffsetMappingType).length
        = ([(0, 1)] : OffsetMappingType).length + ([(32, 1), (98, 1), (99, 1)] : List Symbol).length ∧
      (∀ i p, ([(32, 1), (98, 1), (99, 1)] : List Symbol)[i]? = some p →
        ([(0, 1), (2, 2), (2, 2), (2, 2)] : OffsetMappingType)[
            ([(0, 1)] : OffsetMappingType).length + i]?
          = some (1 + 1 + sourceLength (([(32, 1), (98, 1), (99, 1)] : List Symbol).take i) - i,
              1 + 1 + sourceLength (([(32, 1), (98, 1), (99, 1)] : List Symbol).take i) - i
                + p.2 - 1)) ∧
      2 + ([(32, 1), (98, 1), (99, 1)] : List Symbol).length
        = 1 + 1 + sourceLength [(32, 1), (98, 1), (99, 1)] ∧
      (2 = 1 + sourceLength [(32, 1), (98, 1), (99, 1)] ↔
        ([(32, 1), (98, 1), (99, 1)] : List Symbol).length = 1) ∧
      (1 < ([(32, 1), (98, 1), (99, 1)] : List Symbol).length →
        2 - 1 + (([(32, 1), (98, 1), (99, 1)] : List Symbol).length - 1)
          = sourceLength [(32, 1), (98, 1), (99, 1)])) :=
  ⟨⟨rfl, rfl, by decide, rfl⟩,
   C25_leading_space_compensation asciiEnv 100 [32, 98, 99]
     { res := [97], bpe_cache := [], offset := 1, offset_mapping := [(0, 1)], calls := [] }
     { res := [97, 32, 98, 99], bpe_cache := [([32, 98, 99], [(32, 1), (98, 1), (99, 1)])],
       offset := 2, offset_mapping := [(0, 1), (2, 2), (2, 2), (2, 2)],
       calls := [Call.GetNextToken (some [32, 98, 99]),
         Call.already_tokenized [32, 98, 99] false,
         Call.bpe [(32, 1), (98, 1), (99, 1)] [(32, 1), (98, 1), (99, 1)],
         Call.add [32, 98, 99] [(32, 1), (98, 1), (99, 1)],
         Call.GetNextToken none] }
     [(32, 1), (98, 1), (99, 1)] rfl rfl (by decide) (by decide) (by decide) (by decide) rfl⟩

/-! ## The list handed to the merge engine -/

section initial_list
variable {κ : Type}

theorem clipByteList_length (env : BpeEnv κ) (l : Bytes) :
    (clipByteList env l).length = l.length := by
  induction l with
  | nil => rfl
  | cons c rest ih =>
    cases rest with
    | nil => rfl
    | cons d rest =>
      simp only [clipByteList, List.length_cons] at ih ⊢
      omega

theorem clipByteList_getElem? (env : BpeEnv κ) (l : Bytes) (i byte : Nat)
    (h : l[i]? = some byte) :
    (clipByteList env l)[i]?
      = some (if i + 1 = l.length then env.GetTokenId [byte, 0x3C, 0x2F, 0x77, 0x3E]
          else env.ByteEncoder byte, 1) := by
  induction l generalizing i with
  | nil => simp at h
  | cons c rest ih =>
    cases rest with
    | nil =>
      cases i with
      | zero =>
        simp only [List.getElem?_cons_zero, Option.some.injEq] at h
        subst h
        simp [clipByteList]
      | succ i => simp at h
    | cons d rest =>
      cases i with
      | zero =>
        simp only [List.getElem?_cons_zero, Option.some.injEq] at h
        subst h
        simp [clipByteList]
      | succ i =>
        simp only [List.getElem?_cons_succ] at h
        have := ih i h
        simp only [clipByteList, List.getElem?_cons_succ, List.length_cons] at this ⊢
        rw [this]
        simp

theorem clipByteList_filter_nil (env : BpeEnv κ) (u : Bytes) (h : ∀ c ∈ u, c = 0x20) :
    clipByteList env (u.filter (fun c => c != 0x20)) = [] := by
  have : u.filter (fun c => c != 0x20) = [] := by
    rw [List.filter_eq_nil_iff]
    intro c hc
    simp [h c hc]
  rw [this]
  rfl

/-- A call of the merge engine in one lookup: there was a miss, and the list handed over is
the encoding of the chunk. -/
theorem bpe_mem_lookupOrMerge (env : BpeEnv κ) (clean : Bool) (key : Bytes) (cache : κ)
    (byte_list merged : List Symbol)
    (h : Call.bpe byte_list merged ∈ (lookupOrMerge env clean key cache).2.2) :
    byte_list = encodeChunk env clean key ∧ merged = env.bpe byte_list ∧
      Call.already_tokenized key false ∈ (lookupOrMerge env clean key cache).2.2 := by
  unfold lookupOrMerge at h ⊢
  split at h
  · simp at h
  · rename_i hmiss
    rw [if_neg hmiss]
    cases clean with
    | true =>
      simp only [↓reduceIte, List.mem_cons, Call.bpe.injEq, reduceCtorEq, false_or,
        List.mem_singleton, or_false, List.not_mem_nil] at h
      obtain ⟨h1, h2⟩ := h
      refine ⟨by rw [h1]; rfl, by rw [h2, h1], by simp⟩
    | false =>
      simp only [Bool.false_eq_true, ↓reduceIte, List.mem_cons, Call.bpe.injEq, reduceCtorEq,
        false_or, List.mem_singleton, or_false, List.not_mem_nil] at h
      obtain ⟨h1, h2⟩ := h
      refine ⟨by rw [h1]; rfl, by rw [h2, h1], by simp⟩

/-- Every call of the merge engine in the loop over the chunks of a segment is for a chunk
that the scanner handed out and that the cache did not hold, with the encoding of the
chunk. -/
theorem scanLoop_bpe (env : BpeEnv κ) (M : Int) (com clean : Bool) (chunks : List ustring)
    (st st' : ScanState κ) (h : scanLoop env M com clean chunks st = .ok st') :
    ∃ new, st'.calls = st.calls ++ new ∧
      ∀ byte_list merged, Call.bpe byte_list merged ∈ new →
        ∃ tok ∈ fetchedChunks new, Call.already_tokenized (env.utf8 tok) false ∈ new ∧
          byte_list = encodeChunk env clean (env.utf8 tok) ∧ merged = env.bpe byte_list := by
  refine scanLoop_induction env M com clean
    (fun _ st st' => ∃ new, st'.calls = st.calls ++ new ∧
      ∀ byte_list merged, Call.bpe byte_list merged ∈ new →
        ∃ tok ∈ fetchedChunks new, Call.already_tokenized (env.utf8 tok) false ∈ new ∧
          byte_list = encodeChunk env clean (env.utf8 tok) ∧ merged = env.bpe byte_list)
    ?_ ?_ ?_ chunks st st' h
  · intro _ st _
    exact ⟨[], by simp, by simp⟩
  · intro st _
    exact ⟨[Call.GetNextToken none], rfl, by simp⟩
  · intro tok rest st adjusted st' _ _ hP
    rw [emitLoop_calls] at hP
    obtain ⟨new, hc, hnew⟩ := hP
    dsimp only at hc
    refine ⟨[Call.GetNextToken (some tok)]
        ++ (lookupOrMerge env clean (env.utf8 tok) st.bpe_cache).2.2 ++ new, ?_, ?_⟩
    · rw [hc]; simp
    · intro byte_list merged hmem
      rw [fetchedChunks_append, fetchedChunks_append, fetchedChunks_lookupOrMerge]
      rcases List.mem_append.mp hmem with h1 | h1
      · rcases List.mem_append.mp h1 with h2 | h2
        · simp at h2
        · obtain ⟨hb, hm, hmiss⟩ := bpe_mem_lookupOrMerge env clean _ _ _ _ h2
          refine ⟨tok, by simp [fetchedChunks, fetched], ?_, hb, hm⟩
          exact List.mem_append_left _ (List.mem_append_right _ hmiss)
      · obtain ⟨tok1, ht1, hmiss1, hb1, hm1⟩ := hnew byte_list merged h1
        exact ⟨tok1, by simp [ht1], List.mem_append_right _ hmiss1, hb1, hm1⟩

/-- The calls of the merge engine in the loop over the segments, see `scanLoop_bpe`. -/
theorem segLoop_bpe (env : BpeEnv κ) (name : Model) (M : Int) (com : Bool)
    (segs : List (ustring × Int)) (st st' : SegState κ)
    (h : segLoop env name M com segs st = .ok st') :
    ∃ new, st'.calls = st.calls ++ new ∧
      ∀ byte_list merged, Call.bpe byte_list merged ∈ new →
        ∃ tok ∈ fetchedChunks new, Call.already_tokenized (env.utf8 tok) false ∈ new ∧
          byte_list = encodeChunk env (name == Model.CLIP) (env.utf8 tok) ∧
          merged = env.bpe byte_list := by
  refine segLoop_induction env name M com
    (fun _ st st' => ∃ new, st'.calls = st.calls ++ new ∧
      ∀ byte_list merged, Call.bpe byte_list merged ∈ new →
        ∃ tok ∈ fetchedChunks new, Call.already_tokenized (env.utf8 tok) false ∈ new ∧
          byte_list = encodeChunk env (name == Model.CLIP) (env.utf8 tok) ∧
          merged = env.bpe byte_list) ?_ ?_ ?_ ?_ segs st st' h
  · intro st
    exact ⟨[], by simp, by simp⟩
  · intro _ _ st _
    exact ⟨[], by simp, by simp⟩
  · intro seg_id rest st st' _ _ hP
    exact hP
  · intro seg_id rest st st1 st' _ _ hscan hP
    obtain ⟨new1, hc1, hnew1⟩ := scanLoop_bpe env M com _ _ _ _ hscan
    obtain ⟨new, hc, hnew⟩ := hP
    dsimp only at hc hc1
    refine ⟨[Call.Set seg_id.1] ++ new1 ++ new, by rw [hc, hc1]; simp, ?_⟩
    intro byte_list merged hmem
    rw [fetchedChunks_append, fetchedChunks_append]
    rcases List.mem_append.mp hmem with h1 | h1
    · rcases List.mem_append.mp h1 with h2 | h2
      · simp at h2
      · obtain ⟨tok1, ht1, hmiss1, hb1, hm1⟩ := hnew1 byte_list merged h2
        exact ⟨tok1, by simp [ht1],
          List.mem_append_left _ (List.mem_append_right _ hmiss1), hb1, hm1⟩
    · obtain ⟨tok1, ht1, hmiss1, hb1, hm1⟩ := hnew byte_list merged h1
      exact ⟨tok1, by simp [ht1], List.mem_append_right _ hmiss1, hb1, hm1⟩

end initial_list

/-! ## The ids of a run, without the cache -/

section cache_free
variable {κ : Type}

theorem take_take_append {α : Type} (n : Nat) (S R : List α) :
    (S.take n ++ R).take n = (S ++ R).take n := by
  by_cases hle : n ≤ S.length
  · have h1 : (S.take n ++ R).take n = (S.take n).take n :=
      List.take_append_of_le_length (by rw [List.length_take]; omega)
    have h2 : (S ++ R).take n = S.take n := List.take_append_of_le_length hle
    rw [h1, h2, List.take_take, Nat.min_self]
  · have h3 : S.take n = S := List.take_of_length_le (by omega)
    rw [h3]

theorem take_budget_segment {α : Type} (n : Nat) (pre S R : List α) :
    ((pre ++ S.take (n - pre.length)) ++ R).take n = (pre ++ (S ++ R)).take n := by
  have hL : (pre ++ (S.take (n - pre.length) ++ R)).take n
      = pre.take n ++ (S.take (n - pre.length) ++ R).take (n - pre.length) :=
    List.take_append_eq_append_take
  have hR : (pre ++ (S ++ R)).take n = pre.take n ++ (S ++ R).take (n - pre.length) :=
    List.take_append_eq_append_take
  rw [List.append_assoc, hL, hR, take_take_append]

/-- With a lawful cache all of whose entries hold the merge of the encoding of their key, the
symbols of the chunks of a segment are the merges of the encodings of the chunks. -/
theorem symbolsOf_lawful (env : BpeEnv κ) (clean : Bool)
    (view : κ → Bytes → Option (List Symbol))
    (hget : ∀ c key, env.bpe_cache.already_tokenized c key = true →
      view c key = some (env.bpe_cache.get_output c key).2)
    (hkeep : ∀ c key key1 value, view (env.bpe_cache.get_output c key).1 key1 = some value →
      view c key1 = some value)
    (hadd : ∀ c key value key1 value1, view (env.bpe_cache.add c key value) key1 = some value1 →
      (key1 = key ∧ value1 = value) ∨ view c key1 = some value1)
    (chunks : List ustring) (cache : κ)
    (hinv : ∀ k v, view cache k = some v → v = env.bpe (encodeChunk env clean k)) :
    symbolsOf env clean chunks cache
      = (chunks.map (fun tok => env.bpe (encodeChunk env clean (env.utf8 tok)))).flatten := by
  induction chunks generalizing cache with
  | nil => rfl
  | cons tok rest ih =>
    obtain ⟨hfound, hinv1⟩ :=
      lookupOrMerge_transparent env clean view hget hkeep hadd (env.utf8 tok) cache hinv
    simp only [symbolsOf, List.map_cons, List.flatten_cons]
    rw [hfound, ih _ hinv1]

/-- The result of the loop over the segments with a lawful cache: the first ids, as many as
the budget allows, of the ids that the segments give without a cache. -/
theorem segLoop_closed (env : BpeEnv κ) (name : Model) (M : Int) (com : Bool)
    (view : κ → Bytes → Option (List Symbol))
    (hget : ∀ c key, env.bpe_cache.already_tokenized c key = true →
      view c key = some (env.bpe_cache.get_output c key).2)
    (hkeep : ∀ c key key1 value, view (env.bpe_cache.get_output c key).1 key1 = some value →
      view c key1 = some value)
    (hadd : ∀ c key value key1 value1, view (env.bpe_cache.add c key value) key1 = some value1 →
      (key1 = key ∧ value1 = value) ∨ view c key1 = some value1)
    (segs : List (ustring × Int)) (st st' : SegState κ)
    (h : segLoop env name M com segs st = .ok st')
    (hinv : ∀ k v, view st.bpe_cache k = some v →
      v = env.bpe (encodeChunk env (name == Model.CLIP) k)) :
    st'.res = (st.res ++ segmentIds env (name == Model.CLIP) segs).take
      (max M (st.res.length : Int)).toNat := by
  refine segLoop_induction env name M com
    (fun segs st st' =>
      (∀ k v, view st.bpe_cache k = some v →
        v = env.bpe (encodeChunk env (name == Model.CLIP) k)) →
      st'.res = (st.res ++ segmentIds env (name == Model.CLIP) segs).take
        (max M (st.res.length : Int)).toNat) ?_ ?_ ?_ ?_ segs st st' h hinv
  · intro st _
    have hall : (st.res ++ segmentIds env (name == Model.CLIP) []).take
        (max M (st.res.length : Int)).toNat = st.res ++ segmentIds env (name == Model.CLIP) [] :=
      List.take_of_length_le (by simp only [segmentIds, List.append_nil]; omega)
    rw [hall]
    simp [segmentIds]
  · intro _ _ st hge _
    have hn : (max M (st.res.length : Int)).toNat = st.res.length := by omega
    rw [hn]
    simp
  · intro seg_id rest st st' hlt hid hP hinv
    rw [hP hinv]
    simp only [segmentIds, if_pos hid, List.length_append, List.length_singleton,
      List.append_assoc]
    congr 1
    push_cast
    omega
  · intro seg_id rest st st1 st' hlt hid hscan hP hinv
    obtain ⟨hinv1, _⟩ :=
      scanLoop_transparent env M com (name == Model.CLIP) view hget hkeep hadd _ _ _ hscan hinv
    have hres1 := scanLoop_res env M com _ _ _ _ hscan
    have hlen1 := scanLoop_length env M com _ _ _ _ hscan
    dsimp only at hres1 hlen1 hinv1
    rw [symbolsOf_lawful env _ view hget hkeep hadd _ _ hinv] at hres1
    have hP1 := hP hinv1
    dsimp only at hP1
    have hn1 : (max M (st1.res.length : Int)).toNat = M.toNat := by omega
    have hn : (max M (st.res.length : Int)).toNat = M.toNat := by omega
    have hid' : ¬ seg_id.2 ≠ -1 := by simpa using hid
    rw [hP1, hn1, hn, hres1]
    simp only [segmentIds, if_neg hid']
    have hk : (M - (st.res.length : Int)).toNat = M.toNat - st.res.length := by omega
    rw [hk]
    exact take_budget_segment _ _ _ _

end cache_free

/-- Claim C23. Truncation keeps a prefix: for every family, every input and all budgets
`1 ≤ m ≤ M`, whenever `Tokenize` returns with the budget `M` it returns with the budget `m`,
and the ids before the trailing EOS id (for GPT2 the whole result) that it returns with the
budget `m` are the first `m` of those it returns with the budget `M`, or all of them when
there are fewer. This holds for every implementation of the cache. With a cache that returns
for a present key the value last added under it, the ids before the trailing EOS id are the
first `M` ids of the BOS id (for Roberta and CLIP) followed by the ids that the segments give
without any cache: the state of the cache never changes which ids are emitted. -/
theorem C23_truncation_keeps_prefix {κ : Type} (env : BpeEnv κ) (name : Model)
    (input : ustring) (m M : Int) (compute_offset_mapping : Bool)
    (offset_map : List OffsetMappingType) (r' : TokenizeResult)
    (hm : 1 ≤ m) (hmM : m ≤ M)
    (h' : Tokenize env name input M compute_offset_mapping offset_map = .ok r') :
    (∃ r, Tokenize env name input m compute_offset_mapping offset_map = .ok r ∧
      beforeEOS name r.res = (beforeEOS name r'.res).take m.toNat) ∧
    (LawfulCache env.bpe_cache →
      beforeEOS name r'.res
        = ((if name = Model.GPT2 then [] else [env.bos_token_id_])
            ++ segmentIds env (name == Model.CLIP) (env.SplitBySpecialTokens r'.input)).take
          M.toNat) := by
  constructor
  · unfold Tokenize at h' ⊢
    cases hpre : (if name = Model.CLIP then CLIPPreProcess input else Except.ok input) with
    | error e => rw [hpre] at h'; cases h'
    | ok input1 =>
      rw [hpre] at h'
      dsimp only at h' ⊢
      split at h'
      · rename_i hall
        rw [if_pos hall, ← Except.ok.inj h']
        refine ⟨_, rfl, ?_⟩
        have hname : name = Model.CLIP := by
          simp only [Bool.and_eq_true, beq_iff_eq] at hall
          exact hall.2
        subst hname
        have h1 : (1 : Nat) ≤ m.toNat := by omega
        simpa [beforeEOS] using h1
      · rename_i hall
        rw [if_neg hall]
        cases hseg : segLoop env name M compute_offset_mapping
            (env.SplitBySpecialTokens
              (if name == Model.CLIP then input1.map env.ToLower else input1))
            { res := if name != Model.GPT2 then [env.bos_token_id_] else [],
              bpe_cache := env.bpe_cache.create 500, offset_map := offset_map,
              calls := [Call.SplitBySpecialTokens
                (if name == Model.CLIP then input1.map env.ToLower else input1)] } with
        | error e => rw [hseg] at h'; cases h'
        | ok b =>
          rw [hseg] at h'
          obtain ⟨a, ha, hres⟩ := segLoop_budget env name m M hmM _ _ _ _ hseg
          rw [ha]
          refine ⟨_, rfl, ?_⟩
          rw [← Except.ok.inj h']
          dsimp only at hres ⊢
          have hmax : (max m ((if name != Model.GPT2 then [env.bos_token_id_] else []
              : List Int).length : Int)).toNat = m.toNat := by
            split <;> simp <;> omega
          rw [hmax] at hres
          by_cases hname : name = Model.GPT2
          · subst hname
            simpa [beforeEOS] using hres
          · have hne : (name != Model.GPT2) = true := by simpa using hname
            simp only [beforeEOS, hname, hne, ↓reduceIte, List.dropLast_concat]
            exact hres
  · intro hcache
    obtain ⟨view, hnew, hget, hkeep, hadd⟩ := hcache
    obtain ⟨_, st, _, _, hseg, hres, _, _⟩ :=
      Tokenize_ok env name input M compute_offset_mapping offset_map r' h'
    have hclosed := segLoop_closed env name M compute_offset_mapping view hget hkeep hadd
      _ _ _ hseg (by intro k v hv; rw [hnew] at hv; cases hv)
    dsimp only at hclosed
    have hmax : (max M ((if name != Model.GPT2 then [env.bos_token_id_] else []
        : List Int).length : Int)).toNat = M.toNat := by
      split <;> simp <;> omega
    rw [hmax] at hclosed
    by_cases hname : name = Model.GPT2
    · subst hname
      simp only [bne_self_eq_false, Bool.false_eq_true, ↓reduceIte] at hres hclosed
      simp only [beforeEOS, ↓reduceIte]
      rw [hres, hclosed]
    · have hne : (name != Model.GPT2) = true := by simpa using hname
      simp only [hne, ↓reduceIte] at hres hclosed
      simp only [beforeEOS, hname, ↓reduceIte]
      rw [hres, List.dropLast_concat, hclosed]

/-- Claim C23, instance: the small Roberta tokenizer on `"a b c"` with the budgets 3 and
100. -/
theorem C23_truncation_keeps_prefix_witness :
    ((1 : Int) ≤ 3 ∧ (3 : Int) ≤ 100 ∧
      Tokenize asciiEnv Model.Roberta [97, 32, 98, 32, 99] 100 false [] = .ok robertaRun100) ∧
    ((∃ r, Tokenize asciiEnv Model.Roberta [97, 32, 98, 32, 99] 3 false [] = .ok r ∧
      beforeEOS Model.Roberta r.res
        = (beforeEOS Model.Roberta robertaRun100.res).take (3 : Int).toNat) ∧
     (LawfulCache asciiEnv.bpe_cache →
      beforeEOS Model.Roberta robertaRun100.res
        = ((if Model.Roberta = Model.GPT2 then [] else [asciiEnv.bos_token_id_])
            ++ segmentIds asciiEnv (Model.Roberta == Model.CLIP)
              (asciiEnv.SplitBySpecialTokens robertaRun100.input)).take (100 : Int).toNat)) ∧
    (beforeEOS Model.Roberta robertaRun100.res).take (3 : Int).toNat = [256, 97, 32] :=
  ⟨⟨by decide, by decide, by decide⟩,
   C23_truncation_keeps_prefix asciiEnv Model.Roberta [97, 32, 98, 32, 99] 3 100 false []
     robertaRun100 (by decide) (by decide) (by decide),
   by decide⟩

/-! ## When `Compute` returns, and the rows it writes -/

section compute_returns
variable {κ : Type}

/-- The loop over the strings of the batch returns whenever every call of `Tokenize` in it
does, see `Tokenize_returns`. -/
theorem tokenizeAll_returns (env : BpeEnv κ) (name : Model) (P : Int) (com : Bool)
    (input : List Bytes) (done : List (List Int)) (om : List OffsetMappingType)
    (hclip : name = Model.CLIP → ∀ str ∈ input, AllSpaceUstring (env.from_utf8 str) = false)
    (hne : com = true → ∀ seg, ∀ tok ∈ env.GetNextToken seg, env.utf8 tok ≠ []) :
    ∃ pair, tokenizeAll env name P com input done om = .ok pair := by
  induction input generalizing done om with
  | nil => exact ⟨_, rfl⟩
  | cons str rest ih =>
    obtain ⟨r, hr⟩ := Tokenize_returns env name (env.from_utf8 str)
      (if P < 0 then 4294967295 else P) com om (fun hn => hclip hn str (by simp)) hne
    unfold tokenizeAll
    rw [hr]
    exact ih _ _ (fun hn s hs => hclip hn s (List.mem_cons_of_mem _ hs))

/-- The method `Compute` returns whenever every call of `Tokenize` in it does: for CLIP when
every string of the batch holds a character that is not whitespace, and, when the offsets are
asked for, when the scanner hands out no chunk whose UTF-8 form is empty. -/
theorem Compute_returns (env : BpeEnv κ) (name : Model) (P : Int) (input : List Bytes)
    (input_dim : List Int) (am om : Bool)
    (hclip : name = Model.CLIP → ∀ str ∈ input, AllSpaceUstring (env.from_utf8 str) = false)
    (hne : om = true → ∀ seg, ∀ tok ∈ env.GetNextToken seg, env.utf8 tok ≠ []) :
    ∃ out, Compute env name P input input_dim am om = .ok out := by
  obtain ⟨pair, hpair⟩ := tokenizeAll_returns env name P om input [] [] hclip hne
  obtain ⟨results, offset_map⟩ := pair
  unfold Compute
  dsimp only
  rw [hpair]
  exact ⟨_, rfl⟩

/-- The rows before a row: when they all fit the width `W`, they take `W` entries each. -/
theorem rows_before_length {α : Type} (W : Nat) (f : List Int → List α)
    (hf : ∀ r, (f r).length = max r.length W) (earlier : List (List Int))
    (hfit : ∀ r ∈ earlier, r.length ≤ W) :
    (earlier.map f).flatten.length = earlier.length * W := by
  induction earlier with
  | nil => simp
  | cons r l ih =>
    have h1 := hfit r (by simp)
    have h2 := ih (fun x hx => hfit x (List.mem_cons_of_mem _ hx))
    simp only [List.map_cons, List.flatten_cons, List.length_append, List.length_cons, h2, hf r,
      Nat.max_eq_right h1]
    rw [Nat.add_mul, Nat.one_mul, Nat.add_comm]

/-- The row number `i` of a buffer that holds rows of the width `W`. -/
theorem row_of_flatten {α : Type} (W : Nat) (before row after : List α) (i : Nat)
    (hbefore : before.length = i * W) (hrow : row.length = W) :
    ((before ++ row ++ after).drop (i * W)).take W = row := by
  rw [List.append_assoc, ← hbefore, List.drop_left, ← hrow, List.take_left]

end compute_returns

/-- Claim C5. Auto padding width in `Compute`: with `padding_length_ = -1` the method returns
for every batch (for CLIP: of strings that hold a character that is not whitespace; with the
offsets: when the scanner hands out no empty chunk), every string of the batch is tokenized
with the budget `2^32 - 1`, the width is the greatest length of a result (0 for the empty
batch) and the last entry of the shape, and every row of `token` and of `mask` is written
with exactly that width; with results of 3 and 5 ids the width is 5 and the mask of the first
row is `[1,1,1,0,0]`. -/
theorem C5_auto_padding_width {κ : Type} (env : BpeEnv κ) (name : Model) (input : List Bytes)
    (input_dim : List Int) (attention_mask offset_mapping : Bool) :
    ((name = Model.CLIP → ∀ str ∈ input, AllSpaceUstring (env.from_utf8 str) = false) →
      (offset_mapping = true → ∀ seg, ∀ tok ∈ env.GetNextToken seg, env.utf8 tok ≠ []) →
      ∃ out, Compute env name (-1) input input_dim attention_mask offset_mapping = .ok out) ∧
    ∀ out, Compute env name (-1) input input_dim attention_mask offset_mapping = .ok out →
      List.Forall₂ (fun str res => ∃ om0 r,
          Tokenize env name (env.from_utf8 str) 4294967295 offset_mapping om0 = .ok r ∧
            r.res = res)
        input out.tokenize_results ∧
      out.output_dim = input_dim ++ [size_t_to_int64 out.max_length] ∧
      (∀ res ∈ out.tokenize_results, res.length ≤ out.max_length) ∧
      (input = [] → out.max_length = 0) ∧
      (input ≠ [] → ∃ res ∈ out.tokenize_results, res.length = out.max_length) ∧
      out.token = (out.tokenize_results.map (fun res =>
          res ++ List.replicate (out.max_length - res.length) env.pad_token_id_)).flatten ∧
      (∀ res ∈ out.tokenize_results,
          (res ++ List.replicate (out.max_length - res.length) env.pad_token_id_).length
            = out.max_length) ∧
      out.token.length = input.length * out.max_length ∧
      (attention_mask = true → ∃ mask, out.mask = some mask ∧
          mask = (out.tokenize_results.map (fun res => List.replicate res.length (1 : Int)
            ++ List.replicate (out.max_length - res.length) 0)).flatten ∧
          mask.length = input.length * out.max_length) ∧
      (∀ a b, out.tokenize_results = [a, b] → a.length = 3 → b.length = 5 →
          out.max_length = 5 ∧
          (attention_mask = true → out.mask = some ([1, 1, 1, 0, 0] ++ [1, 1, 1, 1, 1]))) := by
  refine ⟨Compute_returns env name (-1) input input_dim attention_mask offset_mapping, ?_⟩
  intro out h
  obtain ⟨hall, hW, hdim, htoken, hmask⟩ :=
    Compute_ok env name (-1) input input_dim attention_mask offset_mapping out h
  rw [if_pos rfl] at hW
  obtain ⟨added, hadded, hforall⟩ := tokenizeAll_results env name (-1) _ _ _ _ _ _ hall
  rw [List.nil_append] at hadded
  rw [← hadded] at hforall
  simp only [Int.reduceNeg, Int.reduceLT, ↓reduceIte] at hforall
  have hlen : out.tokenize_results.length = input.length := (List.Forall₂.length_eq hforall).symm
  have hupper : ∀ res ∈ out.tokenize_results, res.length ≤ out.max_length := by
    rw [hW]; exact maxSize_upper 0 _
  have hrow : ∀ res ∈ out.tokenize_results,
      (res ++ List.replicate (out.max_length - res.length) env.pad_token_id_).length
        = out.max_length := by
    intro res hres
    have := hupper res hres
    simp only [List.length_append, List.length_replicate]
    omega
  have hmrow : ∀ res ∈ out.tokenize_results,
      (List.replicate res.length (1 : Int)
        ++ List.replicate (out.max_length - res.length) 0).length = out.max_length := by
    intro res hres
    have := hupper res hres
    simp only [List.length_append, List.length_replicate]
    omega
  refine ⟨hforall, hdim, hupper, ?_, ?_, htoken, hrow, ?_, ?_, ?_⟩
  · intro hin
    rw [hin] at hlen
    rw [hW, List.length_eq_zero.mp hlen]
    rfl
  · intro hin
    rcases maxSize_attained 0 out.tokenize_results with h0 | hex
    · cases hres : out.tokenize_results with
      | nil =>
        rw [hres] at hlen
        exact absurd (List.length_eq_zero.mp hlen.symm) hin
      | cons res rest =>
        have hmem : res ∈ out.tokenize_results := by rw [hres]; simp
        have := hupper res hmem
        rw [hW, h0] at this
        exact ⟨res, by simp, by rw [hW, h0]; omega⟩
    · rw [hW]; exact hex
  · rw [htoken, flatten_rows_length out.max_length, List.length_map, hlen]
    intro row hrowmem
    obtain ⟨res, hres, rfl⟩ := List.mem_map.mp hrowmem
    exact hrow res hres
  · intro ham
    rw [ham] at hmask
    refine ⟨_, hmask, rfl, ?_⟩
    rw [flatten_rows_length out.max_length, List.length_map, hlen]
    intro row hrowmem
    obtain ⟨res, hres, rfl⟩ := List.mem_map.mp hrowmem
    exact hmrow res hres
  · intro a b hab ha hb
    have hW5 : out.max_length = 5 := by
      rw [hW, hab]
      simp [maxSize, ha, hb]
    refine ⟨hW5, ?_⟩
    intro ham
    rw [hmask, ham, hab, hW5]
    simp [ha, hb]

/-- Claim C5, instance: the batch `["a", "abc"]` for Roberta gives results of 3 and 5 ids;
the method returns for this batch with the offsets as well. -/
theorem C5_auto_padding_width_witness :
    ((Model.Roberta = Model.CLIP → ∀ str ∈ ([[97], [97, 98, 99]] : List Bytes),
        AllSpaceUstring (asciiEnv.from_utf8 str) = false) ∧
      (∀ seg, ∀ tok ∈ asciiEnv.GetNextToken seg, asciiEnv.utf8 tok ≠ [])) ∧
    (∃ out, Compute asciiEnv Model.Roberta (-1) [[97], [97, 98, 99]] [2] true true = .ok out) ∧
    Compute asciiEnv Model.Roberta (-1) [[97], [97, 98, 99]] [2] true false = .ok autoPadRun ∧
    autoPadRun.max_length = 5 ∧
    autoPadRun.token.length = ([[97], [97, 98, 99]] : List Bytes).length * autoPadRun.max_length ∧
    autoPadRun.mask = some ([1, 1, 1, 0, 0] ++ [1, 1, 1, 1, 1]) :=
  ⟨⟨by decide, spaceScan_ne_nil⟩,
   (C5_auto_padding_width asciiEnv Model.Roberta [[97], [97, 98, 99]] [2] true true).1
     (by decide) (fun _ => spaceScan_ne_nil),
   by decide,
   (((C5_auto_padding_width asciiEnv Model.Roberta [[97], [97, 98, 99]] [2] true false).2
      autoPadRun (by decide)).2.2.2.2.2.2.2.2.2 [256, 97, 257] [256, 97, 98, 99, 257]
        rfl rfl rfl).1,
   by decide, by decide⟩

/-- Claim C6, the code at a failing input, and where the claim holds. The Roberta kernel with
`padding_length_ = 3` on the batch `["a b c", "a"]`: the first result has 4 ids (the EOS id is
added after the budget is used up) and all 4 are written, so the 3 ids of `"a"`, which fit
the width, are written from the index 4 on and the row number 1 of `token`, the entries 3 to
5, is `[257, 256, 97]` and not `[256, 97, 257]`. Where the claim holds: `Compute` returns (for
CLIP when every string holds a character that is not whitespace, with the offsets when the
scanner hands out no empty chunk), and for a batch element whose result has `n ≤ width` ids
and whose earlier elements fit the width as well, the row of the element in `token` is the
`n` ids followed by `width - n` copies of `pad_token_id_` and its row in `mask` is `n` ones
followed by `width - n` zeros; the mask row has exactly `n` ones, it is 1 where the token row
holds an id of the result and 0 where it holds the padding id. -/
theorem C6_row_layout {κ : Type} (env : BpeEnv κ) (name : Model) (padding_length_ : Int)
    (input : List Bytes) (input_dim : List Int) (attention_mask offset_mapping : Bool) :
    (Compute asciiEnv Model.Roberta 3 [[97, 32, 98, 32, 99], [97]] [2] true false
        = .ok { output_dim := [2, 3], offset_dim := [2, 3, 2], max_length := 3,
                tokenize_results := [[256, 97, 32, 257], [256, 97, 257]], offset_map := [],
                token := [256, 97, 32, 257, 256, 97, 257],
                mask := some [1, 1, 1, 1, 1, 1, 1], offset := none } ∧
      (([256, 97, 32, 257, 256, 97, 257] : List Int).drop (1 * 3)).take 3 = [257, 256, 97] ∧
      ([257, 256, 97] : List Int) ≠ [256, 97, 257]) ∧
    ((name = Model.CLIP → ∀ str ∈ input, AllSpaceUstring (env.from_utf8 str) = false) →
      (offset_mapping = true → ∀ seg, ∀ tok ∈ env.GetNextToken seg, env.utf8 tok ≠ []) →
      ∃ out, Compute env name padding_length_ input input_dim attention_mask offset_mapping
        = .ok out) ∧
    ∀ out, Compute env name padding_length_ input input_dim attention_mask offset_mapping
        = .ok out →
      ∀ earlier res later, out.tokenize_results = earlier ++ res :: later →
        (∀ r ∈ earlier, r.length ≤ out.max_length) → res.length ≤ out.max_length →
        (out.token.drop (earlier.length * out.max_length)).take out.max_length
          = res ++ List.replicate (out.max_length - res.length) env.pad_token_id_ ∧
        (attention_mask = true → ∃ mask, out.mask = some mask ∧
          (mask.drop (earlier.length * out.max_length)).take out.max_length
            = List.replicate res.length 1 ++ List.replicate (out.max_length - res.length) 0) ∧
        (List.replicate res.length (1 : Int)
          ++ List.replicate (out.max_length - res.length) 0).count 1 = res.length ∧
        (∀ j, j < res.length →
          (List.replicate res.length (1 : Int)
            ++ List.replicate (out.max_length - res.length) 0)[j]? = some 1 ∧
          (res ++ List.replicate (out.max_length - res.length) env.pad_token_id_)[j]?
            = res[j]?) ∧
        (∀ j, res.length ≤ j → j < out.max_length →
          (List.replicate res.length (1 : Int)
            ++ List.replicate (out.max_length - res.length) 0)[j]? = some 0 ∧
          (res ++ List.replicate (out.max_length - res.length) env.pad_token_id_)[j]?
            = some env.pad_token_id_) := by
  refine ⟨⟨by decide, by decide, by decide⟩,
    Compute_returns env name padding_length_ input input_dim attention_mask offset_mapping, ?_⟩
  intro out h earlier res later hres hfit hn
  obtain ⟨_, _, _, htoken, hmask⟩ :=
    Compute_ok env name padding_length_ input input_dim attention_mask offset_mapping out h
  refine ⟨?_, ?_, ?_, ?_, ?_⟩
  · rw [htoken, hres, List.map_append, List.map_cons, List.flatten_append, List.flatten_cons,
      ← List.append_assoc]
    apply row_of_flatten
    · apply rows_before_length _ _ _ _ hfit
      intro r
      simp only [List.length_append, List.length_replicate]
      omega
    · simp only [List.length_append, List.length_replicate]
      omega
  · intro ham
    rw [ham] at hmask
    refine ⟨_, hmask, ?_⟩
    rw [hres, List.map_append, List.map_cons, List.flatten_append, List.flatten_cons,
      ← List.append_assoc]
    apply row_of_flatten
    · apply rows_before_length _ _ _ _ hfit
      intro r
      simp only [List.length_append, List.length_replicate]
      omega
    · simp only [List.length_append, List.length_replicate]
      omega
  · simp [List.count_replicate]
  · intro j hj
    constructor
    · rw [List.getElem?_append_left (by simpa using hj)]
      simp [List.getElem?_replicate, hj]
    · rw [List.getElem?_append_left hj]
  · intro j hj hW
    constructor
    · rw [List.getElem?_append_right (by simpa using hj)]
      simp only [List.length_replicate, List.getElem?_replicate]
      rw [if_pos (by omega)]
    · rw [List.getElem?_append_right hj]
      simp only [List.getElem?_replicate]
      rw [if_pos (by omega)]

/-- Claim C6, instance of the part that holds: the row of `"a"` in the batch
`["a b c", "a"]` of the GPT2 kernel with `padding_length_ = 3`, whose first result fits the
width, is the row number 1 of `token`. -/
theorem C6_row_layout_witness :
    (Compute asciiEnv Model.GPT2 3 [[97, 32, 98, 32, 99], [97]] [2] true false = .ok fixedPadRun ∧
      fixedPadRun.tokenize_results = [[97, 32, 98]] ++ [97] :: [] ∧
      (∀ r ∈ ([[97, 32, 98]] : List (List Int)), r.length ≤ fixedPadRun.max_length) ∧
      ([97] : List Int).length ≤ fixedPadRun.max_length) ∧
    (fixedPadRun.token.drop (([[97, 32, 98]] : List (List Int)).length
        * fixedPadRun.max_length)).take fixedPadRun.max_length
      = [97] ++ List.replicate (fixedPadRun.max_length - ([97] : List Int).length)
          asciiEnv.pad_token_id_ ∧
    [97] ++ List.replicate (fixedPadRun.max_length - ([97] : List Int).length)
        asciiEnv.pad_token_id_ = [97, 258, 258] :=
  ⟨⟨by decide, by decide, by decide, by decide⟩,
   (((C6_row_layout asciiEnv Model.GPT2 3 [[97, 32, 98, 32, 99], [97]] [2] true false).2.2
      fixedPadRun (by decide)) [[97, 32, 98]] [97] [] (by decide) (by decide) (by decide)).1,
   by decide⟩

/-! ## The lists of pairs that a run adds to `offset_map` -/

section exact_pairs
variable {κ : Type}

theorem segmentPairs_stop (env : BpeEnv κ) (name : Model) (M : Int)
    (segs : List (ustring × Int)) (n : Nat) (cache : κ) (h : (n : Int) ≥ M) :
    segmentPairs env name M segs n cache = [] := by
  cases segs with
  | nil => rfl
  | cons seg_id rest => simp [segmentPairs, h]

/-- A run of the loop over the chunks that ends below its budget has looked up every chunk. -/
theorem scanLoop_cache (env : BpeEnv κ) (M : Int) (com clean : Bool) (chunks : List ustring)
    (st st' : ScanState κ) (h : scanLoop env M com clean chunks st = .ok st')
    (hlt : (st'.res.length : Int) < M) :
    st'.bpe_cache = cacheAfter env clean chunks st.bpe_cache := by
  refine scanLoop_induction env M com clean
    (fun chunks st st' => (st'.res.length : Int) < M →
      st'.bpe_cache = cacheAfter env clean chunks st.bpe_cache) ?_ ?_ ?_ chunks st st' h hlt
  · intro _ st hge hlt
    exact absurd hlt hge
  · intro st _ _
    rfl
  · intro tok rest st adjusted st' _ _ hP hlt
    rw [hP hlt, emitLoop_bpe_cache]
    rfl

/-- The lists a run of `segLoop` with offsets adds to `offset_map` are exactly those of
`segmentPairs`, under the conditions of `scanLoop_pairs`. -/
theorem segLoop_pairs_exact (env : BpeEnv κ) (name : Model) (M : Int)
    (segs : List (ustring × Int)) (st st' : SegState κ)
    (h : segLoop env name M true segs st = .ok st') :
    ∃ new, st'.calls = st.calls ++ new ∧
      ((∀ l ∈ returned new, ∀ p ∈ l, 1 ≤ p.2) →
        offsetSpan new < 18446744073709551616 →
        st'.offset_map
          = st.offset_map ++ segmentPairs env name M segs st.res.length st.bpe_cache) := by
  refine segLoop_induction env name M true
    (fun segs st st' => ∃ new, st'.calls = st.calls ++ new ∧
      ((∀ l ∈ returned new, ∀ p ∈ l, 1 ≤ p.2) →
        offsetSpan new < 18446744073709551616 →
        st'.offset_map
          = st.offset_map ++ segmentPairs env name M segs st.res.length st.bpe_cache))
    ?_ ?_ ?_ ?_ segs st st' h
  · intro st
    exact ⟨[], by simp, fun _ _ => by simp [segmentPairs]⟩
  · intro seg_id rest st hge
    exact ⟨[], by simp, fun _ _ => by rw [segmentPairs_stop env name M _ _ _ hge]; simp⟩
  · intro seg_id rest st st' hlt hid hP
    obtain ⟨new, hc, himp⟩ := hP
    refine ⟨new, hc, fun hpos hfit => ?_⟩
    rw [himp hpos hfit]
    simp only [segmentPairs, if_neg hlt, if_pos hid, List.length_append, List.length_singleton]
  · intro seg_id rest st st1 st' hlt hid hscan hP
    obtain ⟨new, hc, himp⟩ := hP
    obtain ⟨new1, hc1, himp1⟩ := scanLoop_pairs env M _ _ _ _ hscan
    have hres1 := scanLoop_res env M true _ _ _ _ hscan
    dsimp only at hc himp hc1 himp1 hres1
    refine ⟨[Call.Set seg_id.1] ++ new1 ++ new, by rw [hc, hc1]; simp, ?_⟩
    intro hpos hfit
    rw [returned_append, returned_append] at hpos
    rw [offsetSpan_append, offsetSpan_append] at hfit
    have hspan0 : offsetSpan [Call.Set seg_id.1] = 0 := rfl
    rw [hspan0] at hfit
    have hmap := himp1 (fun l hl => hpos l (by simp [hl])) (by omega)
    have hadd := himp (fun l hl => hpos l (by simp [hl])) (by omega)
    simp only [↓reduceIte, Bool.true_and] at hadd hmap
    have hid' : ¬ seg_id.2 ≠ -1 := by simpa using hid
    have hlen1 : st1.res.length = st.res.length + min (M - (st.res.length : Int)).toNat
        (symbolsOf env (name == Model.CLIP) (env.GetNextToken seg_id.1) st.bpe_cache).length := by
      rw [hres1]
      simp only [List.length_append, List.length_take, List.length_map]
    have hrest : segmentPairs env name M rest st1.res.length st1.bpe_cache
        = segmentPairs env name M rest
            (st.res.length + min (M - (st.res.length : Int)).toNat
              (symbolsOf env (name == Model.CLIP) (env.GetNextToken seg_id.1)
                st.bpe_cache).length)
            (cacheAfter env (name == Model.CLIP) (env.GetNextToken seg_id.1) st.bpe_cache) := by
      by_cases hend : (st1.res.length : Int) < M
      · rw [scanLoop_cache env M true _ _ _ _ hscan hend, hlen1]
      · rw [segmentPairs_stop env name M rest _ _ (by omega),
          segmentPairs_stop env name M rest _ _ (by rw [← hlen1]; omega)]
    rw [hadd, hrest, hmap]
    simp only [segmentPairs, if_neg hlt, if_neg hid']
    by_cases hname : name = Model.GPT2
    · subst hname
      simp [wrapPairs]
    · have hne : (name != Model.GPT2) = true := by simpa using hname
      simp [wrapPairs, hname, hne]

end exact_pairs

/-- Claim C11, as stated, fails for GPT2 on `"a bc"`. With a merge engine that merges the
chunk `" bc"` into one symbol of source length 3, the running offset is 2 after the leading
space and the symbol gets the pair `(2, 4)`, the position of `"bc"` in the text; the claim
gives it `(2, 5)`. Without merges the three symbols of `" bc"` have the source length 1; the
claim gives them `(2, 3)`, `(3, 4)`, `(4, 5)`, the code gives each of them `(2, 2)`. -/
theorem C11_emit_arithmetic_counterexample :
    ((Tokenize mergeEnv Model.GPT2 [97, 32, 98, 99] 100 true []).map
        (fun r => (r.offset_map, returned r.calls))
      = .ok ([[(0, 1), (2, 4)]], [[(609, 1)], [(544, 3)]]) ∧
     symbolPairs 0 (chunkStart [32, 98, 99] 1) [(544, 3)] = [(2, 5)] ∧
     ([(2, 5)] : OffsetMappingType) ≠ [(2, 4)]) ∧
    ((Tokenize asciiEnv Model.GPT2 [97, 32, 98, 99] 100 true []).map
        (fun r => (r.offset_map, returned r.calls))
      = .ok ([[(0, 1), (2, 2), (2, 2), (2, 2)]], [[(97, 1)], [(32, 1), (98, 1), (99, 1)]]) ∧
     symbolPairs 0 (chunkStart [32, 98, 99] 1) [(32, 1), (98, 1), (99, 1)]
      = [(2, 3), (3, 4), (4, 5)] ∧
     ([(2, 3), (3, 4), (4, 5)] : OffsetMappingType) ≠ [(2, 2), (2, 2), (2, 2)]) :=
  ⟨⟨rfl, by decide, by decide⟩, ⟨rfl, by decide, by decide⟩⟩

/-- Claim C11, amended. When offsets are asked for, a call of `Tokenize` adds to `offset_map`
exactly the lists of `segmentPairs`: one list per plain-text segment that is reached with
budget left, which holds, for Roberta and CLIP between the pairs `(0, 0)` of BOS and EOS, one
pair per emitted content symbol, computed from the running offset 0 as follows. A chunk whose
first byte is a space moves the running offset by 1; then a symbol of source length `L` gets
the pair `(o, o + L - loss)`, where `o` is the running offset, and moves the running offset
by `L - loss`. The `loss` is 0 for CLIP and for a chunk that does not start with a space; it
is 1 for the symbol of a chunk of GPT2 or Roberta that starts with a space (the code takes it
off every symbol of such a chunk, also when the chunk gives more than one symbol). This holds
given that every symbol returned during the call has a source length of at least 1 and that
the running offset stays in the range of `size_t`. -/
theorem C11_emit_arithmetic {κ : Type} (env : BpeEnv κ) (name : Model) (input : ustring)
    (max_length : Int) (offset_map : List OffsetMappingType) (r : TokenizeResult)
    (h : Tokenize env name input max_length true offset_map = .ok r)
    (hpos : ∀ l ∈ returned r.calls, ∀ p ∈ l, 1 ≤ p.2)
    (hfit : offsetSpan r.calls < 18446744073709551616) :
    r.offset_map = offset_map ++
      segmentPairs env name max_length (env.SplitBySpecialTokens r.input)
        (if name = Model.GPT2 then 0 else 1) (env.bpe_cache.create 500) := by
  obtain ⟨_, st, _, _, hseg, _, hom, hcalls⟩ :=
    Tokenize_ok env name input max_length true offset_map r h
  obtain ⟨new, hc, himp⟩ := segLoop_pairs_exact env name max_length _ _ _ hseg
  dsimp only at hc himp
  rw [hcalls, hc] at hpos hfit
  rw [returned_append] at hpos
  rw [offsetSpan_append] at hfit
  have hadd := himp (fun l hl => hpos l (by simp [hl])) (by omega)
  rw [hom, hadd]
  by_cases hname : name = Model.GPT2
  · subst hname
    rfl
  · have hne : (name != Model.GPT2) = true := by simpa using hname
    simp [hname, hne]

/-- Claim C11, amended, instance: GPT2 with merges on `"a bc"`, with the pair `(0, 1)` for
`"a"` and the pair `(2, 4)` for the one symbol of `" bc"`. -/
theorem C11_emit_arithmetic_witness :
    (Tokenize mergeEnv Model.GPT2 [97, 32, 98, 99] 100 true [] = .ok gpt2MergedRun ∧
      (∀ l ∈ returned gpt2MergedRun.calls, ∀ p ∈ l, 1 ≤ p.2) ∧
      offsetSpan gpt2MergedRun.calls < 18446744073709551616) ∧
    gpt2MergedRun.offset_map = [] ++
      segmentPairs mergeEnv Model.GPT2 100 (mergeEnv.SplitBySpecialTokens gpt2MergedRun.input)
        (if Model.GPT2 = Model.GPT2 then 0 else 1) (mergeEnv.bpe_cache.create 500) ∧
    segmentPairs mergeEnv Model.GPT2 100 (mergeEnv.SplitBySpecialTokens gpt2MergedRun.input)
        (if Model.GPT2 = Model.GPT2 then 0 else 1) (mergeEnv.bpe_cache.create 500)
      = [[(0, 1), (2, 4)]] :=
  ⟨⟨by decide, by decide, by decide⟩,
   C11_emit_arithmetic mergeEnv Model.GPT2 [97, 32, 98, 99] 100 [] gpt2MergedRun
     (by decide) (by decide) (by decide),
   by decide⟩

/-! ## Every chunk is looked up, and a miss goes to the merge engine -/

section lookups
variable {κ : Type}

theorem lookupFollows_nil (env : BpeEnv κ) (clean : Bool) : lookupFollows env clean [] := by
  intro pre post tok h
  cases pre <;> simp at h

theorem lookupFollows_cons_other (env : BpeEnv κ) (clean : Bool) (c : Call) (l : List Call)
    (hc : ∀ tok, c ≠ Call.GetNextToken (some tok)) (h : lookupFollows env clean l) :
    lookupFollows env clean (c :: l) := by
  intro pre post tok heq
  cases pre with
  | nil =>
    simp only [List.nil_append, List.cons.injEq] at heq
    exact absurd heq.1 (hc tok)
  | cons d pre =>
    simp only [List.cons_append, List.cons.injEq] at heq
    exact h pre post tok heq.2

/-- The calls of one lookup, after the call of the scanner that handed out the chunk. -/
theorem lookupFollows_fetch (env : BpeEnv κ) (clean : Bool) (tok : ustring) (cache : κ)
    (tail : List Call) (h : lookupFollows env clean tail) :
    lookupFollows env clean
      (Call.GetNextToken (some tok)
        :: ((lookupOrMerge env clean (env.utf8 tok) cache).2.2 ++ tail)) := by
  have hrest : lookupFollows env clean
      ((lookupOrMerge env clean (env.utf8 tok) cache).2.2 ++ tail) := by
    unfold lookupOrMerge
    split
    · exact lookupFollows_cons_other env clean _ _ (by simp)
        (lookupFollows_cons_other env clean _ _ (by simp) h)
    · split
      · exact lookupFollows_cons_other env clean _ _ (by simp)
          (lookupFollows_cons_other env clean _ _ (by simp)
            (lookupFollows_cons_other env clean _ _ (by simp) h))
      · exact lookupFollows_cons_other env clean _ _ (by simp)
          (lookupFollows_cons_other env clean _ _ (by simp)
            (lookupFollows_cons_other env clean _ _ (by simp) h))
  intro pre post tok1 heq
  cases pre with
  | nil =>
    simp only [List.nil_append, List.cons.injEq, Call.GetNextToken.injEq,
      Option.some.injEq] at heq
    obtain ⟨htok, hpost⟩ := heq
    subst htok
    rw [← hpost]
    unfold lookupOrMerge
    split
    · exact Or.inl ⟨_, tail, rfl⟩
    · cases clean with
      | true => exact Or.inr ⟨_, rfl⟩
      | false => exact Or.inr ⟨_, rfl⟩
  | cons d pre =>
    simp only [List.cons_append, List.cons.injEq] at heq
    exact hrest pre post tok1 heq.2

theorem scanLoop_lookups (env : BpeEnv κ) (M : Int) (com clean : Bool) (chunks : List ustring)
    (st st' : ScanState κ) (h : scanLoop env M com clean chunks st = .ok st') :
    ∃ new, st'.calls = st.calls ++ new ∧
      ∀ tail, lookupFollows env clean tail → lookupFollows env clean (new ++ tail) := by
  refine scanLoop_induction env M com clean
    (fun _ st st' => ∃ new, st'.calls = st.calls ++ new ∧
      ∀ tail, lookupFollows env clean tail → lookupFollows env clean (new ++ tail))
    ?_ ?_ ?_ chunks st st' h
  · intro _ st _
    exact ⟨[], by simp, fun tail ht => ht⟩
  · intro st _
    exact ⟨[Call.GetNextToken none], rfl,
      fun tail ht => lookupFollows_cons_other env clean _ _ (by simp) ht⟩
  · intro tok rest st adjusted st' _ _ hP
    rw [emitLoop_calls] at hP
    obtain ⟨new, hc, hnew⟩ := hP
    dsimp only at hc
    refine ⟨[Call.GetNextToken (some tok)]
        ++ (lookupOrMerge env clean (env.utf8 tok) st.bpe_cache).2.2 ++ new, ?_, ?_⟩
    · rw [hc]; simp
    · intro tail ht
      have := lookupFollows_fetch env clean tok st.bpe_cache (new ++ tail) (hnew tail ht)
      simpa using this

theorem segLoop_lookups (env : BpeEnv κ) (name : Model) (M : Int) (com : Bool)
    (segs : List (ustring × Int)) (st st' : SegState κ)
    (h : segLoop env name M com segs st = .ok st') :
    ∃ new, st'.calls = st.calls ++ new ∧
      ∀ tail, lookupFollows env (name == Model.CLIP) tail →
        lookupFollows env (name == Model.CLIP) (new ++ tail) := by
  refine segLoop_induction env name M com
    (fun _ st st' => ∃ new, st'.calls = st.calls ++ new ∧
      ∀ tail, lookupFollows env (name == Model.CLIP) tail →
        lookupFollows env (name == Model.CLIP) (new ++ tail)) ?_ ?_ ?_ ?_ segs st st' h
  · intro st
    exact ⟨[], by simp, fun tail ht => ht⟩
  · intro _ _ st _
    exact ⟨[], by simp, fun tail ht => ht⟩
  · intro seg_id rest st st' _ _ hP
    exact hP
  · intro seg_id rest st st1 st' _ _ hscan hP
    obtain ⟨new1, hc1, hnew1⟩ := scanLoop_lookups env M com _ _ _ _ hscan
    obtain ⟨new, hc, hnew⟩ := hP
    dsimp only at hc hc1
    refine ⟨[Call.Set seg_id.1] ++ new1 ++ new, by rw [hc, hc1]; simp, ?_⟩
    intro tail ht
    have := lookupFollows_cons_other env (name == Model.CLIP) (Call.Set seg_id.1) _ (by simp)
      (hnew1 (new ++ tail) (hnew tail ht))
    simpa using this

/-- The list that `Tokenize` builds from a chunk on a cache miss is the initial symbol list
of the specification. -/
theorem encodeChunk_isInitialSymbolList (env : BpeEnv κ) (name : Model) (u : Bytes) :
    isInitialSymbolList env name u (encodeChunk env (name == Model.CLIP) u) := by
  constructor
  · intro hname
    have hclean : (name == Model.CLIP) = false := by simpa using hname
    rw [hclean]
    simp only [encodeChunk, Bool.false_eq_true, ↓reduceIte, List.length_map,
      List.getElem?_map, true_and]
    intro i byte hi
    rw [hi]
    rfl
  · intro hname
    have hclean : (name == Model.CLIP) = true := by simpa using hname
    rw [hclean]
    simp only [encodeChunk, ↓reduceIte]
    exact ⟨clipByteList_length env _, fun i byte hi => clipByteList_getElem? env _ i byte hi,
      clipByteList_filter_nil env _⟩

end lookups

/-- Claim C21. The initial symbol list on a cache miss: in every returning call of `Tokenize`
every chunk that the scanner hands out is looked up in the cache at once, and after a miss the
merge engine is called with the initial symbol list of the chunk; every list handed to the
merge engine is the initial symbol list of a chunk that the scanner handed out and that the
cache did not hold. For GPT2 and Roberta the initial symbol list has one entry per UTF-8 byte
of the chunk, in order, each `(ByteEncoder()[byte], 1)`. For CLIP it has one entry per byte of
the chunk with its spaces erased, each of source length 1; the id of an entry is
`ByteEncoder()[byte]`, but for the last entry it is `GetTokenId` of the byte followed by
`</w>`; the list is empty when the chunk holds spaces only. -/
theorem C21_initial_symbol_list {κ : Type} (env : BpeEnv κ) (name : Model) (input : ustring)
    (max_length : Int) (compute_offset_mapping : Bool) (offset_map : List OffsetMappingType)
    (r : TokenizeResult)
    (h : Tokenize env name input max_length compute_offset_mapping offset_map = .ok r) :
    (∀ pre post tok, r.calls = pre ++ Call.GetNextToken (some tok) :: post →
      (∃ out rest, post = Call.already_tokenized (env.utf8 tok) true
          :: Call.get_output (env.utf8 tok) out :: rest) ∨
      (∃ byte_list rest, post = Call.already_tokenized (env.utf8 tok) false
          :: Call.bpe byte_list (env.bpe byte_list) :: rest ∧
        isInitialSymbolList env name (env.utf8 tok) byte_list)) ∧
    (∀ byte_list merged, Call.bpe byte_list merged ∈ r.calls →
      ∃ tok ∈ fetchedChunks r.calls,
        Call.already_tokenized (env.utf8 tok) false ∈ r.calls ∧
        merged = env.bpe byte_list ∧
        isInitialSymbolList env name (env.utf8 tok) byte_list) := by
  obtain ⟨_, st, _, _, hseg, _, _, hcalls⟩ :=
    Tokenize_ok env name input max_length compute_offset_mapping offset_map r h
  constructor
  · obtain ⟨new, hc, hnew⟩ := segLoop_lookups env name max_length _ _ _ _ hseg
    dsimp only at hc
    have hall : lookupFollows env (name == Model.CLIP) r.calls := by
      rw [hcalls, hc]
      have := lookupFollows_cons_other env (name == Model.CLIP)
        (Call.SplitBySpecialTokens r.input) _ (by simp)
        (hnew [] (lookupFollows_nil env _))
      simpa using this
    intro pre post tok heq
    rcases hall pre post tok heq with hhit | ⟨rest, hmiss⟩
    · exact Or.inl hhit
    · exact Or.inr ⟨_, rest, hmiss, encodeChunk_isInitialSymbolList env name _⟩
  · intro byte_list merged hmem
    obtain ⟨new, hc, hnew⟩ := segLoop_bpe env name max_length _ _ _ _ hseg
    dsimp only at hc
    rw [hcalls, hc] at hmem ⊢
    rcases List.mem_append.mp hmem with h1 | h1
    · simp at h1
    · obtain ⟨tok, htok, hmiss, hb, hm⟩ := hnew byte_list merged h1
      refine ⟨tok, by rw [fetchedChunks_append]; simp [htok], List.mem_append_right _ hmiss,
        hm, ?_⟩
      rw [hb]
      exact encodeChunk_isInitialSymbolList env name _

/-- Claim C21, instances: the small GPT2 tokenizer on `"a b b"`, where the chunks `"a"` and
`" b"` are missed and the second `" b"` is found in the cache, and the small CLIP tokenizer on
the same text, where the merge engine is handed the one entry of `"b</w>"` for `" b"`. -/
theorem C21_initial_symbol_list_witness :
    (Tokenize asciiEnv Model.GPT2 [97, 32, 98, 32, 98] 100 false [] = .ok gpt2CacheRun ∧
      Tokenize asciiEnv Model.CLIP [97, 32, 98, 32, 98] 100 false [] = .ok clipRun) ∧
    ((∀ pre post tok, gpt2CacheRun.calls = pre ++ Call.GetNextToken (some tok) :: post →
      (∃ out rest, post = Call.already_tokenized (asciiEnv.utf8 tok) true
          :: Call.get_output (asciiEnv.utf8 tok) out :: rest) ∨
      (∃ byte_list rest, post = Call.already_tokenized (asciiEnv.utf8 tok) false
          :: Call.bpe byte_list (asciiEnv.bpe byte_list) :: rest ∧
        isInitialSymbolList asciiEnv Model.GPT2 (asciiEnv.utf8 tok) byte_list)) ∧
     (∀ byte_list merged, Call.bpe byte_list merged ∈ gpt2CacheRun.calls →
      ∃ tok ∈ fetchedChunks gpt2CacheRun.calls,
        Call.already_tokenized (asciiEnv.utf8 tok) false ∈ gpt2CacheRun.calls ∧
        merged = asciiEnv.bpe byte_list ∧
        isInitialSymbolList asciiEnv Model.GPT2 (asciiEnv.utf8 tok) byte_list)) ∧
    ((∀ pre post tok, clipRun.calls = pre ++ Call.GetNextToken (some tok) :: post →
      (∃ out rest, post = Call.already_tokenized (asciiEnv.utf8 tok) true
          :: Call.get_output (asciiEnv.utf8 tok) out :: rest) ∨
      (∃ byte_list rest, post = Call.already_tokenized (asciiEnv.utf8 tok) false
          :: Call.bpe byte_list (asciiEnv.bpe byte_list) :: rest ∧
        isInitialSymbolList asciiEnv Model.CLIP (asciiEnv.utf8 tok) byte_list)) ∧
     (∀ byte_list merged, Call.bpe byte_list merged ∈ clipRun.calls →
      ∃ tok ∈ fetchedChunks clipRun.calls,
        Call.already_tokenized (asciiEnv.utf8 tok) false ∈ clipRun.calls ∧
        merged = asciiEnv.bpe byte_list ∧
        isInitialSymbolList asciiEnv Model.CLIP (asciiEnv.utf8 tok) byte_list)) :=
  ⟨⟨by decide, by decide⟩,
   C21_initial_symbol_list asciiEnv Model.GPT2 [97, 32, 98, 32, 98] 100 false [] gpt2CacheRun
     (by decide),
   C21_initial_symbol_list asciiEnv Model.CLIP [97, 32, 98, 32, 98] 100 false [] clipRun
     (by decide)⟩

end BpeKernels
